import Mathlib

/-!
office-ghosts: the maze screensaver simulation core

A shallow embedding of `src/screensaver.js` (classes `Maze`, `Debugger`, `Bug`,
`Screensaver.update`) and of `src/refresh.js` (`setupAutoRefresh`), and the properties
established about them.

Conventions of the embedding

* JavaScript numbers that hold grid indices are `Int`. Times, positions, progress and the other
  fractional numbers are IEEE 754 binary64 values (`Dbl`): every `+`, `-`, `*` and `Math.sqrt`
  of the source is the exact result rounded to the nearest value, ties to even, with the
  infinities and `NaN`; the two zeros are one value. The index `Math.floor(Math.random() * k)`
  is computed on the draw as a rational.
* `Math.random()` is an explicit stream `Rng = Nat → Draw`; every function that draws takes the
  stream and the position of the next draw and returns the position after its last draw.
* A JavaScript array is a `List`; reading outside it gives `none` (`undefined`).
* A thrown exception is `Except.error`; loops that the source writes as `while` take a fuel
  argument and report `Stop.outOfFuel` when it is exhausted.
* In the embedding of `refresh.js` a run is the list of calls made (scheduler, reload) together
  with the value returned or the error thrown; objects are immutable values with data properties
  only (no getters, no proxies), and the behaviour of host functions is a parameter (`Host`).
* Canvas drawing, the particle field, the sparks and the cosmetic fields (angles, trail, phases)
  are left out; where a modelled method spends draws on them (`floatPhase` in `spawn`, the sparks
  of a capture) the position in the stream still advances.
-/

set_option maxRecDepth 100000

namespace OfficeGhosts

/-! ## The program -/

/-- One value of `Math.random()`: the rational `num / den`, which lies in `[0, 1)`. -/
structure Draw where
  num : Nat
  den : Nat
  lt : num < den

/-- An IEEE 754 binary64 value, the `number` of JavaScript. `finite m e` is the number `m * 2^e`;
the two zeros are one value, since no operation of the program tells them apart. -/
inductive Dbl where
  | finite (m : Int) (e : Int)
  | posInf
  | negInf
  | nan
  deriving DecidableEq, Repr

/-- The power `2^k`, as a shift. -/
def Dbl.pow2 (k : Nat) : Nat := 1 <<< k

/-- The number of binary digits of `n`, with `fuel ≥ n`. -/
def Dbl.bitsAux : Nat → Nat → Nat
  | 0, _ => 0
  | fuel + 1, n => if n = 0 then 0 else Dbl.bitsAux fuel (n / 2) + 1

/-- The number of binary digits of `n`. -/
def Dbl.bits (n : Nat) : Nat := Dbl.bitsAux n n

/-- The integer nearest to `n / 2^s`, ties to even (`n * 2^(-s)` when `s ≤ 0`). -/
def Dbl.roundShift (n : Nat) (s : Int) : Nat :=
  if s ≤ 0 then n * Dbl.pow2 (-s).toNat
  else if Dbl.pow2 (s.toNat - 1) < n % Dbl.pow2 s.toNat ∨
      (n % Dbl.pow2 s.toNat = Dbl.pow2 (s.toNat - 1) ∧ n / Dbl.pow2 s.toNat % 2 = 1) then
    n / Dbl.pow2 s.toNat + 1
  else n / Dbl.pow2 s.toNat

/-- The exponent of the binary64 values around `n * 2^e`: 53 digits are kept, and no exponent
is below `-1074`. -/
def Dbl.roundExp (n : Nat) (e : Int) : Int := max (e + (Dbl.bits n : Int) - 53) (-1074)

/-- The value with significand `q` and exponent `e`, or an infinity when `e` is beyond the
range. -/
def Dbl.pack (negative : Bool) (q : Nat) (e : Int) : Dbl :=
  if 971 < e then (if negative = true then .negInf else .posInf)
  else .finite (if negative = true then -(q : Int) else (q : Int)) e

/-- Rounding of the exact result `m * 2^e` of an operation: the nearest binary64 value, ties to
the even significand, an infinity beyond the range. Results have a significand below `2^53` and
an exponent from `-1074` to `971`; significands below `2^52` (subnormal numbers and zero) have
the exponent `-1074`. A significand that rounds up to `2^53` becomes `2^52` at the next
exponent. -/
def Dbl.round (m e : Int) : Dbl :=
  if m = 0 then .finite 0 (-1074)
  else if Dbl.roundShift m.natAbs (Dbl.roundExp m.natAbs e - e) = 2 ^ 53 then
    Dbl.pack (decide (m < 0)) (2 ^ 52) (Dbl.roundExp m.natAbs e + 1)
  else
    Dbl.pack (decide (m < 0)) (Dbl.roundShift m.natAbs (Dbl.roundExp m.natAbs e - e))
      (Dbl.roundExp m.natAbs e)

/-- The value of a numeric literal `num / den` (`den > 0`): the nearest binary64 value. The
quotient is cut at `2^-1075`, of which every binary64 value and every midpoint of two neighbours
is a multiple, and what is cut off is replaced by half a unit. -/
def Dbl.ofRat (num : Int) (den : Nat) : Dbl :=
  let n : Nat :=
    2 * (num.natAbs * Dbl.pow2 1075 / den) +
      (if num.natAbs * Dbl.pow2 1075 % den = 0 then 0 else 1)
  Dbl.round (if 0 ≤ num then (n : Int) else -(n : Int)) (-1076)

/-- The conversion of an integer to a number. -/
def Dbl.ofInt (n : Int) : Dbl := Dbl.round n 0

instance (n : Nat) : OfNat Dbl n := ⟨Dbl.ofInt n⟩

/-- The unary minus. -/
def Dbl.neg : Dbl → Dbl
  | .finite m e => .finite (-m) e
  | .posInf => .negInf
  | .negInf => .posInf
  | .nan => .nan

/-- The operator `+`. -/
def Dbl.add : Dbl → Dbl → Dbl
  | .nan, _ => .nan
  | _, .nan => .nan
  | .posInf, .negInf => .nan
  | .negInf, .posInf => .nan
  | .posInf, _ => .posInf
  | _, .posInf => .posInf
  | .negInf, _ => .negInf
  | _, .negInf => .negInf
  | .finite m1 e1, .finite m2 e2 =>
    Dbl.round (m1 * Dbl.pow2 (e1 - min e1 e2).toNat + m2 * Dbl.pow2 (e2 - min e1 e2).toNat)
      (min e1 e2)

/-- The operator `-`. -/
def Dbl.sub (a b : Dbl) : Dbl := Dbl.add a (Dbl.neg b)

/-- The operator `*`. -/
def Dbl.mul : Dbl → Dbl → Dbl
  | .nan, _ => .nan
  | _, .nan => .nan
  | .finite m1 e1, .finite m2 e2 => Dbl.round (m1 * m2) (e1 + e2)
  | .finite m _, .posInf => if m = 0 then .nan else if 0 < m then .posInf else .negInf
  | .finite m _, .negInf => if m = 0 then .nan else if 0 < m then .negInf else .posInf
  | .posInf, .finite m _ => if m = 0 then .nan else if 0 < m then .posInf else .negInf
  | .negInf, .finite m _ => if m = 0 then .nan else if 0 < m then .negInf else .posInf
  | .posInf, .posInf => .posInf
  | .posInf, .negInf => .negInf
  | .negInf, .posInf => .negInf
  | .negInf, .negInf => .posInf

instance : Neg Dbl := ⟨Dbl.neg⟩
instance : Add Dbl := ⟨Dbl.add⟩
instance : Sub Dbl := ⟨Dbl.sub⟩
instance : Mul Dbl := ⟨Dbl.mul⟩

/-- The operator `<`. -/
def Dbl.lt : Dbl → Dbl → Bool
  | .nan, _ => false
  | _, .nan => false
  | .finite m1 e1, .finite m2 e2 =>
    decide (m1 * Dbl.pow2 (e1 - min e1 e2).toNat < m2 * Dbl.pow2 (e2 - min e1 e2).toNat)
  | .finite _ _, .posInf => true
  | .finite _ _, .negInf => false
  | .posInf, _ => false
  | .negInf, .negInf => false
  | .negInf, _ => true

/-- The operator `<=`. -/
def Dbl.le : Dbl → Dbl → Bool
  | .nan, _ => false
  | _, .nan => false
  | .finite m1 e1, .finite m2 e2 =>
    decide (m1 * Dbl.pow2 (e1 - min e1 e2).toNat ≤ m2 * Dbl.pow2 (e2 - min e1 e2).toNat)
  | .finite _ _, .posInf => true
  | .finite _ _, .negInf => false
  | .posInf, .posInf => true
  | .posInf, _ => false
  | .negInf, _ => true

instance : LT Dbl := ⟨fun a b => Dbl.lt a b = true⟩
instance : LE Dbl := ⟨fun a b => Dbl.le a b = true⟩
instance (a b : Dbl) : Decidable (a < b) := inferInstanceAs (Decidable (Dbl.lt a b = true))
instance (a b : Dbl) : Decidable (a ≤ b) := inferInstanceAs (Decidable (Dbl.le a b = true))

/-- The function `Math.max` of two arguments. -/
def Dbl.max (a b : Dbl) : Dbl :=
  if a = .nan ∨ b = .nan then .nan else if Dbl.lt a b = true then b else a

/-- The largest `r` with `r * r ≤ n`, found bit by bit from bit `k - 1` down, `r` holding the
bits found so far. -/
def Dbl.isqrtAux (n : Nat) : Nat → Nat → Nat
  | 0, r => r
  | k + 1, r =>
    if (r + Dbl.pow2 k) * (r + Dbl.pow2 k) ≤ n then Dbl.isqrtAux n k (r + Dbl.pow2 k)
    else Dbl.isqrtAux n k r

/-- The integer square root of `n`. -/
def Dbl.isqrt (n : Nat) : Nat := Dbl.isqrtAux n (Dbl.bits n / 2 + 1) 0

/-- The function `Math.sqrt`, correctly rounded. The significand is scaled by an even power of two
to at least 108 bits, so that its integer square root has at least 54 bits; a remainder is
replaced by half a unit, which rounds the same way. -/
def Dbl.sqrt : Dbl → Dbl
  | .nan => .nan
  | .negInf => .nan
  | .posInf => .posInf
  | .finite m e =>
    if m < 0 then .nan
    else if m = 0 then .finite 0 (-1074)
    else
      let t0 : Nat := 108 - Dbl.bits m.natAbs
      let t : Nat := t0 + ((e - (t0 : Int)) % 2).toNat
      let s := Dbl.isqrt (m.natAbs * Dbl.pow2 t)
      let n : Nat := 2 * s + (if s * s = m.natAbs * Dbl.pow2 t then 0 else 1)
      Dbl.round n ((e - (t : Int)) / 2 - 1)

/-- The largest binary64 value that is at most `num / den`, for `num < den`. -/
def Dbl.floorRat (num den : Nat) : Dbl :=
  let q := num * Dbl.pow2 1074 / den
  let s : Nat := Dbl.bits q - 53
  if q = 0 then .finite 0 (-1074) else .finite ((q / Dbl.pow2 s : Nat) : Int) (-1074 + (s : Int))

/-- The number that `Math.random()` returns for a draw: the draw itself when it is a binary64
value, and otherwise the binary64 value below it, so that every binary64 value of `[0, 1)` and
no other value is returned. -/
def Draw.val (d : Draw) : Dbl := Dbl.floorRat d.num d.den

/-- The expression `Math.floor(Math.random() * k)` for an integer `k`. -/
def Draw.floorMul (d : Draw) (k : Int) : Int := ((d.num : Int) * k) / (d.den : Int)

/-- The stream of values returned by successive calls of `Math.random()`. -/
abbrev Rng := Nat → Draw

/-- Ways in which a run of the model stops without a value. `typeError` and `rangeError` are the
JavaScript exceptions of those names; `sparseWrite` marks an array write that would leave a hole
(outside the model, never reached); `outOfFuel` is the loop budget of the model. -/
inductive Stop where
  | typeError
  | rangeError
  | sparseWrite
  | outOfFuel
  deriving DecidableEq, Repr

/-- The outcome is a JavaScript exception. -/
def Stop.isThrow : Stop → Bool
  | .typeError => true
  | .rangeError => true
  | _ => false

/-- A grid entry: `"#"` is `wall`, `"."` is `floor`. -/
inductive Tile where
  | wall
  | floor
  deriving DecidableEq, Repr

/-- A grid coordinate `{ row, col }`. -/
structure Cell where
  row : Int
  col : Int
  deriving DecidableEq, Repr

/-- The array of rows `grid`. -/
abbrev Grid := List (List Tile)

/-- The element `a[i]` of a JavaScript array, `none` for `undefined`. -/
def jsIndex {α : Type} (a : List α) (i : Int) : Option α :=
  if 0 ≤ i then a[i.toNat]? else none

/-- The value of `grid[r][c]` when row `r` exists; `none` when the row or the entry is missing. -/
def Grid.tile (g : Grid) (r c : Int) : Option Tile :=
  (jsIndex g r).bind (fun row => jsIndex row c)

/-- The read `grid[r][c]`: a `TypeError` when `grid[r]` is `undefined`. -/
def Grid.read (g : Grid) (r c : Int) : Except Stop (Option Tile) :=
  match jsIndex g r with
  | none => .error .typeError
  | some row => .ok (jsIndex row c)

/-- The assignment `grid[r][c] = v`: a `TypeError` when `grid[r]` is `undefined`; inside the row
it replaces the entry, at index `length` it appends. -/
def Grid.write (g : Grid) (r c : Int) (v : Tile) : Except Stop Grid :=
  match jsIndex g r with
  | none => .error .typeError
  | some row =>
    if c < 0 then .error .sparseWrite
    else if c.toNat < row.length then .ok (g.set r.toNat (row.set c.toNat v))
    else if c.toNat = row.length then .ok (g.set r.toNat (row ++ [v]))
    else .error .sparseWrite

/-- The expression `Array.from({ length: rows }, () => Array(cols).fill("#"))`: no row is built for
`rows ≤ 0`; `Array(cols)` is a `RangeError` for a negative or too large `cols`. -/
def newGrid (rows cols : Int) : Except Stop Grid :=
  if rows ≤ 0 then .ok []
  else if cols < 0 ∨ 4294967296 ≤ cols then .error .rangeError
  else .ok (List.replicate rows.toNat (List.replicate cols.toNat Tile.wall))

/-- The integers `a, a+1, …, b` visited by `for (let x = a; x <= b; x++)`. -/
def intRange (a b : Int) : List Int :=
  (List.range (b - a + 1).toNat).map (fun (i : Nat) => a + (i : Int))

/-- An entry `{ dr, dc }` of `carveDirs`. -/
structure CarveDir where
  dr : Int
  dc : Int
  deriving DecidableEq, Repr

/-- The constant `carveDirs` of `generateLayout`. -/
def carveDirs : List CarveDir := [⟨0, 2⟩, ⟨0, -2⟩, ⟨2, 0⟩, ⟨-2, 0⟩]

/-- The exchange `[array[i], array[j]] = [array[j], array[i]]`. -/
def swapAt {α : Type} (a : List α) (i j : Nat) : List α :=
  match a[i]?, a[j]? with
  | some x, some y => (a.set i y).set j x
  | _, _ => a

/-- The loop of `shuffle` from index `i` down to `1`, drawing `j = floor(random * (i + 1))`. -/
def shuffleFrom {α : Type} : Nat → List α → Rng → Nat → List α × Nat
  | 0, a, _, k => (a, k)
  | i + 1, a, rnd, k =>
    shuffleFrom i (swapAt a (i + 1) ((rnd k).floorMul ((i : Int) + 2)).toNat) rnd (k + 1)

/-- The local function `shuffle` of `generateLayout` (Fisher-Yates). -/
def shuffle {α : Type} (a : List α) (rnd : Rng) (k : Nat) : List α × Nat :=
  shuffleFrom (a.length - 1) a rnd k

/-- The filter predicate of the carving loop: the cell two steps away lies strictly inside the
border and is still `"#"`. The read is guarded by the bounds, so its row exists. -/
def carvable (rows cols : Int) (g : Grid) (cur : Cell) (d : CarveDir) : Bool :=
  decide (0 < cur.row + d.dr) && decide (cur.row + d.dr < rows - 1) &&
  decide (0 < cur.col + d.dc) && decide (cur.col + d.dc < cols - 1) &&
  decide (g.tile (cur.row + d.dr) (cur.col + d.dc) = some Tile.wall)

/-- The loop `while (stack.length)` of `generateLayout`. The stack is kept with its top at the
head of the list. One unit of fuel is one iteration. -/
def carve (rows cols : Int) (rnd : Rng) : Nat → Grid → List Cell → Nat → Except Stop (Grid × Nat)
  | _, g, [], k => .ok (g, k)
  | 0, _, _ :: _, _ => .error .outOfFuel
  | fuel + 1, g, cur :: rest, k =>
    match (shuffle carveDirs rnd k).1.filter (carvable rows cols g cur) with
    | [] => carve rows cols rnd fuel g rest (shuffle carveDirs rnd k).2
    | d :: _ =>
      match g.write (cur.row + d.dr / 2) (cur.col + d.dc / 2) Tile.floor with
      | .error e => .error e
      | .ok g1 =>
        match g1.write (cur.row + d.dr) (cur.col + d.dc) Tile.floor with
        | .error e => .error e
        | .ok g2 =>
          carve rows cols rnd fuel g2 (⟨cur.row + d.dr, cur.col + d.dc⟩ :: cur :: rest)
            (shuffle carveDirs rnd k).2

/-- One iteration of the loop of `addLoops`, with `rows = grid.length`, `cols = grid[0].length`. -/
def addLoopsStep (rows cols : Int) (rnd : Rng) (g : Grid) (k : Nat) : Except Stop Grid :=
  let r := 1 + (rnd k).floorMul (rows - 2)
  let c := 1 + (rnd (k + 1)).floorMul (cols - 2)
  match g.read r c with
  | .error e => .error e
  | .ok t =>
    if t ≠ some Tile.wall then .ok g
    else
      match g.read (r - 1) c with
      | .error e => .error e
      | .ok up =>
        match (if up = some Tile.floor then g.read (r + 1) c else .ok none) with
        | .error e => .error e
        | .ok down =>
          match g.read r (c - 1) with
          | .error e => .error e
          | .ok left =>
            match (if left = some Tile.floor then g.read r (c + 1) else .ok none) with
            | .error e => .error e
            | .ok right =>
              if (up = some Tile.floor ∧ down = some Tile.floor) ∨
                  (left = some Tile.floor ∧ right = some Tile.floor) then
                g.write r c Tile.floor
              else .ok g

/-- The loop `for (let i = 0; i < attempts; i++)` of `addLoops`; two draws per iteration. -/
def addLoopsFrom (rows cols : Int) (rnd : Rng) : Nat → Grid → Nat → Except Stop (Grid × Nat)
  | 0, g, k => .ok (g, k)
  | n + 1, g, k =>
    match addLoopsStep rows cols rnd g k with
    | .error e => .error e
    | .ok g1 => addLoopsFrom rows cols rnd n g1 (k + 2)

/-- The method `Maze.addLoops(grid, attempts)`. -/
def addLoops (rnd : Rng) (attempts : Int) (g : Grid) (k : Nat) : Except Stop (Grid × Nat) :=
  match g with
  | [] => .error .typeError
  | row0 :: _ => addLoopsFrom (g.length : Int) (row0.length : Int) rnd attempts.toNat g k

/-- The body of the inner loop of `addRooms`. `Math.hypot(dr, dc) <= radius` is compared exactly,
as `dr² + dc² ≤ radius²` (`radius ≥ 0`). -/
def addRoomsCell (rows cols radius centerRow centerCol : Int) (r : Int) (g : Grid) (c : Int) :
    Except Stop Grid :=
  if 0 < r ∧ r < rows - 1 ∧ 0 < c ∧ c < cols - 1 then
    if (r - centerRow) * (r - centerRow) + (c - centerCol) * (c - centerCol) ≤ radius * radius then
      g.write r c Tile.floor
    else .ok g
  else .ok g

/-- The method `Maze.addRooms(grid)`. -/
def addRooms (g : Grid) : Except Stop Grid :=
  match g with
  | [] => .error .typeError
  | row0 :: _ =>
    let rows : Int := (g.length : Int)
    let cols : Int := (row0.length : Int)
    let radius := (min rows cols) / 6
    let centerRow := rows / 2
    let centerCol := cols / 2
    (intRange (centerRow - radius) (centerRow + radius)).foldlM
      (fun g1 r =>
        (intRange (centerCol - radius) (centerCol + radius)).foldlM
          (addRoomsCell rows cols radius centerRow centerCol r) g1) g

/-- The method `Maze.generateLayout()`, for `this.rows = rows` and `this.cols = cols`.
`Math.floor(rows * cols * 0.12)` is computed exactly. -/
def generateLayout (fuel : Nat) (rows cols : Int) (rnd : Rng) (k : Nat) :
    Except Stop (Grid × Nat) :=
  match newGrid rows cols with
  | .error e => .error e
  | .ok g0 =>
    match g0.write 1 1 Tile.floor with
    | .error e => .error e
    | .ok g1 =>
      match carve rows cols rnd fuel g1 [⟨1, 1⟩] k with
      | .error e => .error e
      | .ok (g2, k2) =>
        match addLoops rnd ((rows * cols * 12) / 100) g2 k2 with
        | .error e => .error e
        | .ok (g3, k3) =>
          match addRooms g3 with
          | .error e => .error e
          | .ok g4 => .ok (g4, k3)

/-- The method `Maze.collectPathCells()`; the reads are inside `rows × cols`. -/
def collectPathCells (rows cols : Int) (walls : Grid) : List Cell :=
  (intRange 0 (rows - 1)).flatMap (fun r =>
    (intRange 0 (cols - 1)).filterMap (fun c =>
      if walls.tile r c ≠ some Tile.wall then some (Cell.mk r c) else none))

/-- The class `Maze`. -/
structure Maze where
  rows : Int
  cols : Int
  walls : Grid
  pathCells : List Cell
  deriving DecidableEq, Repr

/-- The normalisation `n % 2 === 0 ? n + 1 : n` of the constructor. -/
def forceOdd (n : Int) : Int := if n % 2 = 0 then n + 1 else n

/-- The constructor `new Maze(rows, cols)`; returns the maze and the position of the next draw. -/
def Maze.new (fuel : Nat) (rows cols : Int) (rnd : Rng) (k : Nat) : Except Stop (Maze × Nat) :=
  match generateLayout fuel (forceOdd rows) (forceOdd cols) rnd k with
  | .error e => .error e
  | .ok (walls, k1) =>
    .ok (⟨forceOdd rows, forceOdd cols, walls,
      collectPathCells (forceOdd rows) (forceOdd cols) walls⟩, k1)

/-- An entry `{ dx, dy }` of `DIRECTIONS` (the `angle` is only used for drawing). -/
structure Direction where
  dx : Int
  dy : Int
  deriving DecidableEq, Repr

/-- The constant `DIRECTIONS`. -/
def DIRECTIONS : List Direction := [⟨1, 0⟩, ⟨-1, 0⟩, ⟨0, 1⟩, ⟨0, -1⟩]

/-- The method `Maze.isOpen(row, col)`. -/
def Maze.isOpen (m : Maze) (row col : Int) : Bool :=
  if row < 0 ∨ row ≥ m.rows ∨ col < 0 ∨ col ≥ m.cols then false
  else decide (m.walls.tile row col ≠ some Tile.wall)

/-- The method `Maze.getNeighbors(row, col)`. -/
def Maze.getNeighbors (m : Maze) (row col : Int) : List Direction :=
  DIRECTIONS.filter (fun dir => m.isOpen (row + dir.dy) (col + dir.dx))

/-- The method `Maze.getRandomPathCell()`, given the value of its one draw; `none` is
`undefined` (empty pool). -/
def Maze.getRandomPathCell (m : Maze) (d : Draw) : Option Cell :=
  let navigable := m.pathCells.filter (fun cell => (m.getNeighbors cell.row cell.col).length > 0)
  let pool := if navigable.length ≠ 0 then navigable else m.pathCells
  jsIndex pool (d.floorMul (pool.length : Int))

/-- A point `{ x, y }` of the canvas. -/
structure Point where
  x : Dbl
  y : Dbl
  deriving DecidableEq

/-- The class `Bug` (the prey); `floatPhase` is only used for drawing. -/
structure Bug where
  row : Int
  col : Int
  eaten : Bool
  tileSize : Dbl
  position : Point
  respawnAt : Dbl
  deriving DecidableEq

/-- The getter `Bug.key`, the string `${row},${col}`: it is kept as the pair it encodes. -/
def Bug.key (b : Bug) : Int × Int := (b.row, b.col)

/-- The method `Bug.updatePosition()`. -/
def Bug.updatePosition (b : Bug) : Bug :=
  { b with position := ⟨(Dbl.ofInt b.col + Dbl.ofRat 5 10) * b.tileSize,
                        (Dbl.ofInt b.row + Dbl.ofRat 5 10) * b.tileSize⟩ }

/-- The method `Bug.markEaten(time)`, given the value of its one draw. -/
def Bug.markEaten (b : Bug) (time : Dbl) (d : Draw) : Bug :=
  { b with eaten := true, respawnAt := time + 4 + d.val * 6 }

/-- The `do … while (occupied.has(key) && attempts < 60)` loop of `Bug.spawn`, with `n` the number
of samples that may still be rejected (`59 - attempts`); the set `occupied` is kept as a list of
keys. Reading `cell.row` of `undefined` is a `TypeError`. -/
def Bug.sampleCell (m : Maze) (occupied : List (Int × Int)) (rnd : Rng) :
    Nat → Nat → Except Stop (Cell × Nat)
  | 0, k =>
    match m.getRandomPathCell (rnd k) with
    | none => .error .typeError
    | some cell => .ok (cell, k + 1)
  | n + 1, k =>
    match m.getRandomPathCell (rnd k) with
    | none => .error .typeError
    | some cell =>
      if (cell.row, cell.col) ∈ occupied then Bug.sampleCell m occupied rnd n (k + 1)
      else .ok (cell, k + 1)

/-- The method `Bug.spawn(maze, occupied)`; returns the prey, the set after `occupied.add` and the
position of the next draw (one draw is spent on `floatPhase`). -/
def Bug.spawn (b : Bug) (m : Maze) (occupied : List (Int × Int)) (rnd : Rng) (k : Nat) :
    Except Stop (Bug × List (Int × Int) × Nat) :=
  match Bug.sampleCell m occupied rnd 59 k with
  | .error e => .error e
  | .ok (cell, k1) =>
    .ok (Bug.updatePosition { b with row := cell.row, col := cell.col, eaten := false,
                                     respawnAt := 0 },
      (cell.row, cell.col) :: occupied, k1 + 1)

/-- The method `Bug.update(delta, time, maze, occupied)`; `delta` only moves `floatPhase`. -/
def Bug.update (b : Bug) (time : Dbl) (m : Maze) (occupied : List (Int × Int)) (rnd : Rng)
    (k : Nat) : Except Stop (Bug × List (Int × Int) × Nat) :=
  if b.eaten = true ∧ time ≥ b.respawnAt then
    match b.spawn m occupied rnd k with
    | .error e => .error e
    | .ok (b1, occ1, k1) => .ok (b1.updatePosition, occ1, k1)
  else .ok (b.updatePosition, occupied, k)

/-- The class `Debugger` (the hunter); `mouthTimer`, `eyePulse` and `trail` are only used for
drawing. -/
structure Debugger where
  current : Cell
  direction : Direction
  target : Cell
  progress : Dbl
  speed : Dbl
  tileSize : Dbl
  position : Point
  highlight : Dbl
  munchBurst : Dbl
  deriving DecidableEq

/-- The method `Debugger.getTileCenter(col, row)`. -/
def Debugger.getTileCenter (d : Debugger) (col row : Int) : Point :=
  ⟨(Dbl.ofInt col + Dbl.ofRat 5 10) * d.tileSize, (Dbl.ofInt row + Dbl.ofRat 5 10) * d.tileSize⟩

/-- The method `Debugger.updatePosition()`. -/
def Debugger.updatePosition (d : Debugger) : Debugger :=
  { d with position :=
      ⟨(d.getTileCenter d.current.col d.current.row).x +
          ((d.getTileCenter d.target.col d.target.row).x -
            (d.getTileCenter d.current.col d.current.row).x) * d.progress,
        (d.getTileCenter d.current.col d.current.row).y +
          ((d.getTileCenter d.target.col d.target.row).y -
            (d.getTileCenter d.current.col d.current.row).y) * d.progress⟩ }

/-- The filter predicate of `chooseNextDirection`: with more than one option, `dir` is kept
unless it is the reverse of `previous`. -/
def keepDirection (options : List Direction) (previous : Direction) (dir : Direction) : Bool :=
  if options.length > 1 then !(decide (dir.dx = -previous.dx ∧ dir.dy = -previous.dy)) else true

/-- The expression `filtered[Math.floor(Math.random() * filtered.length)] || options[0]` of
`chooseNextDirection`, for a non-empty `options = o :: os`. -/
def pickDirection (o : Direction) (os : List Direction) (previous : Direction) (dr : Draw) :
    Direction :=
  (jsIndex ((o :: os).filter (keepDirection (o :: os) previous))
    (dr.floorMul (((o :: os).filter (keepDirection (o :: os) previous)).length : Int))).getD o

/-- The method `Debugger.chooseNextDirection()`. One unit of fuel is one call (the method calls
itself after a relocation). Reading `restart.col` of `undefined` is a `TypeError`. -/
def Debugger.chooseNextDirection (m : Maze) (rnd : Rng) :
    Nat → Debugger → Nat → Except Stop (Debugger × Nat)
  | 0, _, _ => .error .outOfFuel
  | fuel + 1, d, k =>
    match m.getNeighbors d.current.row d.current.col with
    | [] =>
      match m.getRandomPathCell (rnd k) with
      | none => .error .typeError
      | some restart =>
        Debugger.chooseNextDirection m rnd fuel
          { d with current := restart, target := restart,
                   position := d.getTileCenter restart.col restart.row, progress := 0 } (k + 1)
    | o :: os =>
      .ok ({ d with
          direction := pickDirection o os d.direction (rnd k),
          target := ⟨d.current.row + (pickDirection o os d.direction (rnd k)).dy,
                     d.current.col + (pickDirection o os d.direction (rnd k)).dx⟩ }, k + 1)

/-- The test `distance < radius` of `consume`, with `radius = this.tileSize * 0.45`,
`dx = bug.position.x - this.position.x`, `dy` alike and
`distance = Math.sqrt(dx * dx + dy * dy)`. -/
def Debugger.withinRadius (d : Debugger) (b : Bug) : Bool :=
  Dbl.lt
    (Dbl.sqrt ((b.position.x - d.position.x) * (b.position.x - d.position.x) +
      (b.position.y - d.position.y) * (b.position.y - d.position.y)))
    (d.tileSize * Dbl.ofRat 45 100)

/-- The method `Debugger.consume(bugs, time, onBugEaten)`. The callback is given by the number of
draws it consumes (`none` when no callback is passed); the positions it is called with are
returned as the list of capture events. -/
def Debugger.consume (time : Dbl) (onBugEaten : Option Nat) (rnd : Rng) :
    Debugger → List Bug → Nat → Debugger × List Bug × List Point × Nat
  | d, [], k => (d, [], [], k)
  | d, bug :: rest, k =>
    if bug.eaten = true then
      match Debugger.consume time onBugEaten rnd d rest k with
      | (d1, rest1, ev, k1) => (d1, bug :: rest1, ev, k1)
    else if d.withinRadius bug = true then
      match onBugEaten with
      | some draws =>
        match Debugger.consume time onBugEaten rnd { d with highlight := 1, munchBurst := 1 } rest
            (k + 1 + draws) with
        | (d1, rest1, ev, k1) =>
          (d1, bug.markEaten time (rnd k) :: rest1, ⟨bug.position.x, bug.position.y⟩ :: ev, k1)
      | none =>
        match Debugger.consume time onBugEaten rnd { d with highlight := 1, munchBurst := 1 } rest
            (k + 1) with
        | (d1, rest1, ev, k1) => (d1, bug.markEaten time (rnd k) :: rest1, ev, k1)
    else
      match Debugger.consume time onBugEaten rnd d rest k with
      | (d1, rest1, ev, k1) => (d1, bug :: rest1, ev, k1)

/-- The loop `while (this.progress >= 1)` of `Debugger.update`. One unit of `fuel` is one
iteration; `cf` is the fuel of each call of `chooseNextDirection`. -/
def Debugger.updateLoop (m : Maze) (time : Dbl) (onBugEaten : Option Nat) (rnd : Rng) (cf : Nat) :
    Nat → Debugger → List Bug → List Point → Nat →
      Except Stop (Debugger × List Bug × List Point × Nat)
  | 0, d, bugs, ev, k => if d.progress ≥ 1 then .error .outOfFuel else .ok (d, bugs, ev, k)
  | fuel + 1, d, bugs, ev, k =>
    if d.progress ≥ 1 then
      match Debugger.consume time onBugEaten rnd
          { d with progress := d.progress - 1, current := d.target } bugs k with
      | (d2, bugs2, ev2, k2) =>
        match Debugger.chooseNextDirection m rnd cf d2 k2 with
        | .error e => .error e
        | .ok (d3, k3) =>
          Debugger.updateLoop m time onBugEaten rnd cf fuel d3 bugs2 (ev ++ ev2) k3
    else .ok (d, bugs, ev, k)

/-- The statements of `Debugger.update` before its loop: the highlights decay and
`progress += delta * speed`. -/
def Debugger.advance (d : Debugger) (delta : Dbl) : Debugger :=
  { d with highlight := Dbl.max 0 (d.highlight - delta * Dbl.ofRat 28 10),
           munchBurst := Dbl.max 0 (d.munchBurst - delta * Dbl.ofRat 26 10),
           progress := d.progress + delta * d.speed }

/-- The method `Debugger.update(delta, bugs, time, onBugEaten)`; returns the hunter, the prey,
the capture events in order and the position of the next draw. -/
def Debugger.update (fuel : Nat) (d : Debugger) (m : Maze) (delta : Dbl) (bugs : List Bug)
    (time : Dbl) (onBugEaten : Option Nat) (rnd : Rng) (k : Nat) :
    Except Stop (Debugger × List Bug × List Point × Nat) :=
  match Debugger.updateLoop m time onBugEaten rnd fuel fuel (d.advance delta) bugs [] k with
  | .error e => .error e
  | .ok (d1, bugs1, ev1, k1) =>
    match Debugger.consume time onBugEaten rnd d1.updatePosition bugs1 k1 with
    | (d2, bugs2, ev2, k2) => .ok (d2, bugs2, ev1 ++ ev2, k2)

/-- The class `Screensaver`, without the canvas, the particles and the sparks. -/
structure Screensaver where
  maze : Maze
  debugger : Debugger
  bugs : List Bug
  tileSize : Dbl
  elapsed : Dbl

/-- The set `occupied` built in `Screensaver.update`: the keys of the prey that are not eaten. -/
def occupiedKeys (bugs : List Bug) : List (Int × Int) :=
  bugs.foldl (fun occ bug => if bug.eaten = true then occ else bug.key :: occ) []

/-- The loop `this.bugs.forEach((bug) => bug.update(delta, this.elapsed, this.maze, occupied))`;
every prey sees the set as the earlier ones left it. -/
def updateBugs (time : Dbl) (m : Maze) (rnd : Rng) :
    List Bug → List (Int × Int) → Nat → Except Stop (List Bug × List (Int × Int) × Nat)
  | [], occ, k => .ok ([], occ, k)
  | b :: rest, occ, k =>
    match b.update time m occ rnd k with
    | .error e => .error e
    | .ok (b1, occ1, k1) =>
      match updateBugs time m rnd rest occ1 k1 with
      | .error e => .error e
      | .ok (rest1, occ2, k2) => .ok (b1 :: rest1, occ2, k2)

/-- The method `Screensaver.update(delta)` up to the update of the prey (the particle and spark
updates that follow are cosmetic). The callback `spawnSpark` builds three sparks of four draws
each. Returns the new state, the capture events and the position of the next draw. -/
def Screensaver.update (fuel : Nat) (s : Screensaver) (delta : Dbl) (rnd : Rng) (k : Nat) :
    Except Stop (Screensaver × List Point × Nat) :=
  match s.debugger.update fuel s.maze delta s.bugs s.elapsed (some 12) rnd k with
  | .error e => .error e
  | .ok (dbg, bugs1, ev, k1) =>
    match updateBugs s.elapsed s.maze rnd bugs1 (occupiedKeys bugs1) k1 with
    | .error e => .error e
    | .ok (bugs2, _, k2) => .ok ({ s with debugger := dbg, bugs := bugs2 }, ev, k2)

/-! ### `src/refresh.js` -/

/-- JavaScript values as far as `setupAutoRefresh` looks at them: it tests truthiness, reads the
properties `location` and `reload`, asks whether a value is a function, and passes values on.
A function is named by an identifier; what calling it does is given by the `Host`. Objects and
functions carry their data properties. -/
inductive JsValue where
  | undefined
  | null
  | boolean (b : Bool)
  | number (n : Int)
  | nan
  | string (s : String)
  | function (id : Nat) (props : List (String × JsValue))
  | object (props : List (String × JsValue))

/-- Errors that a run of `setupAutoRefresh` or of its callback ends with: the two `Error`s that
`setupAutoRefresh` creates (lines 5 and 8), the `ReferenceError` of an unbound global used as a
default, the `TypeError` of reading a property of `undefined` or `null` or of calling a value
that is not a function, and a value thrown by the body of a called function. -/
inductive Thrown where
  | referenceError (name : String)
  | typeError
  | requiresWindow
  | requiresScheduler
  | foreign (v : JsValue)

/-- The calls that matter to the page: the scheduler called with the callback and a delay, and a
reload function called. -/
inductive RefreshEvent where
  | scheduled (scheduler : Nat) (delay : JsValue)
  | reloaded (reload : Nat)

/-- What the body of a called host function does: the calls it makes, and the value it returns
or throws. -/
structure Effect where
  trace : List RefreshEvent
  outcome : Except JsValue JsValue

/-- A run of `setupAutoRefresh` or of its callback: the calls made, in order, and the result. -/
structure Run where
  trace : List RefreshEvent
  outcome : Except Thrown JsValue

/-- The surroundings of a call: the globals `window` and `setInterval` (`none` when unbound), what
a function does when called without arguments (as `reload` is), and what a function does when
called with the callback and a delay (as the scheduler is), the callback being given by what one
invocation of it does. -/
structure Host where
  window : Option JsValue
  setInterval : Option JsValue
  invoke : Nat → Effect
  schedule : Nat → Run → JsValue → Effect

/-- Truthiness of a value (`!v` is its negation). -/
def JsValue.truthy : JsValue → Bool
  | .undefined => false
  | .null => false
  | .boolean b => b
  | .number n => n != 0
  | .nan => false
  | .string s => s != ""
  | .function _ _ => true
  | .object _ => true

/-- The test `typeof v === "function"`. -/
def JsValue.isFunction : JsValue → Bool
  | .function _ _ => true
  | _ => false

/-- The property read `v.key` for the keys `location` and `reload`, which no primitive value
has: a `TypeError` on `undefined` and `null`, the data property of an object or function, and
`undefined` otherwise. -/
def JsValue.get (v : JsValue) (key : String) : Except Thrown JsValue :=
  match v with
  | .undefined => .error .typeError
  | .null => .error .typeError
  | .function _ props => .ok ((props.lookup key).getD .undefined)
  | .object props => .ok ((props.lookup key).getD .undefined)
  | _ => .ok .undefined

/-- The run of a called host function: what it throws comes out as it is. -/
def Effect.toRun (e : Effect) : Run :=
  ⟨e.trace, match e.outcome with
    | .ok v => .ok v
    | .error v => .error (.foreign v)⟩

/-- `const DEFAULT_REFRESH_INTERVAL = 30 * 60 * 1000;` -/
def DEFAULT_REFRESH_INTERVAL : Int := 30 * 60 * 1000

/-- A global identifier read in a default: its value, or a `ReferenceError` when unbound. -/
def lookupGlobal (name : String) (binding : Option JsValue) : Except Thrown JsValue :=
  match binding with
  | some v => .ok v
  | none => .error (.referenceError name)

/-- A parameter with a default: the default is evaluated exactly when the argument is
`undefined` (an omitted argument included). -/
def defaultArg (arg : JsValue) (dflt : Except Thrown JsValue) : Except Thrown JsValue :=
  match arg with
  | .undefined => dflt
  | v => .ok v

/-- The condition of line 4, `!win || !win.location || typeof win.location.reload !== "function"`,
with the short-circuit evaluation of `||`. -/
def windowCheck (win : JsValue) : Except Thrown Bool :=
  if !win.truthy then .ok true
  else
    match win.get "location" with
    | .error e => .error e
    | .ok location =>
      if !location.truthy then .ok true
      else
        match location.get "reload" with
        | .error e => .error e
        | .ok reload => .ok (!reload.isFunction)

/-- The callback `() => { win.location.reload(); }` (lines 11–13), invoked once. -/
def refreshCallback (host : Host) (win : JsValue) : Run :=
  match win.get "location" with
  | .error e => ⟨[], .error e⟩
  | .ok location =>
    match location.get "reload" with
    | .error e => ⟨[], .error e⟩
    | .ok (.function id _) =>
      ⟨.reloaded id :: (host.invoke id).toRun.trace,
        match (host.invoke id).toRun.outcome with
        | .ok _ => .ok .undefined
        | .error e => .error e⟩
    | .ok _ => ⟨[], .error .typeError⟩

/-- The function `setupAutoRefresh(win = window, intervalMs = DEFAULT_REFRESH_INTERVAL,
scheduler = setInterval)` (lines 3–14). -/
def setupAutoRefresh (host : Host) (win intervalMs scheduler : JsValue) : Run :=
  match defaultArg win (lookupGlobal "window" host.window) with
  | .error e => ⟨[], .error e⟩
  | .ok win =>
    match defaultArg intervalMs (.ok (.number DEFAULT_REFRESH_INTERVAL)) with
    | .error e => ⟨[], .error e⟩
    | .ok intervalMs =>
      match defaultArg scheduler (lookupGlobal "setInterval" host.setInterval) with
      | .error e => ⟨[], .error e⟩
      | .ok scheduler =>
        match windowCheck win with
        | .error e => ⟨[], .error e⟩
        | .ok true => ⟨[], .error .requiresWindow⟩
        | .ok false =>
          match scheduler with
          | .function id _ =>
            ⟨.scheduled id intervalMs ::
                (host.schedule id (refreshCallback host win) intervalMs).toRun.trace,
              (host.schedule id (refreshCallback host win) intervalMs).toRun.outcome⟩
          | _ => ⟨[], .error .requiresScheduler⟩

/-! ## Vocabulary of the properties -/

/-- The rational value of a finite number (0 for the others). -/
def Dbl.toRat : Dbl → ℚ
  | .finite m e => (m : ℚ) * 2 ^ e
  | _ => 0

/-- A binary64 value in its one representation: a finite number has a significand below `2^53`
and an exponent from `-1074` to `971`, and the exponent `-1074` when the significand is below
`2^52`. -/
def Dbl.Wf : Dbl → Prop
  | .finite m e => m.natAbs < 2 ^ 53 ∧ -1074 ≤ e ∧ e ≤ 971 ∧ (m.natAbs < 2 ^ 52 → e = -1074)
  | _ => True

/-- A finite binary64 value. -/
def Dbl.IsFinite : Dbl → Prop
  | .finite m e => m.natAbs < 2 ^ 53 ∧ -1074 ≤ e ∧ e ≤ 971 ∧ (m.natAbs < 2 ^ 52 → e = -1074)
  | _ => False

instance (x : Dbl) : Decidable x.Wf := by
  cases x <;> unfold Dbl.Wf <;> exact inferInstance

instance (x : Dbl) : Decidable x.IsFinite := by
  cases x <;> unfold Dbl.IsFinite <;> exact inferInstance

/-- Rounding to the nearest integer, ties to even: how `q` relates to the exact quotient `x`. -/
def Dbl.Nearest (q : Nat) (x : ℚ) : Prop :=
  |(q : ℚ) - x| ≤ 1 / 2 ∧ (|(q : ℚ) - x| = 1 / 2 → q % 2 = 0)

/-- The value that rounding `n * 2^e` gives, before the range check. -/
def Dbl.roundMag (n : Nat) (e : Int) : ℚ :=
  (Dbl.roundShift n (Dbl.roundExp n e - e) : ℚ) * 2 ^ Dbl.roundExp n e

/-- The grid has `rows` rows, its first row has `cols` entries, every entry inside `rows × cols`
exists, and an entry that is open lies strictly inside the border. -/
structure Framed (rows cols : Int) (g : Grid) : Prop where
  len : (g.length : Int) = rows
  row0 : ∃ row, jsIndex g 0 = some row ∧ (row.length : Int) = cols
  cell : ∀ r c, 0 ≤ r → r < rows → 0 ≤ c → c < cols →
    g.tile r c = some Tile.wall ∨
      (g.tile r c = some Tile.floor ∧ 0 < r ∧ r < rows - 1 ∧ 0 < c ∧ c < cols - 1)

/-- The cells that may be on the carving stack. -/
def StackCell (rows cols : Int) (x : Cell) : Prop :=
  0 < x.row ∧ x.row < rows ∧ 0 < x.col ∧ (x.col < cols ∨ x.col = 1)

/-- The number of walls inside `rows × cols`: the termination measure of the carving loop. -/
def wallCount (rows cols : Int) (g : Grid) : Nat :=
  (((Finset.range rows.toNat) ×ˢ (Finset.range cols.toNat)).filter
    (fun p => g.tile (p.1 : Int) (p.2 : Int) = some Tile.wall)).card

/-- Membership in the room opened by `addRooms`. -/
def InRoom (rows cols : Int) (r c : Int) : Prop :=
  0 < r ∧ r < rows - 1 ∧ 0 < c ∧ c < cols - 1 ∧
    (r - rows / 2) * (r - rows / 2) + (c - cols / 2) * (c - cols / 2) ≤
      (min rows cols / 6) * (min rows cols / 6)

instance (rows cols r c : Int) : Decidable (InRoom rows cols r c) := by
  unfold InRoom
  exact inferInstance

/-- Two cells are 4-adjacent. -/
def Adjacent (a b : Cell) : Prop :=
  (a.row = b.row ∧ (a.col = b.col + 1 ∨ b.col = a.col + 1)) ∨
    (a.col = b.col ∧ (a.row = b.row + 1 ∨ b.row = a.row + 1))

/-- A path of 4-adjacent cells that all satisfy `P`. -/
def Walk (P : Cell → Prop) : Cell → Cell → Prop :=
  Relation.ReflTransGen (fun a b => P a ∧ P b ∧ Adjacent a b)

/-- Every cell satisfying `P` is joined to `root` by a path inside `P`. -/
def RootConn (P : Cell → Prop) (root : Cell) : Prop := ∀ a, P a → Walk P root a

/-- The open cells of a grid inside `rows × cols`. -/
def Opn (rows cols : Int) (g : Grid) (x : Cell) : Prop :=
  0 ≤ x.row ∧ x.row < rows ∧ 0 ≤ x.col ∧ x.col < cols ∧ g.tile x.row x.col = some Tile.floor

/-- The invariant of the carving loop. -/
structure TreeInv (rows cols : Int) (g : Grid) (stack : List Cell) : Prop where
  framed : Framed rows cols g
  onStack : ∀ x ∈ stack, StackCell rows cols x ∧ x.row % 2 = 1 ∧ x.col % 2 = 1 ∧ Opn rows cols g x
  conn : RootConn (Opn rows cols g) ⟨1, 1⟩
  root : Opn rows cols g ⟨1, 1⟩
  done : ∀ x, Opn rows cols g x → x.row % 2 = 1 → x.col % 2 = 1 →
    x ∈ stack ∨ ∀ d ∈ carveDirs, 0 < x.row + d.dr → x.row + d.dr < rows - 1 →
      0 < x.col + d.dc → x.col + d.dc < cols - 1 → Opn rows cols g ⟨x.row + d.dr, x.col + d.dc⟩
  crossCol : ∀ m, 1 ≤ m → (∀ x, Opn rows cols g x → x.col < m) ∨ ∃ r, Opn rows cols g ⟨r, m⟩
  crossRow : ∀ m, 1 ≤ m → (∀ x, Opn rows cols g x → x.row < m) ∨ ∃ c, Opn rows cols g ⟨m, c⟩

/-- What the later stages use of a carved grid. -/
structure Carved (rows cols : Int) (g : Grid) : Prop where
  framed : Framed rows cols g
  conn : RootConn (Opn rows cols g) ⟨1, 1⟩
  lattice : ∀ r c : Int, 0 < r → r < rows - 1 → 0 < c → c < cols - 1 → r % 2 = 1 → c % 2 = 1 →
    Opn rows cols g ⟨r, c⟩
  crossCol : ∀ m, 1 ≤ m → (∀ x, Opn rows cols g x → x.col < m) ∨ ∃ r, Opn rows cols g ⟨r, m⟩
  crossRow : ∀ m, 1 ≤ m → (∀ x, Opn rows cols g x → x.row < m) ∨ ∃ c, Opn rows cols g ⟨m, c⟩

/-- Cell `b` can be reached from cell `a` through 4-adjacent open cells of the maze. -/
def Maze.Reachable (m : Maze) (a b : Cell) : Prop :=
  Walk (fun x => m.isOpen x.row x.col = true) a b

/-- Every open cell is reachable from every other open cell. -/
def Maze.Connected (m : Maze) : Prop :=
  ∀ a b : Cell, m.isOpen a.row a.col = true → m.isOpen b.row b.col = true → m.Reachable a b

/-- The constructor invariant: `pathCells` is the list computed by `collectPathCells`. -/
def Maze.Built (m : Maze) : Prop := m.pathCells = collectPathCells m.rows m.cols m.walls

/-- A sample stream of draws: 0.3, 0.0, 0.7, 0.4, 0.1, … -/
def sampleRng : Rng := fun i => ⟨(i * 7 + 3) % 10, 10, Nat.mod_lt _ (by decide)⟩

/-- The 5 × 5 maze generated from `sampleRng`. -/
def sampleMaze : Maze :=
  ⟨5, 5,
    [[.wall, .wall, .wall, .wall, .wall],
     [.wall, .floor, .wall, .floor, .wall],
     [.wall, .floor, .floor, .floor, .wall],
     [.wall, .floor, .floor, .floor, .wall],
     [.wall, .wall, .wall, .wall, .wall]],
    [⟨1, 1⟩, ⟨1, 3⟩, ⟨2, 1⟩, ⟨2, 2⟩, ⟨2, 3⟩, ⟨3, 1⟩, ⟨3, 2⟩, ⟨3, 3⟩]⟩

/-- The one-column maze returned for `new Maze(3, 0)`. -/
def degenerateMaze : Maze :=
  ⟨3, 1, [[.wall], [.wall, .floor], [.wall]], []⟩

/-- The hunter's target is an open cell next to its current cell. -/
def Debugger.OnTrack (m : Maze) (d : Debugger) : Prop :=
  m.isOpen d.target.row d.target.col = true ∧ Adjacent d.current d.target

/-- How `consume` treats one prey: a prey that is not eaten and within the radius is marked
eaten (with some draw), any other prey is left as it is. -/
def Debugger.Marks (d : Debugger) (time : Dbl) (b b1 : Bug) : Prop :=
  (b.eaten = false ∧ d.withinRadius b = true → ∃ dr : Draw, b1 = b.markEaten time dr) ∧
    (¬ (b.eaten = false ∧ d.withinRadius b = true) → b1 = b)

/-- A hunter of the sample maze: at cell (2, 1), moving down towards (3, 1). -/
def sampleHunter : Debugger :=
  ⟨⟨2, 1⟩, ⟨0, 1⟩, ⟨3, 1⟩, 0, Dbl.ofRat 28 10, 24, ⟨36, 60⟩, 0, 0⟩

/-- The hunter of the capture scenario: at position (100, 100) with tile size 24. -/
def scenarioHunter : Debugger :=
  ⟨⟨3, 3⟩, ⟨1, 0⟩, ⟨3, 4⟩, 0, Dbl.ofRat 28 10, 24, ⟨100, 100⟩, 0, 0⟩

/-- A prey of the capture scenario, not eaten, at position (100, y). -/
def preyAt (y : Dbl) : Bug := ⟨0, 0, false, 24, ⟨100, y⟩, 0⟩

/-- A prey standing on the cell of `sampleHunter`, not eaten. -/
def preyOnHunter : Bug := ⟨2, 1, false, 24, ⟨36, 60⟩, 0⟩

/-- A prey at cell (1, 1), not eaten. -/
def preyElsewhere : Bug := ⟨1, 1, false, 24, ⟨36, 36⟩, 0⟩

/-- A frame in which the hunter stands on a prey. -/
def sampleFrame : Screensaver := ⟨sampleMaze, sampleHunter, [preyOnHunter, preyElsewhere], 24, 1⟩

/-- The entries of the grid are exactly those of `rows × cols`. -/
def Exact (rows cols : Int) (g : Grid) : Prop :=
  ∀ r c, (∃ t, g.tile r c = some t) ↔ (0 ≤ r ∧ r < rows ∧ 0 ≤ c ∧ c < cols)

/-- The 3 × 3 maze, as `new Maze(3, 3)` builds it: one open cell, without an open neighbour. -/
def tinyMaze : Maze :=
  ⟨3, 3, [[.wall, .wall, .wall], [.wall, .floor, .wall], [.wall, .wall, .wall]], [⟨1, 1⟩]⟩

/-- A hunter on the open cell of `tinyMaze`. -/
def tinyHunter : Debugger :=
  ⟨⟨1, 1⟩, ⟨1, 0⟩, ⟨1, 1⟩, 0, Dbl.ofRat 28 10, 24, ⟨36, 36⟩, 0, 0⟩

/-- A window that can be asked to reload: `win` and `win.location` are truthy and
`win.location.reload` is a function. -/
def ReloadCapable (win : JsValue) : Prop :=
  win.truthy = true ∧ ∃ location id props, win.get "location" = .ok location ∧
    location.truthy = true ∧ location.get "reload" = .ok (.function id props)

/-- The window of `tests/refresh.test.js`: `{ location: { reload: () => { … } } }`, the reload
function being function 0. -/
def fakeWindow : JsValue :=
  .object [("location", .object [("reload", .function 0 [])])]

/-- The host of `tests/refresh.test.js`: no globals `window` and `setInterval`; the reload
function counts and returns nothing; the scheduler (function 1) stores its arguments, does not
invoke the callback and returns 1234. -/
def testHost : Host :=
  ⟨none, none, fun _ => ⟨[], .ok .undefined⟩, fun _ _ _ => ⟨[], .ok (.number 1234)⟩⟩

/-- A page: the global `window` is `fakeWindow`, the global `setInterval` is function 2, which
defers the callback and returns the timer handle 1. -/
def pageHost : Host :=
  ⟨some fakeWindow, some (.function 2 []), fun _ => ⟨[], .ok .undefined⟩,
    fun _ _ _ => ⟨[], .ok (.number 1)⟩⟩

/-- A host whose scheduler (any function) throws the string `"busy"` without invoking the
callback; no globals. -/
def busyHost : Host :=
  ⟨none, none, fun _ => ⟨[], .ok .undefined⟩, fun _ _ _ => ⟨[], .error (.string "busy")⟩⟩

/-- The draw `1 - 2^-52`, which `Math.random()` returns as 0.9999999999999998. -/
def lateDraw : Draw := ⟨4503599627370495, 4503599627370496, by decide⟩

/-- The hunter `sampleHunter` with progress 0.9999999999999998 (`1 - 2^-52`). -/
def nearHunter : Debugger :=
  { sampleHunter with progress := Dbl.ofRat 9999999999999998 10000000000000000 }

/-- The frame time `5 * 2^-56` seconds (about `6.9e-17`). -/
def tinyDelta : Dbl := Dbl.ofRat 5 72057594037927936

/-- The frame time `1e17` seconds. -/
def bigDelta : Dbl := Dbl.ofRat 100000000000000000 1

/-- A hunter at position (0, 0) with tile size 36, so with the capture radius `0.45 * 36`. -/
def edgeHunter : Debugger :=
  ⟨⟨3, 3⟩, ⟨1, 0⟩, ⟨3, 4⟩, 0, Dbl.ofRat 28 10, 36, ⟨0, 0⟩, 0, 0⟩

/-- A prey, not eaten, at position (0, 16.2), the ordinate being the binary64 value nearest to
16.2, which is below 16.2. -/
def edgePrey : Bug := ⟨0, 0, false, 36, ⟨0, Dbl.ofRat 162 10⟩, 0⟩

/-! ## Lemmas -/

theorem jsIndex_eq_some {α : Type} {a : List α} {i : Int} {x : α} :
    jsIndex a i = some x ↔ 0 ≤ i ∧ a[i.toNat]? = some x := by
  unfold jsIndex
  by_cases h : 0 ≤ i <;> simp [h]

theorem jsIndex_lt_length {α : Type} {a : List α} {i : Int} {x : α} (h : jsIndex a i = some x) :
    0 ≤ i ∧ i < (a.length : Int) := by
  obtain ⟨h0, h1⟩ := jsIndex_eq_some.mp h
  obtain ⟨hl, -⟩ := List.getElem?_eq_some.mp h1
  exact ⟨h0, by omega⟩

theorem jsIndex_isSome {α : Type} {a : List α} {i : Int} (h0 : 0 ≤ i) (h1 : i < (a.length : Int)) :
    ∃ x, jsIndex a i = some x := by
  have hl : i.toNat < a.length := by omega
  exact ⟨a[i.toNat], jsIndex_eq_some.mpr ⟨h0, List.getElem?_eq_getElem hl⟩⟩

theorem jsIndex_set {α : Type} (a : List α) (i j : Int) (x : α) (hi : jsIndex a i ≠ none) :
    jsIndex (a.set i.toNat x) j = if j = i then some x else jsIndex a j := by
  have hi0 : 0 ≤ i := by
    by_contra hneg
    exact hi (by simp [jsIndex, hneg])
  have hil : i.toNat < a.length := by
    by_contra hge
    exact hi (by simp [jsIndex, hi0, List.getElem?_eq_none (Nat.le_of_not_lt hge)])
  unfold jsIndex
  by_cases hj0 : 0 ≤ j
  · simp only [hj0, if_true, List.getElem?_set]
    by_cases hji : j = i
    · subst hji; simp [hil]
    · have : i.toNat ≠ j.toNat := by omega
      simp [this, hji]
  · have hji : j ≠ i := by omega
    simp [hj0, hji]

theorem jsIndex_append_one {α : Type} (a : List α) (j : Int) (x : α) :
    jsIndex (a ++ [x]) j = if j = (a.length : Int) then some x else jsIndex a j := by
  unfold jsIndex
  by_cases hj0 : 0 ≤ j
  · simp only [hj0, if_true]
    by_cases hjl : j = (a.length : Int)
    · have : j.toNat = a.length := by omega
      simp [hjl, this]
    · simp only [hjl, if_false]
      by_cases hlt : j.toNat < a.length
      · rw [List.getElem?_append_left hlt]
      · have h1 : a.length ≤ j.toNat := Nat.le_of_not_lt hlt
        have h2 : (a ++ [x]).length ≤ j.toNat := by simp; omega
        rw [List.getElem?_eq_none h2, List.getElem?_eq_none h1]
  · have : j ≠ (a.length : Int) := by omega
    simp [hj0, this]

/-- The effect of an assignment `grid[r][c] = v` inside row `r` or at its end. -/
theorem Grid.write_spec (g : Grid) (r c : Int) (v : Tile) (row : List Tile)
    (hr : jsIndex g r = some row) (hc0 : 0 ≤ c) (hc : c ≤ (row.length : Int)) :
    ∃ g1, g.write r c v = .ok g1 ∧ g1.length = g.length ∧
      (∀ r1 c1, g1.tile r1 c1 = if r1 = r ∧ c1 = c then some v else g.tile r1 c1) ∧
      (∀ r1, r1 ≠ r → jsIndex g1 r1 = jsIndex g r1) := by
  have hne : jsIndex g r ≠ none := by simp [hr]
  by_cases hlt : c.toNat < row.length
  · refine ⟨g.set r.toNat (row.set c.toNat v), ?_, by simp, ?_, ?_⟩
    · simp [Grid.write, hr, hlt, not_lt.mpr hc0]
    · intro r1 c1
      unfold Grid.tile
      rw [jsIndex_set g r r1 _ hne]
      by_cases h1 : r1 = r
      · subst h1
        have hcne : jsIndex row c ≠ none := by
          simp [jsIndex, hc0, List.getElem?_eq_getElem hlt]
        simp only [if_true, Option.bind, hr, true_and]
        rw [jsIndex_set row c c1 v hcne]
      · simp [h1]
    · intro r1 h1
      rw [jsIndex_set g r r1 _ hne]; simp [h1]
  · have heq : c.toNat = row.length := by omega
    have hceq : c = (row.length : Int) := by omega
    refine ⟨g.set r.toNat (row ++ [v]), ?_, by simp, ?_, ?_⟩
    · simp [Grid.write, hr, heq, not_lt.mpr hc0]
    · intro r1 c1
      unfold Grid.tile
      rw [jsIndex_set g r r1 _ hne]
      by_cases h1 : r1 = r
      · subst h1
        simp only [if_true, Option.bind, hr, true_and]
        rw [jsIndex_append_one, hceq]
      · simp [h1]
    · intro r1 h1
      rw [jsIndex_set g r r1 _ hne]; simp [h1]

theorem Grid.tile_isSome_row {g : Grid} {r c : Int} {t : Tile} (h : g.tile r c = some t) :
    ∃ row, jsIndex g r = some row ∧ 0 ≤ c ∧ c < (row.length : Int) := by
  unfold Grid.tile at h
  cases hrow : jsIndex g r with
  | none => simp [hrow] at h
  | some row =>
    simp only [hrow, Option.bind] at h
    exact ⟨row, rfl, jsIndex_lt_length h⟩

/-- Overwriting an existing entry. -/
theorem Grid.write_defined (g : Grid) (r c : Int) (v t : Tile) (h : g.tile r c = some t) :
    ∃ g1, g.write r c v = .ok g1 ∧ g1.length = g.length ∧
      (∀ r1 c1, g1.tile r1 c1 = if r1 = r ∧ c1 = c then some v else g.tile r1 c1) ∧
      (∀ r1, r1 ≠ r → jsIndex g1 r1 = jsIndex g r1) := by
  obtain ⟨row, hrow, hc0, hc⟩ := Grid.tile_isSome_row h
  exact Grid.write_spec g r c v row hrow hc0 (le_of_lt hc)

theorem Grid.read_eq (g : Grid) (r c : Int) (h0 : 0 ≤ r) (h1 : r < (g.length : Int)) :
    g.read r c = .ok (g.tile r c) := by
  obtain ⟨row, hrow⟩ := jsIndex_isSome h0 h1
  simp [Grid.read, Grid.tile, hrow]

theorem mem_intRange {a b x : Int} : x ∈ intRange a b ↔ a ≤ x ∧ x ≤ b := by
  unfold intRange
  simp only [List.mem_map, List.mem_range]
  constructor
  · rintro ⟨i, hi, rfl⟩; omega
  · rintro ⟨h1, h2⟩
    exact ⟨(x - a).toNat, by omega, by omega⟩

theorem tile_newGrid (rows cols : Int) (h0 : 0 < rows) (h1 : 0 ≤ cols) (r c : Int) :
    Grid.tile (List.replicate rows.toNat (List.replicate cols.toNat Tile.wall)) r c =
      if 0 ≤ r ∧ r < rows ∧ 0 ≤ c ∧ c < cols then some Tile.wall else none := by
  unfold Grid.tile jsIndex
  by_cases hr0 : 0 ≤ r
  · by_cases hr1 : r < rows
    · have : r.toNat < rows.toNat := by omega
      simp only [hr0, if_true, List.getElem?_replicate, this, Option.bind]
      by_cases hc0 : 0 ≤ c
      · by_cases hc1 : c < cols
        · have : c.toNat < cols.toNat := by omega
          simp [hc0, hc1, hr1, this]
        · have : ¬ c.toNat < cols.toNat := by omega
          simp [hc0, hc1, this]
      · simp [hc0]
    · have : ¬ r.toNat < rows.toNat := by omega
      simp [hr0, hr1, List.getElem?_replicate, this]
  · simp [hr0]

theorem Draw.floorMul_nonneg (d : Draw) {k : Int} (hk : 0 ≤ k) : 0 ≤ d.floorMul k := by
  unfold Draw.floorMul
  exact Int.ediv_nonneg (mul_nonneg (Int.ofNat_nonneg _) hk) (Int.ofNat_nonneg _)

theorem Draw.floorMul_lt (d : Draw) {k : Int} (hk : 0 < k) : d.floorMul k < k := by
  unfold Draw.floorMul
  have hlt := d.lt
  have hden : (0 : Int) < (d.den : Int) := by omega
  apply Int.ediv_lt_of_lt_mul hden
  have : (d.num : Int) < (d.den : Int) := by omega
  nlinarith

theorem Draw.floorMul_zero (d : Draw) : d.floorMul 0 = 0 := by
  simp [Draw.floorMul]

theorem shuffle_carveDirs_aux (j3 j2 j1 : Nat) (h3 : j3 < 4) (h2 : j2 < 3) (h1 : j1 < 2) :
    (swapAt (swapAt (swapAt carveDirs 3 j3) 2 j2) 1 j1).Perm carveDirs := by
  interval_cases j3 <;> interval_cases j2 <;> interval_cases j1 <;> decide

/-- The shuffle of `carveDirs` is a rearrangement of it and consumes three draws. -/
theorem shuffle_carveDirs (rnd : Rng) (k : Nat) :
    (shuffle carveDirs rnd k).1.Perm carveDirs ∧ (shuffle carveDirs rnd k).2 = k + 3 := by
  have e : shuffle carveDirs rnd k =
      (swapAt (swapAt (swapAt carveDirs 3 ((rnd k).floorMul 4).toNat) 2
        ((rnd (k + 1)).floorMul 3).toNat) 1 ((rnd (k + 2)).floorMul 2).toNat, k + 3) := rfl
  rw [e]
  refine ⟨shuffle_carveDirs_aux _ _ _ ?_ ?_ ?_, rfl⟩
  · have := (rnd k).floorMul_lt (k := 4) (by norm_num); omega
  · have := (rnd (k + 1)).floorMul_lt (k := 3) (by norm_num); omega
  · have := (rnd (k + 2)).floorMul_lt (k := 2) (by norm_num); omega

theorem mem_shuffle_carveDirs (rnd : Rng) (k : Nat) (d : CarveDir) :
    d ∈ (shuffle carveDirs rnd k).1 ↔ d ∈ carveDirs :=
  (shuffle_carveDirs rnd k).1.mem_iff

theorem mem_carveDirs {d : CarveDir} (h : d ∈ carveDirs) :
    (d.dr = 0 ∧ d.dc = 2) ∨ (d.dr = 0 ∧ d.dc = -2) ∨ (d.dr = 2 ∧ d.dc = 0) ∨
      (d.dr = -2 ∧ d.dc = 0) := by
  simp only [carveDirs, List.mem_cons, List.mem_singleton, List.not_mem_nil, or_false] at h
  rcases h with rfl | rfl | rfl | rfl <;> simp

/-- Opening an existing entry that is not on the border keeps the frame. -/
theorem Framed.write {rows cols : Int} {g : Grid} (h : Framed rows cols g) (r c : Int) (t : Tile)
    (ht : g.tile r c = some t) (hr : 0 < r)
    (hin : 0 ≤ c → c < cols → (r < rows - 1 ∧ 0 < c ∧ c < cols - 1)) :
    ∃ g1, g.write r c Tile.floor = .ok g1 ∧ Framed rows cols g1 ∧
      (∀ r1 c1, g1.tile r1 c1 = if r1 = r ∧ c1 = c then some Tile.floor else g.tile r1 c1) := by
  obtain ⟨g1, hw, hlen, htile, hrows⟩ := Grid.write_defined g r c Tile.floor t ht
  refine ⟨g1, hw, ⟨?_, ?_, ?_⟩, htile⟩
  · rw [hlen]; exact h.len
  · obtain ⟨row, h0, hl⟩ := h.row0
    exact ⟨row, by rw [hrows 0 (by omega)]; exact h0, hl⟩
  · intro r1 c1 h1 h2 h3 h4
    rw [htile]
    by_cases hc : r1 = r ∧ c1 = c
    · obtain ⟨rfl, rfl⟩ := hc
      obtain ⟨a, b, c2⟩ := hin h3 h4
      simp only [and_self, if_true]
      exact Or.inr ⟨trivial, hr, a, b, c2⟩
    · simp only [hc, if_false]
      exact h.cell r1 c1 h1 h2 h3 h4

theorem carvable_iff {rows cols : Int} {g : Grid} {cur : Cell} {d : CarveDir} :
    carvable rows cols g cur d = true ↔
      0 < cur.row + d.dr ∧ cur.row + d.dr < rows - 1 ∧ 0 < cur.col + d.dc ∧
        cur.col + d.dc < cols - 1 ∧ g.tile (cur.row + d.dr) (cur.col + d.dc) = some Tile.wall := by
  simp [carvable, and_assoc]

theorem wallCount_le (rows cols : Int) (g : Grid) :
    wallCount rows cols g ≤ rows.toNat * cols.toNat := by
  unfold wallCount
  refine le_trans (Finset.card_filter_le _ _) ?_
  simp

/-- One carving move from a framed grid: both writes succeed, the frame is kept, exactly the
two cells are opened, and a wall inside the grid disappears. -/
theorem carve_push {rows cols : Int} {g : Grid} {cur : Cell} {d : CarveDir}
    (h : Framed rows cols g) (hS : StackCell rows cols cur) (hd : d ∈ carveDirs)
    (hc : carvable rows cols g cur d = true) :
    ∃ g1 g2, g.write (cur.row + d.dr / 2) (cur.col + d.dc / 2) Tile.floor = .ok g1 ∧
      g1.write (cur.row + d.dr) (cur.col + d.dc) Tile.floor = .ok g2 ∧
      Framed rows cols g2 ∧
      (∀ r c, g2.tile r c =
        if (r = cur.row + d.dr ∧ c = cur.col + d.dc) ∨
            (r = cur.row + d.dr / 2 ∧ c = cur.col + d.dc / 2) then some Tile.floor
        else g.tile r c) ∧
      StackCell rows cols ⟨cur.row + d.dr, cur.col + d.dc⟩ ∧
      0 < cur.row + d.dr / 2 ∧ cur.row + d.dr / 2 < rows - 1 ∧
      0 < cur.col + d.dc / 2 ∧ cur.col + d.dc / 2 < cols - 1 ∧
      wallCount rows cols g2 < wallCount rows cols g := by
  obtain ⟨n1, n2, n3, n4, n5⟩ := carvable_iff.mp hc
  obtain ⟨s1, s2, s3, s4⟩ := hS
  have hb : 0 < cur.row + d.dr / 2 ∧ cur.row + d.dr / 2 < rows - 1 ∧
      0 < cur.col + d.dc / 2 ∧ cur.col + d.dc / 2 < cols - 1 := by
    rcases mem_carveDirs hd with ⟨e1, e2⟩ | ⟨e1, e2⟩ | ⟨e1, e2⟩ | ⟨e1, e2⟩ <;> omega
  obtain ⟨b1, b2, b3, b4⟩ := hb
  have hbt : ∃ t, g.tile (cur.row + d.dr / 2) (cur.col + d.dc / 2) = some t := by
    rcases h.cell _ _ (le_of_lt b1) (by omega) (le_of_lt b3) (by omega) with hw | hf
    · exact ⟨_, hw⟩
    · exact ⟨_, hf.1⟩
  obtain ⟨t, ht⟩ := hbt
  obtain ⟨g1, hw1, hF1, ht1⟩ := h.write _ _ t ht b1 (fun _ _ => ⟨b2, b3, b4⟩)
  have hn1 : ∃ t, g1.tile (cur.row + d.dr) (cur.col + d.dc) = some t := by
    rw [ht1]
    by_cases hx : cur.row + d.dr = cur.row + d.dr / 2 ∧ cur.col + d.dc = cur.col + d.dc / 2
    · exact ⟨Tile.floor, by rw [if_pos hx]⟩
    · exact ⟨Tile.wall, by rw [if_neg hx]; exact n5⟩
  obtain ⟨t1, ht1n⟩ := hn1
  obtain ⟨g2, hw2, hF2, ht2⟩ := hF1.write _ _ t1 ht1n n1 (fun _ _ => ⟨n2, n3, n4⟩)
  have hS2 : StackCell rows cols ⟨cur.row + d.dr, cur.col + d.dc⟩ := by
    unfold StackCell
    dsimp only
    exact ⟨n1, by omega, n3, Or.inl (by omega)⟩
  refine ⟨g1, g2, hw1, hw2, hF2, ?_, hS2, b1, b2, b3, b4, ?_⟩
  · intro r c
    rw [ht2, ht1]
    by_cases hx : r = cur.row + d.dr ∧ c = cur.col + d.dc
    · simp [hx]
    · simp [hx]
  · unfold wallCount
    apply Finset.card_lt_card
    rw [Finset.ssubset_iff_of_subset]
    · refine ⟨((cur.row + d.dr).toNat, (cur.col + d.dc).toNat), ?_, ?_⟩
      · simp only [Finset.mem_filter, Finset.mem_product, Finset.mem_range]
        have e1 : (((cur.row + d.dr).toNat : Nat) : Int) = cur.row + d.dr := by omega
        have e2 : (((cur.col + d.dc).toNat : Nat) : Int) = cur.col + d.dc := by omega
        rw [e1, e2]
        exact ⟨⟨by omega, by omega⟩, n5⟩
      · simp only [Finset.mem_filter, Finset.mem_product, Finset.mem_range, not_and]
        intro _
        have e1 : (((cur.row + d.dr).toNat : Nat) : Int) = cur.row + d.dr := by omega
        have e2 : (((cur.col + d.dc).toNat : Nat) : Int) = cur.col + d.dc := by omega
        rw [e1, e2, ht2]
        simp
    · intro p hp
      simp only [Finset.mem_filter, Finset.mem_product, Finset.mem_range] at hp ⊢
      refine ⟨hp.1, ?_⟩
      have := hp.2
      rw [ht2, ht1] at this
      by_cases hx : (p.1 : Int) = cur.row + d.dr ∧ (p.2 : Int) = cur.col + d.dc
      · simp [hx] at this
      · simp only [hx, if_false] at this
        by_cases hy : (p.1 : Int) = cur.row + d.dr / 2 ∧ (p.2 : Int) = cur.col + d.dc / 2
        · simp [hy] at this
        · simpa only [hy, if_false] using this

/-- Induction over the carving loop: an invariant kept by a pop and by a push holds when the
loop ends, and the loop ends within `2 * walls + stack` iterations. -/
theorem carve_induct (rows cols : Int) (rnd : Rng) (I : Grid → List Cell → Prop)
    (hpop : ∀ g cur rest, I g (cur :: rest) →
      (∀ d ∈ carveDirs, carvable rows cols g cur d = false) → I g rest)
    (hpush : ∀ g cur rest d, I g (cur :: rest) → d ∈ carveDirs →
      carvable rows cols g cur d = true →
      ∃ g1 g2, g.write (cur.row + d.dr / 2) (cur.col + d.dc / 2) Tile.floor = .ok g1 ∧
        g1.write (cur.row + d.dr) (cur.col + d.dc) Tile.floor = .ok g2 ∧
        I g2 (⟨cur.row + d.dr, cur.col + d.dc⟩ :: cur :: rest) ∧
        wallCount rows cols g2 < wallCount rows cols g) :
    ∀ (fuel : Nat) (g : Grid) (stack : List Cell) (k : Nat), I g stack →
      (∀ g2 k2, carve rows cols rnd fuel g stack k = .ok (g2, k2) → I g2 []) ∧
      (2 * wallCount rows cols g + stack.length ≤ fuel →
        ∃ g2 k2, carve rows cols rnd fuel g stack k = .ok (g2, k2)) := by
  intro fuel
  induction fuel with
  | zero =>
    intro g stack k hI
    cases stack with
    | nil =>
      refine ⟨?_, fun _ => ⟨g, k, by simp [carve]⟩⟩
      intro g2 k2 h
      simp only [carve, Except.ok.injEq, Prod.mk.injEq] at h
      rw [← h.1]; exact hI
    | cons cur rest =>
      refine ⟨?_, ?_⟩
      · intro g2 k2 h; simp [carve] at h
      · intro h; simp at h
  | succ fuel ih =>
    intro g stack k hI
    cases stack with
    | nil =>
      refine ⟨?_, fun _ => ⟨g, k, by simp [carve]⟩⟩
      intro g2 k2 h
      simp only [carve, Except.ok.injEq, Prod.mk.injEq] at h
      rw [← h.1]; exact hI
    | cons cur rest =>
      cases hf : (shuffle carveDirs rnd k).1.filter (carvable rows cols g cur) with
      | nil =>
        have hnone : ∀ d ∈ carveDirs, carvable rows cols g cur d = false := by
          intro d hd
          have hm := (mem_shuffle_carveDirs rnd k d).mpr hd
          by_contra hcv
          have : d ∈ (shuffle carveDirs rnd k).1.filter (carvable rows cols g cur) :=
            List.mem_filter.mpr ⟨hm, by simpa using hcv⟩
          rw [hf] at this
          exact List.not_mem_nil _ this
        have hI2 := hpop g cur rest hI hnone
        have e : carve rows cols rnd (fuel + 1) g (cur :: rest) k =
            carve rows cols rnd fuel g rest (shuffle carveDirs rnd k).2 := by
          simp only [carve, hf]
        rw [e]
        obtain ⟨ih1, ih2⟩ := ih g rest (shuffle carveDirs rnd k).2 hI2
        refine ⟨ih1, fun hfu => ih2 ?_⟩
        simp only [List.length_cons] at hfu
        omega
      | cons d tl =>
        have hmem : d ∈ (shuffle carveDirs rnd k).1.filter (carvable rows cols g cur) := by
          rw [hf]; exact List.mem_cons_self _ _
        obtain ⟨hm, hcv⟩ := List.mem_filter.mp hmem
        have hd := (mem_shuffle_carveDirs rnd k d).mp hm
        obtain ⟨g1, g2, hw1, hw2, hI2, hlt⟩ := hpush g cur rest d hI hd hcv
        have e : carve rows cols rnd (fuel + 1) g (cur :: rest) k =
            carve rows cols rnd fuel g2 (⟨cur.row + d.dr, cur.col + d.dc⟩ :: cur :: rest)
              (shuffle carveDirs rnd k).2 := by
          simp only [carve, hf, hw1, hw2]
        rw [e]
        obtain ⟨ih1, ih2⟩ := ih g2 (⟨cur.row + d.dr, cur.col + d.dc⟩ :: cur :: rest)
          (shuffle carveDirs rnd k).2 hI2
        refine ⟨ih1, fun hfu => ih2 ?_⟩
        simp only [List.length_cons] at hfu ⊢
        omega

theorem Grid.tile_neg_col (g : Grid) (r c : Int) (hc : c < 0) : g.tile r c = none := by
  unfold Grid.tile
  cases jsIndex g r with
  | none => rfl
  | some row => simp [jsIndex, not_le.mpr hc]

/-- The first two statements of `generateLayout`, when both succeed. -/
theorem init_dims {rows cols : Int} {g0 g1 : Grid} (h0 : newGrid rows cols = .ok g0)
    (h1 : g0.write 1 1 Tile.floor = .ok g1) :
    2 ≤ rows ∧ 1 ≤ cols ∧ cols < 4294967296 ∧
      g0 = List.replicate rows.toNat (List.replicate cols.toNat Tile.wall) := by
  unfold newGrid at h0
  by_cases hr : rows ≤ 0
  · simp only [hr, if_true, Except.ok.injEq] at h0
    subst h0
    simp [Grid.write, jsIndex] at h1
  · by_cases hc : cols < 0 ∨ 4294967296 ≤ cols
    · simp [hr, hc] at h0
    · simp only [hr, hc, if_false, Except.ok.injEq] at h0
      subst h0
      have hc' : 0 ≤ cols ∧ cols < 4294967296 := by omega
      refine ⟨?_, ?_, hc'.2, rfl⟩
      · by_contra hlt
        have : rows.toNat = 1 := by omega
        simp [Grid.write, jsIndex, this] at h1
      · by_contra hlt
        have hz : cols.toNat = 0 := by omega
        by_cases h2 : (1 : Nat) < rows.toNat
        · simp [Grid.write, jsIndex, hz, List.getElem?_replicate, h2] at h1
        · simp [Grid.write, jsIndex, hz, List.getElem?_replicate, h2] at h1

/-- The first two statements of `generateLayout` succeed for at least two rows and one column. -/
theorem init_spec {rows cols : Int} (hr : 2 ≤ rows) (hc : 1 ≤ cols) (hc2 : cols < 4294967296) :
    ∃ g1, newGrid rows cols = .ok (List.replicate rows.toNat (List.replicate cols.toNat Tile.wall)) ∧
      Grid.write (List.replicate rows.toNat (List.replicate cols.toNat Tile.wall)) 1 1 Tile.floor
        = .ok g1 ∧
      (g1.length : Int) = rows ∧
      (∃ row, jsIndex g1 0 = some row ∧ (row.length : Int) = cols) ∧
      (∀ r c, g1.tile r c = if r = 1 ∧ c = 1 then some Tile.floor
        else if 0 ≤ r ∧ r < rows ∧ 0 ≤ c ∧ c < cols then some Tile.wall else none) := by
  have hrow : jsIndex (List.replicate rows.toNat (List.replicate cols.toNat Tile.wall)) 1 =
      some (List.replicate cols.toNat Tile.wall) := by
    have : (1 : Nat) < rows.toNat := by omega
    simp [jsIndex, List.getElem?_replicate, this]
  obtain ⟨g1, hw, hlen, htile, hrows⟩ := Grid.write_spec _ 1 1 Tile.floor _ hrow (by norm_num)
    (by simp; omega)
  refine ⟨g1, ?_, hw, ?_, ?_, ?_⟩
  · have h1 : ¬ rows ≤ 0 := by omega
    have h2 : ¬ (cols < 0 ∨ 4294967296 ≤ cols) := by omega
    simp [newGrid, h1, h2]
  · rw [hlen]; simp; omega
  · refine ⟨List.replicate cols.toNat Tile.wall, ?_, by simp; omega⟩
    rw [hrows 0 (by norm_num)]
    have : (0 : Nat) < rows.toNat := by omega
    simp [jsIndex, List.getElem?_replicate, this]
  · intro r c
    rw [htile, tile_newGrid rows cols (by omega) (by omega)]

theorem init_framed {rows cols : Int} (hro : rows % 2 = 1) (hco : cols % 2 = 1) {g0 g1 : Grid}
    (h0 : newGrid rows cols = .ok g0) (h1 : g0.write 1 1 Tile.floor = .ok g1) :
    Framed rows cols g1 ∧ 3 ≤ rows ∧ 1 ≤ cols ∧
      (∀ r c, g1.tile r c = if r = 1 ∧ c = 1 then some Tile.floor
        else if 0 ≤ r ∧ r < rows ∧ 0 ≤ c ∧ c < cols then some Tile.wall else none) := by
  obtain ⟨d1, d2, d3, rfl⟩ := init_dims h0 h1
  obtain ⟨g1', -, hw, hlen, hrow0, htile⟩ := init_spec d1 d2 d3
  rw [hw] at h1
  injection h1 with h1
  subst h1
  refine ⟨⟨hlen, hrow0, ?_⟩, by omega, d2, htile⟩
  intro r c a1 a2 a3 a4
  rw [htile]
  by_cases hx : r = 1 ∧ c = 1
  · rw [if_pos hx]
    refine Or.inr ⟨rfl, ?_⟩
    omega
  · rw [if_neg hx, if_pos ⟨a1, a2, a3, a4⟩]
    exact Or.inl rfl

/-- The carving loop keeps the frame and ends within `2 * walls + stack` iterations. -/
theorem carve_framed (rows cols : Int) (rnd : Rng) (fuel : Nat) (g : Grid) (stack : List Cell)
    (k : Nat) (h : Framed rows cols g) (hS : ∀ x ∈ stack, StackCell rows cols x) :
    (∀ g2 k2, carve rows cols rnd fuel g stack k = .ok (g2, k2) → Framed rows cols g2) ∧
    (2 * wallCount rows cols g + stack.length ≤ fuel →
      ∃ g2 k2, carve rows cols rnd fuel g stack k = .ok (g2, k2)) := by
  have key := carve_induct rows cols rnd
    (fun g stack => Framed rows cols g ∧ ∀ x ∈ stack, StackCell rows cols x)
    (fun g cur rest hI _ => ⟨hI.1, fun x hx => hI.2 x (List.mem_cons_of_mem _ hx)⟩)
    (fun g cur rest d hI hd hc => by
      obtain ⟨g1, g2, hw1, hw2, hF, -, hS2, -, -, -, -, hlt⟩ :=
        carve_push hI.1 (hI.2 cur (List.mem_cons_self _ _)) hd hc
      refine ⟨g1, g2, hw1, hw2, ⟨hF, ?_⟩, hlt⟩
      intro x hx
      rcases List.mem_cons.mp hx with rfl | hx
      · exact hS2
      · exact hI.2 x hx)
    fuel g stack k ⟨h, hS⟩
  exact ⟨fun g2 k2 e => (key.1 g2 k2 e).1, key.2⟩

/-- One attempt of `addLoops` on a framed grid: it succeeds, keeps the frame, and either leaves
the grid alone or opens one wall strictly inside the border that has two open cells on opposite
sides. -/
theorem addLoopsStep_spec {rows cols : Int} {g : Grid} (h : Framed rows cols g)
    (h3 : 3 ≤ rows) (hodd : cols % 2 = 1) (rnd : Rng) (k : Nat) :
    ∃ g1, addLoopsStep rows cols rnd g k = .ok g1 ∧ Framed rows cols g1 ∧
      (g1 = g ∨ ∃ r c, 0 < r ∧ r < rows - 1 ∧ g.tile r c = some Tile.wall ∧
        ((g.tile (r - 1) c = some Tile.floor ∧ g.tile (r + 1) c = some Tile.floor) ∨
          (g.tile r (c - 1) = some Tile.floor ∧ g.tile r (c + 1) = some Tile.floor)) ∧
        (∀ r1 c1, g1.tile r1 c1 = if r1 = r ∧ c1 = c then some Tile.floor else g.tile r1 c1)) := by
  have hr0 := (rnd k).floorMul_nonneg (k := rows - 2) (by omega)
  have hr1 := (rnd k).floorMul_lt (k := rows - 2) (by omega)
  have hlen := h.len
  have hcb : 3 ≤ cols → 0 ≤ (rnd (k + 1)).floorMul (cols - 2) ∧
      (rnd (k + 1)).floorMul (cols - 2) < cols - 2 := fun hc =>
    ⟨(rnd (k + 1)).floorMul_nonneg (by omega), (rnd (k + 1)).floorMul_lt (by omega)⟩
  generalize hrdef : 1 + (rnd k).floorMul (rows - 2) = r at *
  generalize hcdef : 1 + (rnd (k + 1)).floorMul (cols - 2) = c at *
  have e : addLoopsStep rows cols rnd g k =
      (if g.tile r c ≠ some Tile.wall then .ok g
      else if (g.tile (r - 1) c = some Tile.floor ∧ g.tile (r + 1) c = some Tile.floor) ∨
          (g.tile r (c - 1) = some Tile.floor ∧ g.tile r (c + 1) = some Tile.floor) then
        g.write r c Tile.floor
      else .ok g) := by
    unfold addLoopsStep
    simp only [hrdef, hcdef]
    rw [Grid.read_eq g r c (by omega) (by omega), Grid.read_eq g (r - 1) c (by omega) (by omega),
      Grid.read_eq g (r + 1) c (by omega) (by omega), Grid.read_eq g r (c - 1) (by omega) (by omega),
      Grid.read_eq g r (c + 1) (by omega) (by omega)]
    by_cases hw : g.tile r c = some Tile.wall
    · by_cases hu : g.tile (r - 1) c = some Tile.floor <;>
        by_cases hl : g.tile r (c - 1) = some Tile.floor <;> simp [hw, hu, hl]
    · simp [hw]
  rw [e]
  by_cases hw : g.tile r c = some Tile.wall
  · by_cases hv : (g.tile (r - 1) c = some Tile.floor ∧ g.tile (r + 1) c = some Tile.floor) ∨
        (g.tile r (c - 1) = some Tile.floor ∧ g.tile r (c + 1) = some Tile.floor)
    · have hin : 0 ≤ c → c < cols → (r < rows - 1 ∧ 0 < c ∧ c < cols - 1) := by
        intro c0 c1
        refine ⟨by omega, ?_⟩
        rcases hv with ⟨hu, -⟩ | ⟨hl, hrr⟩
        · rcases h.cell (r - 1) c (by omega) (by omega) c0 c1 with hwall | hfl
          · rw [hwall] at hu; cases hu
          · exact ⟨hfl.2.2.2.1, hfl.2.2.2.2⟩
        · have hc1 : 0 ≤ c - 1 := by
            by_contra hneg
            rw [Grid.tile_neg_col g r (c - 1) (by omega)] at hl
            cases hl
          have hc2 : 0 < c - 1 := by
            rcases h.cell r (c - 1) (by omega) (by omega) hc1 (by omega) with hwall | hfl
            · rw [hwall] at hl; cases hl
            · exact hfl.2.2.2.1
          refine ⟨by omega, ?_⟩
          have := hcb (by omega)
          omega
      obtain ⟨g1, hw1, hF1, ht1⟩ := h.write r c Tile.wall hw (by omega) hin
      refine ⟨g1, ?_, hF1, Or.inr ⟨r, c, by omega, by omega, hw, hv, ht1⟩⟩
      simp [hw, hv, hw1]
    · exact ⟨g, by simp [hw, hv], h, Or.inl rfl⟩
  · exact ⟨g, by simp [hw], h, Or.inl rfl⟩

/-- Induction over the attempts of `addLoops`: a property kept by each opening holds at the end;
the loop succeeds and consumes two draws per attempt. -/
theorem addLoopsFrom_induct {rows cols : Int} (h3 : 3 ≤ rows) (hodd : cols % 2 = 1) (rnd : Rng)
    (J : Grid → Prop)
    (hJ : ∀ g g1 r c, J g → Framed rows cols g → Framed rows cols g1 → 0 < r → r < rows - 1 →
      g.tile r c = some Tile.wall →
      ((g.tile (r - 1) c = some Tile.floor ∧ g.tile (r + 1) c = some Tile.floor) ∨
        (g.tile r (c - 1) = some Tile.floor ∧ g.tile r (c + 1) = some Tile.floor)) →
      (∀ r1 c1, g1.tile r1 c1 = if r1 = r ∧ c1 = c then some Tile.floor else g.tile r1 c1) →
      J g1) :
    ∀ (n : Nat) (g : Grid) (k : Nat), Framed rows cols g → J g →
      ∃ g1, addLoopsFrom rows cols rnd n g k = .ok (g1, k + 2 * n) ∧ Framed rows cols g1 ∧ J g1 := by
  intro n
  induction n with
  | zero => intro g k hF hj; exact ⟨g, by simp [addLoopsFrom], hF, hj⟩
  | succ n ih =>
    intro g k hF hj
    obtain ⟨g1, hs, hF1, hcase⟩ := addLoopsStep_spec hF h3 hodd rnd k
    have hj1 : J g1 := by
      rcases hcase with rfl | ⟨r, c, a1, a2, a3, a4, a5⟩
      · exact hj
      · exact hJ g g1 r c hj hF hF1 a1 a2 a3 a4 a5
    obtain ⟨g2, hs2, hF2, hj2⟩ := ih g1 (k + 2) hF1 hj1
    refine ⟨g2, ?_, hF2, hj2⟩
    simp only [addLoopsFrom, hs, hs2]
    congr 2
    omega

theorem Framed.cons {rows cols : Int} {g : Grid} (h : Framed rows cols g) :
    ∃ row0 tl, g = row0 :: tl ∧ (row0.length : Int) = cols := by
  obtain ⟨row, h0, hl⟩ := h.row0
  cases g with
  | nil => simp [jsIndex] at h0
  | cons a tl =>
    simp [jsIndex] at h0
    exact ⟨a, tl, rfl, by rw [h0]; exact hl⟩

theorem addLoops_eq {rows cols : Int} {g : Grid} (h : Framed rows cols g) (rnd : Rng)
    (attempts : Int) (k : Nat) :
    addLoops rnd attempts g k = addLoopsFrom rows cols rnd attempts.toNat g k := by
  obtain ⟨row0, tl, rfl, hl⟩ := h.cons
  have := h.len
  simp only [addLoops]
  rw [this, hl]

theorem addRooms_inner {rows cols : Int} (r : Int) (L : List Int) :
    ∀ g : Grid, Framed rows cols g →
      ∃ g1, L.foldlM (addRoomsCell rows cols (min rows cols / 6) (rows / 2) (cols / 2) r) g
          = .ok g1 ∧ Framed rows cols g1 ∧
        ∀ r1 c1, g1.tile r1 c1 =
          if r1 = r ∧ c1 ∈ L ∧ InRoom rows cols r1 c1 then some Tile.floor else g.tile r1 c1 := by
  induction L with
  | nil => intro g hF; exact ⟨g, rfl, hF, by simp⟩
  | cons c L ih =>
    intro g hF
    have hstep : ∃ g1, addRoomsCell rows cols (min rows cols / 6) (rows / 2) (cols / 2) r g c
        = .ok g1 ∧ Framed rows cols g1 ∧
        ∀ r1 c1, g1.tile r1 c1 =
          if r1 = r ∧ c1 = c ∧ InRoom rows cols r1 c1 then some Tile.floor else g.tile r1 c1 := by
      by_cases hroom : InRoom rows cols r c
      · obtain ⟨a1, a2, a3, a4, a5⟩ := hroom
        have hdef : ∃ t, g.tile r c = some t := by
          rcases hF.cell r c (by omega) (by omega) (by omega) (by omega) with hw | hf
          · exact ⟨_, hw⟩
          · exact ⟨_, hf.1⟩
        obtain ⟨t, ht⟩ := hdef
        obtain ⟨g1, hw1, hF1, ht1⟩ := hF.write r c t ht a1 (fun _ _ => ⟨a2, a3, a4⟩)
        refine ⟨g1, ?_, hF1, ?_⟩
        · simp [addRoomsCell, a1, a2, a3, a4, a5, hw1]
        · intro r1 c1
          rw [ht1]
          by_cases hx : r1 = r ∧ c1 = c
          · obtain ⟨rfl, rfl⟩ := hx
            simp [InRoom, a1, a2, a3, a4, a5]
          · have : ¬ (r1 = r ∧ c1 = c ∧ InRoom rows cols r1 c1) := fun hh => hx ⟨hh.1, hh.2.1⟩
            rw [if_neg hx, if_neg this]
      · refine ⟨g, ?_, hF, ?_⟩
        · unfold InRoom at hroom
          unfold addRoomsCell
          by_cases hb : 0 < r ∧ r < rows - 1 ∧ 0 < c ∧ c < cols - 1
          · have : ¬ ((r - rows / 2) * (r - rows / 2) + (c - cols / 2) * (c - cols / 2) ≤
                (min rows cols / 6) * (min rows cols / 6)) := by
              intro hh; exact hroom ⟨hb.1, hb.2.1, hb.2.2.1, hb.2.2.2, hh⟩
            rw [if_pos hb, if_neg this]
          · rw [if_neg hb]
        · intro r1 c1
          have : ¬ (r1 = r ∧ c1 = c ∧ InRoom rows cols r1 c1) := by
            rintro ⟨rfl, rfl, hh⟩; exact hroom hh
          rw [if_neg this]
    obtain ⟨g1, hs, hF1, ht1⟩ := hstep
    obtain ⟨g2, hs2, hF2, ht2⟩ := ih g1 hF1
    refine ⟨g2, ?_, hF2, ?_⟩
    · rw [List.foldlM_cons, hs]
      exact hs2
    · intro r1 c1
      rw [ht2, ht1]
      by_cases hA : r1 = r ∧ c1 ∈ L ∧ InRoom rows cols r1 c1
      · have : r1 = r ∧ c1 ∈ c :: L ∧ InRoom rows cols r1 c1 :=
          ⟨hA.1, List.mem_cons_of_mem _ hA.2.1, hA.2.2⟩
        rw [if_pos hA, if_pos this]
      · rw [if_neg hA]
        by_cases hB : r1 = r ∧ c1 = c ∧ InRoom rows cols r1 c1
        · have : r1 = r ∧ c1 ∈ c :: L ∧ InRoom rows cols r1 c1 :=
            ⟨hB.1, by rw [hB.2.1]; exact List.mem_cons_self _ _, hB.2.2⟩
          rw [if_pos hB, if_pos this]
        · have : ¬ (r1 = r ∧ c1 ∈ c :: L ∧ InRoom rows cols r1 c1) := by
            rintro ⟨e1, e2, e3⟩
            rcases List.mem_cons.mp e2 with e | e
            · exact hB ⟨e1, e, e3⟩
            · exact hA ⟨e1, e, e3⟩
          rw [if_neg hB, if_neg this]

theorem addRooms_outer {rows cols : Int} (Lc : List Int) (Lr : List Int) :
    ∀ g : Grid, Framed rows cols g →
      ∃ g1, Lr.foldlM (fun g1 r => Lc.foldlM
          (addRoomsCell rows cols (min rows cols / 6) (rows / 2) (cols / 2) r) g1) g = .ok g1 ∧
        Framed rows cols g1 ∧
        ∀ r1 c1, g1.tile r1 c1 =
          if r1 ∈ Lr ∧ c1 ∈ Lc ∧ InRoom rows cols r1 c1 then some Tile.floor
          else g.tile r1 c1 := by
  induction Lr with
  | nil => intro g hF; exact ⟨g, rfl, hF, by simp⟩
  | cons r Lr ih =>
    intro g hF
    obtain ⟨g1, hs, hF1, ht1⟩ := addRooms_inner r Lc g hF
    obtain ⟨g2, hs2, hF2, ht2⟩ := ih g1 hF1
    refine ⟨g2, ?_, hF2, ?_⟩
    · rw [List.foldlM_cons, hs]
      exact hs2
    · intro r1 c1
      rw [ht2, ht1]
      by_cases hA : r1 ∈ Lr ∧ c1 ∈ Lc ∧ InRoom rows cols r1 c1
      · have : r1 ∈ r :: Lr ∧ c1 ∈ Lc ∧ InRoom rows cols r1 c1 :=
          ⟨List.mem_cons_of_mem _ hA.1, hA.2⟩
        rw [if_pos hA, if_pos this]
      · rw [if_neg hA]
        by_cases hB : r1 = r ∧ c1 ∈ Lc ∧ InRoom rows cols r1 c1
        · have : r1 ∈ r :: Lr ∧ c1 ∈ Lc ∧ InRoom rows cols r1 c1 :=
            ⟨by rw [hB.1]; exact List.mem_cons_self _ _, hB.2⟩
          rw [if_pos hB, if_pos this]
        · have : ¬ (r1 ∈ r :: Lr ∧ c1 ∈ Lc ∧ InRoom rows cols r1 c1) := by
            rintro ⟨e1, e2⟩
            rcases List.mem_cons.mp e1 with e | e
            · exact hB ⟨e, e2⟩
            · exact hA ⟨e, e2⟩
          rw [if_neg hB, if_neg this]

/-- The method `addRooms` on a framed grid succeeds, keeps the frame and opens exactly the
cells of the room. -/
theorem addRooms_spec {rows cols : Int} {g : Grid} (h : Framed rows cols g) :
    ∃ g1, addRooms g = .ok g1 ∧ Framed rows cols g1 ∧
      ∀ r c, g1.tile r c = if InRoom rows cols r c then some Tile.floor else g.tile r c := by
  obtain ⟨g1, hs, hF1, ht1⟩ := addRooms_outer
    (intRange (cols / 2 - min rows cols / 6) (cols / 2 + min rows cols / 6))
    (intRange (rows / 2 - min rows cols / 6) (rows / 2 + min rows cols / 6)) g h
  refine ⟨g1, ?_, hF1, ?_⟩
  · obtain ⟨row0, tl, rfl, hl⟩ := h.cons
    have hlen := h.len
    simp only [addRooms]
    rw [hlen, hl]
    exact hs
  · intro r c
    rw [ht1]
    by_cases hroom : InRoom rows cols r c
    · have hmem : r ∈ intRange (rows / 2 - min rows cols / 6) (rows / 2 + min rows cols / 6) ∧
          c ∈ intRange (cols / 2 - min rows cols / 6) (cols / 2 + min rows cols / 6) := by
        obtain ⟨a1, a2, a3, a4, a5⟩ := hroom
        have hR : 0 ≤ min rows cols / 6 := by
          apply Int.ediv_nonneg _ (by norm_num)
          exact le_min (by omega) (by omega)
        rw [mem_intRange, mem_intRange]
        have h1 : (r - rows / 2) * (r - rows / 2) ≤ (min rows cols / 6) * (min rows cols / 6) := by
          nlinarith [mul_self_nonneg (c - cols / 2)]
        have h2 : (c - cols / 2) * (c - cols / 2) ≤ (min rows cols / 6) * (min rows cols / 6) := by
          nlinarith [mul_self_nonneg (r - rows / 2)]
        have k1 := abs_le_of_sq_le_sq' (by nlinarith : (r - rows / 2) ^ 2 ≤ (min rows cols / 6) ^ 2) hR
        have k2 := abs_le_of_sq_le_sq' (by nlinarith : (c - cols / 2) ^ 2 ≤ (min rows cols / 6) ^ 2) hR
        constructor <;> constructor <;> linarith [k1.1, k1.2, k2.1, k2.2]
      rw [if_pos ⟨hmem.1, hmem.2, hroom⟩, if_pos hroom]
    · have : ¬ (r ∈ intRange (rows / 2 - min rows cols / 6) (rows / 2 + min rows cols / 6) ∧
          c ∈ intRange (cols / 2 - min rows cols / 6) (cols / 2 + min rows cols / 6) ∧
          InRoom rows cols r c) := fun hh => hroom hh.2.2
      rw [if_neg this, if_neg hroom]

theorem forceOdd_odd (n : Int) : forceOdd n % 2 = 1 := by
  unfold forceOdd
  split_ifs with h <;> omega

/-- A successful `generateLayout` went through its five stages. -/
theorem generateLayout_stages {fuel : Nat} {rows cols : Int} {rnd : Rng} {k k4 : Nat} {g4 : Grid}
    (h : generateLayout fuel rows cols rnd k = .ok (g4, k4)) :
    ∃ g0 g1 g2 k2 g3, newGrid rows cols = .ok g0 ∧ g0.write 1 1 Tile.floor = .ok g1 ∧
      carve rows cols rnd fuel g1 [⟨1, 1⟩] k = .ok (g2, k2) ∧
      addLoops rnd ((rows * cols * 12) / 100) g2 k2 = .ok (g3, k4) ∧
      addRooms g3 = .ok g4 := by
  unfold generateLayout at h
  cases h0 : newGrid rows cols with
  | error e => simp [h0] at h
  | ok g0 =>
    simp only [h0] at h
    cases h1 : g0.write 1 1 Tile.floor with
    | error e => simp [h1] at h
    | ok g1 =>
      simp only [h1] at h
      cases h2 : carve rows cols rnd fuel g1 [⟨1, 1⟩] k with
      | error e => simp [h2] at h
      | ok p2 =>
        obtain ⟨g2, k2⟩ := p2
        simp only [h2] at h
        cases h3 : addLoops rnd ((rows * cols * 12) / 100) g2 k2 with
        | error e => simp [h3] at h
        | ok p3 =>
          obtain ⟨g3, k3⟩ := p3
          simp only [h3] at h
          cases h4 : addRooms g3 with
          | error e => simp [h4] at h
          | ok g4' =>
            simp only [h4, Except.ok.injEq, Prod.mk.injEq] at h
            obtain ⟨rfl, rfl⟩ := h
            exact ⟨g0, g1, g2, k2, g3, rfl, h1, h2, h3, h4⟩

theorem generateLayout_of_stages {fuel : Nat} {rows cols : Int} {rnd : Rng} {k k2 k4 : Nat}
    {g0 g1 g2 g3 g4 : Grid}
    (h0 : newGrid rows cols = .ok g0) (h1 : g0.write 1 1 Tile.floor = .ok g1)
    (h2 : carve rows cols rnd fuel g1 [⟨1, 1⟩] k = .ok (g2, k2))
    (h3 : addLoops rnd ((rows * cols * 12) / 100) g2 k2 = .ok (g3, k4))
    (h4 : addRooms g3 = .ok g4) :
    generateLayout fuel rows cols rnd k = .ok (g4, k4) := by
  simp only [generateLayout, h0, h1, h2, h3, h4]

theorem stackCell_start {rows cols : Int} (h3 : 3 ≤ rows) : ∀ x ∈ [Cell.mk 1 1],
    StackCell rows cols x := by
  intro x hx
  rw [List.mem_singleton] at hx
  subst hx
  unfold StackCell
  dsimp only
  omega

/-- A generated layout is framed. -/
theorem generateLayout_framed {fuel : Nat} {rows cols : Int} {rnd : Rng} {k k4 : Nat} {g4 : Grid}
    (hro : rows % 2 = 1) (hco : cols % 2 = 1)
    (h : generateLayout fuel rows cols rnd k = .ok (g4, k4)) : Framed rows cols g4 := by
  obtain ⟨g0, g1, g2, k2, g3, h0, h1, h2, h3, h4⟩ := generateLayout_stages h
  obtain ⟨hF1, hr3, hc1, -⟩ := init_framed hro hco h0 h1
  have hF2 := (carve_framed rows cols rnd fuel g1 _ k hF1 (stackCell_start hr3)).1 g2 k2 h2
  rw [addLoops_eq hF2] at h3
  obtain ⟨g3', hs3, hF3, -⟩ := addLoopsFrom_induct hr3 hco rnd (fun _ => True)
    (fun _ _ _ _ _ _ _ _ _ _ _ _ => trivial) ((rows * cols * 12) / 100).toNat g2 k2 hF2 trivial
  rw [hs3] at h3
  injection h3 with h3
  injection h3 with h3 _
  subst h3
  obtain ⟨g4', hs4, hF4, -⟩ := addRooms_spec hF3
  rw [hs4] at h4
  injection h4 with h4
  subst h4
  exact hF4

theorem Maze.new_eq {fuel : Nat} {rows cols : Int} {rnd : Rng} {k k1 : Nat} {m : Maze}
    (h : Maze.new fuel rows cols rnd k = .ok (m, k1)) :
    generateLayout fuel (forceOdd rows) (forceOdd cols) rnd k = .ok (m.walls, k1) ∧
      m.rows = forceOdd rows ∧ m.cols = forceOdd cols ∧
      m.pathCells = collectPathCells m.rows m.cols m.walls := by
  unfold Maze.new at h
  cases hg : generateLayout fuel (forceOdd rows) (forceOdd cols) rnd k with
  | error e => simp [hg] at h
  | ok p =>
    obtain ⟨walls, k2⟩ := p
    simp only [hg, Except.ok.injEq, Prod.mk.injEq] at h
    obtain ⟨rfl, rfl⟩ := h
    exact ⟨rfl, rfl, rfl, rfl⟩

theorem Maze.new_framed {fuel : Nat} {rows cols : Int} {rnd : Rng} {k k1 : Nat} {m : Maze}
    (h : Maze.new fuel rows cols rnd k = .ok (m, k1)) : Framed m.rows m.cols m.walls := by
  obtain ⟨hg, hr, hc, -⟩ := Maze.new_eq h
  rw [hr, hc]
  exact generateLayout_framed (forceOdd_odd rows) (forceOdd_odd cols) hg

theorem Adjacent.swap {a b : Cell} (h : Adjacent a b) : Adjacent b a := by
  unfold Adjacent at *
  rcases h with ⟨e, h | h⟩ | ⟨e, h | h⟩
  · exact Or.inl ⟨e.symm, Or.inr h⟩
  · exact Or.inl ⟨e.symm, Or.inl h⟩
  · exact Or.inr ⟨e.symm, Or.inr h⟩
  · exact Or.inr ⟨e.symm, Or.inl h⟩

theorem Walk.mono {P Q : Cell → Prop} (hPQ : ∀ x, P x → Q x) {a b : Cell} (h : Walk P a b) :
    Walk Q a b :=
  Relation.ReflTransGen.mono (fun _ _ hab => ⟨hPQ _ hab.1, hPQ _ hab.2.1, hab.2.2⟩) h

theorem Walk.symm {P : Cell → Prop} {a b : Cell} (h : Walk P a b) : Walk P b a := by
  induction h with
  | refl => exact Relation.ReflTransGen.refl
  | tail _ hbc ih =>
    exact Relation.ReflTransGen.trans
      (Relation.ReflTransGen.single ⟨hbc.2.1, hbc.1, hbc.2.2.swap⟩) ih

theorem Walk.step {P : Cell → Prop} {a b : Cell} (ha : P a) (hb : P b) (h : Adjacent a b) :
    Walk P a b :=
  Relation.ReflTransGen.single ⟨ha, hb, h⟩

theorem Walk.trans {P : Cell → Prop} {a b c : Cell} (h1 : Walk P a b) (h2 : Walk P b c) :
    Walk P a c :=
  Relation.ReflTransGen.trans h1 h2

/-- Enlarging the set keeps it connected to the root when every cell of the larger set is joined
to a cell of the smaller one. -/
theorem RootConn.extend {P Q : Cell → Prop} {root : Cell} (h : RootConn P root)
    (hPQ : ∀ x, P x → Q x) (hnew : ∀ a, Q a → ∃ b, P b ∧ Walk Q b a) : RootConn Q root := by
  intro a ha
  obtain ⟨b, hb, hw⟩ := hnew a ha
  exact ((h b hb).mono hPQ).trans hw

theorem RootConn.all {P : Cell → Prop} {root : Cell} (h : RootConn P root) (a b : Cell)
    (ha : P a) (hb : P b) : Walk P a b :=
  (h a ha).symm.trans (h b hb)

theorem TreeInv.pop {rows cols : Int} {g : Grid} {cur : Cell} {rest : List Cell}
    (h : TreeInv rows cols g (cur :: rest))
    (hno : ∀ d ∈ carveDirs, carvable rows cols g cur d = false) : TreeInv rows cols g rest := by
  refine ⟨h.framed, fun x hx => h.onStack x (List.mem_cons_of_mem _ hx), h.conn, h.root, ?_,
    h.crossCol, h.crossRow⟩
  intro x hx p1 p2
  rcases h.done x hx p1 p2 with hin | hall
  · rcases List.mem_cons.mp hin with rfl | hin
    · right
      intro d hd a1 a2 a3 a4
      have hnc := hno d hd
      have : ¬ carvable rows cols g x d = true := by simp [hnc]
      rw [carvable_iff] at this
      rcases h.framed.cell (x.row + d.dr) (x.col + d.dc) (by omega) (by omega) (by omega)
        (by omega) with hw | hf
      · exact absurd ⟨a1, a2, a3, a4, hw⟩ this
      · exact ⟨by dsimp only; omega, by dsimp only; omega, by dsimp only; omega,
          by dsimp only; omega, hf.1⟩
    · exact Or.inl hin
  · exact Or.inr hall

theorem TreeInv.push {rows cols : Int} {g : Grid} {cur : Cell} {rest : List Cell} {d : CarveDir}
    (h : TreeInv rows cols g (cur :: rest)) (hd : d ∈ carveDirs)
    (hc : carvable rows cols g cur d = true) :
    ∃ g1 g2, g.write (cur.row + d.dr / 2) (cur.col + d.dc / 2) Tile.floor = .ok g1 ∧
      g1.write (cur.row + d.dr) (cur.col + d.dc) Tile.floor = .ok g2 ∧
      TreeInv rows cols g2 (⟨cur.row + d.dr, cur.col + d.dc⟩ :: cur :: rest) ∧
      wallCount rows cols g2 < wallCount rows cols g := by
  obtain ⟨hcS, hco1, hco2, hcO⟩ := h.onStack cur (List.mem_cons_self _ _)
  obtain ⟨g1, g2, hw1, hw2, hF2, ht2, hS2, b1, b2, b3, b4, hlt⟩ := carve_push h.framed hcS hd hc
  obtain ⟨n1, n2, n3, n4, n5⟩ := carvable_iff.mp hc
  refine ⟨g1, g2, hw1, hw2, ?_, hlt⟩
  have hmono : ∀ x, Opn rows cols g x → Opn rows cols g2 x := by
    intro x hx
    obtain ⟨a1, a2, a3, a4, a5⟩ := hx
    refine ⟨a1, a2, a3, a4, ?_⟩
    rw [ht2]
    split_ifs
    · rfl
    · exact a5
  have hnext : Opn rows cols g2 ⟨cur.row + d.dr, cur.col + d.dc⟩ := by
    refine ⟨by dsimp only; omega, by dsimp only; omega, by dsimp only; omega,
      by dsimp only; omega, ?_⟩
    rw [ht2]; simp
  have hbet : Opn rows cols g2 ⟨cur.row + d.dr / 2, cur.col + d.dc / 2⟩ := by
    refine ⟨by dsimp only; omega, by dsimp only; omega, by dsimp only; omega,
      by dsimp only; omega, ?_⟩
    rw [ht2]; simp
  have hcases : ∀ x, Opn rows cols g2 x → Opn rows cols g x ∨
      x = ⟨cur.row + d.dr, cur.col + d.dc⟩ ∨ x = ⟨cur.row + d.dr / 2, cur.col + d.dc / 2⟩ := by
    intro x hx
    obtain ⟨a1, a2, a3, a4, a5⟩ := hx
    rw [ht2] at a5
    by_cases hx1 : x.row = cur.row + d.dr ∧ x.col = cur.col + d.dc
    · right; left
      cases x; simp only at hx1; simp [hx1]
    · by_cases hx2 : x.row = cur.row + d.dr / 2 ∧ x.col = cur.col + d.dc / 2
      · right; right
        cases x; simp only at hx2; simp [hx2]
      · left
        rw [if_neg (by tauto)] at a5
        exact ⟨a1, a2, a3, a4, a5⟩
  have hadj1 : Adjacent cur ⟨cur.row + d.dr / 2, cur.col + d.dc / 2⟩ := by
    unfold Adjacent
    dsimp only
    rcases mem_carveDirs hd with ⟨e1, e2⟩ | ⟨e1, e2⟩ | ⟨e1, e2⟩ | ⟨e1, e2⟩ <;> omega
  have hadj2 : Adjacent (Cell.mk (cur.row + d.dr / 2) (cur.col + d.dc / 2))
      ⟨cur.row + d.dr, cur.col + d.dc⟩ := by
    unfold Adjacent
    dsimp only
    rcases mem_carveDirs hd with ⟨e1, e2⟩ | ⟨e1, e2⟩ | ⟨e1, e2⟩ | ⟨e1, e2⟩ <;> omega
  have hw_b : Walk (Opn rows cols g2) cur ⟨cur.row + d.dr / 2, cur.col + d.dc / 2⟩ :=
    Walk.step (hmono _ hcO) hbet hadj1
  have hw_n : Walk (Opn rows cols g2) cur ⟨cur.row + d.dr, cur.col + d.dc⟩ :=
    hw_b.trans (Walk.step hbet hnext hadj2)
  refine ⟨hF2, ?_, ?_, hmono _ h.root, ?_, ?_, ?_⟩
  · intro x hx
    rcases List.mem_cons.mp hx with rfl | hx
    · refine ⟨hS2, ?_, ?_, hnext⟩
      · dsimp only
        rcases mem_carveDirs hd with ⟨e1, e2⟩ | ⟨e1, e2⟩ | ⟨e1, e2⟩ | ⟨e1, e2⟩ <;> omega
      · dsimp only
        rcases mem_carveDirs hd with ⟨e1, e2⟩ | ⟨e1, e2⟩ | ⟨e1, e2⟩ | ⟨e1, e2⟩ <;> omega
    · obtain ⟨q1, q2, q3, q4⟩ := h.onStack x hx
      exact ⟨q1, q2, q3, hmono _ q4⟩
  · apply h.conn.extend hmono
    intro a ha
    rcases hcases a ha with h0 | rfl | rfl
    · exact ⟨a, h0, Relation.ReflTransGen.refl⟩
    · exact ⟨cur, hcO, hw_n⟩
    · exact ⟨cur, hcO, hw_b⟩
  · intro x hx p1 p2
    rcases hcases x hx with h0 | rfl | rfl
    · rcases h.done x h0 p1 p2 with hin | hall
      · exact Or.inl (List.mem_cons_of_mem _ hin)
      · exact Or.inr (fun d' hd' a1 a2 a3 a4 => hmono _ (hall d' hd' a1 a2 a3 a4))
    · exact Or.inl (List.mem_cons_self _ _)
    · exfalso
      dsimp only at p1 p2
      rcases mem_carveDirs hd with ⟨e1, e2⟩ | ⟨e1, e2⟩ | ⟨e1, e2⟩ | ⟨e1, e2⟩ <;> omega
  · intro m hm
    rcases h.crossCol m hm with hl | ⟨r, hr⟩
    · by_cases hb : cur.col + d.dc / 2 < m
      · by_cases hn : cur.col + d.dc < m
        · left
          intro x hx
          rcases hcases x hx with h0 | rfl | rfl
          · exact hl x h0
          · exact hn
          · exact hb
        · right
          refine ⟨cur.row + d.dr, ?_⟩
          have : m = cur.col + d.dc := by
            have := hl cur hcO
            rcases mem_carveDirs hd with ⟨e1, e2⟩ | ⟨e1, e2⟩ | ⟨e1, e2⟩ | ⟨e1, e2⟩ <;> omega
          rw [this]; exact hnext
      · right
        refine ⟨cur.row + d.dr / 2, ?_⟩
        have : m = cur.col + d.dc / 2 := by
          have := hl cur hcO
          rcases mem_carveDirs hd with ⟨e1, e2⟩ | ⟨e1, e2⟩ | ⟨e1, e2⟩ | ⟨e1, e2⟩ <;> omega
        rw [this]; exact hbet
    · exact Or.inr ⟨r, hmono _ hr⟩
  · intro m hm
    rcases h.crossRow m hm with hl | ⟨c, hcc⟩
    · by_cases hb : cur.row + d.dr / 2 < m
      · by_cases hn : cur.row + d.dr < m
        · left
          intro x hx
          rcases hcases x hx with h0 | rfl | rfl
          · exact hl x h0
          · exact hn
          · exact hb
        · right
          refine ⟨cur.col + d.dc, ?_⟩
          have : m = cur.row + d.dr := by
            have := hl cur hcO
            rcases mem_carveDirs hd with ⟨e1, e2⟩ | ⟨e1, e2⟩ | ⟨e1, e2⟩ | ⟨e1, e2⟩ <;> omega
          rw [this]; exact hnext
      · right
        refine ⟨cur.col + d.dc / 2, ?_⟩
        have : m = cur.row + d.dr / 2 := by
          have := hl cur hcO
          rcases mem_carveDirs hd with ⟨e1, e2⟩ | ⟨e1, e2⟩ | ⟨e1, e2⟩ | ⟨e1, e2⟩ <;> omega
        rw [this]; exact hbet
    · exact Or.inr ⟨c, hmono _ hcc⟩

theorem TreeInv.start {rows cols : Int} {g1 : Grid} (hF : Framed rows cols g1) (hr : 3 ≤ rows)
    (hc : 3 ≤ cols)
    (ht : ∀ r c, g1.tile r c = if r = 1 ∧ c = 1 then some Tile.floor
        else if 0 ≤ r ∧ r < rows ∧ 0 ≤ c ∧ c < cols then some Tile.wall else none) :
    TreeInv rows cols g1 [⟨1, 1⟩] := by
  have hroot : Opn rows cols g1 ⟨1, 1⟩ := by
    refine ⟨by dsimp only; omega, by dsimp only; omega, by dsimp only; omega,
      by dsimp only; omega, ?_⟩
    rw [ht]; simp
  have honly : ∀ x, Opn rows cols g1 x → x = ⟨1, 1⟩ := by
    intro x hx
    obtain ⟨a1, a2, a3, a4, a5⟩ := hx
    rw [ht] at a5
    by_cases h1 : x.row = 1 ∧ x.col = 1
    · cases x; simp only at h1; simp [h1]
    · rw [if_neg h1, if_pos ⟨a1, a2, a3, a4⟩] at a5
      cases a5
  refine ⟨hF, ?_, ?_, hroot, ?_, ?_, ?_⟩
  · intro x hx
    rw [List.mem_singleton] at hx
    subst hx
    refine ⟨?_, by decide, by decide, hroot⟩
    unfold StackCell; dsimp only; omega
  · intro a ha
    rw [honly a ha]
    exact Relation.ReflTransGen.refl
  · intro x hx _ _
    left
    rw [honly x hx]
    exact List.mem_singleton.mpr rfl
  · intro m hm
    by_cases h1 : m = 1
    · right; exact ⟨1, by rw [h1]; exact hroot⟩
    · left
      intro x hx
      rw [honly x hx]; dsimp only; omega
  · intro m hm
    by_cases h1 : m = 1
    · right; exact ⟨1, by rw [h1]; exact hroot⟩
    · left
      intro x hx
      rw [honly x hx]; dsimp only; omega

/-- The carving loop keeps the tree invariant and terminates. -/
theorem carve_tree (rows cols : Int) (rnd : Rng) (fuel : Nat) (g : Grid) (stack : List Cell)
    (k : Nat) (h : TreeInv rows cols g stack) :
    (∀ g2 k2, carve rows cols rnd fuel g stack k = .ok (g2, k2) → TreeInv rows cols g2 []) ∧
    (2 * wallCount rows cols g + stack.length ≤ fuel →
      ∃ g2 k2, carve rows cols rnd fuel g stack k = .ok (g2, k2)) :=
  carve_induct rows cols rnd (TreeInv rows cols)
    (fun _ _ _ hI hno => hI.pop hno)
    (fun _ _ _ _ hI hd hc => hI.push hd hc) fuel g stack k h

/-- When the carving loop has ended, every cell with odd coordinates strictly inside the
border is open. -/
theorem TreeInv.lattice {rows cols : Int} {g : Grid} (h : TreeInv rows cols g []) :
    ∀ (n : Nat) (r c : Int), r + c ≤ (n : Int) → 0 < r → r < rows - 1 → 0 < c → c < cols - 1 →
      r % 2 = 1 → c % 2 = 1 → Opn rows cols g ⟨r, c⟩ := by
  have hstep : ∀ x, Opn rows cols g x → x.row % 2 = 1 → x.col % 2 = 1 →
      ∀ d ∈ carveDirs, 0 < x.row + d.dr → x.row + d.dr < rows - 1 →
      0 < x.col + d.dc → x.col + d.dc < cols - 1 →
      Opn rows cols g ⟨x.row + d.dr, x.col + d.dc⟩ := by
    intro x hx p1 p2
    rcases h.done x hx p1 p2 with hin | hall
    · exact absurd hin (List.not_mem_nil _)
    · exact hall
  intro n
  induction n with
  | zero => intro r c hs a1 _ a3 _ _ _; omega
  | succ n ih =>
    intro r c hs a1 a2 a3 a4 p1 p2
    by_cases hr : r = 1
    · by_cases hc : c = 1
      · rw [hr, hc]; exact h.root
      · have hprev := ih r (c - 2) (by push_cast at hs; omega) a1 a2 (by omega) (by omega) p1
          (by omega)
        have := hstep _ hprev p1 (by dsimp only; omega) ⟨0, 2⟩ (by simp [carveDirs])
          (by dsimp only; omega) (by dsimp only; omega) (by dsimp only; omega)
          (by dsimp only; omega)
        dsimp only at this
        rw [show r + 0 = r by omega, show c - 2 + 2 = c by omega] at this
        exact this
    · have hprev := ih (r - 2) c (by push_cast at hs; omega) (by omega) (by omega) a3 a4
        (by omega) p2
      have := hstep _ hprev (by dsimp only; omega) p2 ⟨2, 0⟩ (by simp [carveDirs])
        (by dsimp only; omega) (by dsimp only; omega) (by dsimp only; omega)
        (by dsimp only; omega)
      dsimp only at this
      rw [show r - 2 + 2 = r by omega, show c + 0 = c by omega] at this
      exact this

theorem TreeInv.carved {rows cols : Int} {g : Grid} (h : TreeInv rows cols g []) :
    Carved rows cols g :=
  ⟨h.framed, h.conn, fun r c a1 a2 a3 a4 p1 p2 =>
    h.lattice (r + c).toNat r c (by omega) a1 a2 a3 a4 p1 p2, h.crossCol, h.crossRow⟩

/-- Opening a wall that has open cells on two opposite sides keeps a carved grid carved. -/
theorem Carved.open_cell {rows cols : Int} {g g1 : Grid} (h : Carved rows cols g)
    (hF1 : Framed rows cols g1) (r c : Int) (hr0 : 0 < r) (hr1 : r < rows - 1)
    (hv : (g.tile (r - 1) c = some Tile.floor ∧ g.tile (r + 1) c = some Tile.floor) ∨
      (g.tile r (c - 1) = some Tile.floor ∧ g.tile r (c + 1) = some Tile.floor))
    (ht : ∀ r1 c1, g1.tile r1 c1 = if r1 = r ∧ c1 = c then some Tile.floor else g.tile r1 c1) :
    Carved rows cols g1 := by
  have hmono : ∀ x, Opn rows cols g x → Opn rows cols g1 x := by
    intro x hx
    obtain ⟨a1, a2, a3, a4, a5⟩ := hx
    refine ⟨a1, a2, a3, a4, ?_⟩
    rw [ht]
    split_ifs
    · rfl
    · exact a5
  have hold : ∀ x, Opn rows cols g1 x → ¬ (x.row = r ∧ x.col = c) → Opn rows cols g x := by
    intro x hx hne
    obtain ⟨a1, a2, a3, a4, a5⟩ := hx
    rw [ht, if_neg hne] at a5
    exact ⟨a1, a2, a3, a4, a5⟩
  have hnb : ∀ x, Opn rows cols g1 x → (x.row = r ∧ x.col = c) →
      ∃ b, Opn rows cols g b ∧ Adjacent b x ∧ x.col ≤ b.col ∧ x.row ≤ b.row := by
    intro x hx hxe
    obtain ⟨xr, xc⟩ := x
    dsimp only at hxe
    obtain ⟨rfl, rfl⟩ := hxe
    obtain ⟨a1, a2, a3, a4, a5⟩ := hx
    dsimp only at a1 a2 a3 a4 a5
    have hint : 0 < xc ∧ xc < cols - 1 := by
      rcases hF1.cell xr xc a1 a2 a3 a4 with hw | hf
      · rw [hw] at a5; cases a5
      · exact ⟨hf.2.2.2.1, hf.2.2.2.2⟩
    rcases hv with ⟨-, hd⟩ | ⟨-, hrr⟩
    · refine ⟨⟨xr + 1, xc⟩, ⟨by dsimp only; omega, by dsimp only; omega, a3, a4, hd⟩, ?_,
        le_refl _, by dsimp only; omega⟩
      unfold Adjacent; dsimp only; omega
    · refine ⟨⟨xr, xc + 1⟩, ⟨a1, a2, by dsimp only; omega, by dsimp only; omega, hrr⟩, ?_,
        by dsimp only; omega, le_refl _⟩
      unfold Adjacent; dsimp only; omega
  refine ⟨hF1, ?_, fun r c a1 a2 a3 a4 p1 p2 => hmono _ (h.lattice r c a1 a2 a3 a4 p1 p2), ?_, ?_⟩
  · apply h.conn.extend hmono
    intro a ha
    by_cases hx : a.row = r ∧ a.col = c
    · obtain ⟨b, hb, hadj, -, -⟩ := hnb a ha hx
      exact ⟨b, hb, Walk.step (hmono _ hb) ha hadj⟩
    · exact ⟨a, hold a ha hx, Relation.ReflTransGen.refl⟩
  · intro m hm
    rcases h.crossCol m hm with hl | ⟨r2, hr2⟩
    · left
      intro x hx
      by_cases hxx : x.row = r ∧ x.col = c
      · obtain ⟨b, hb, -, hcb, -⟩ := hnb x hx hxx
        have := hl b hb
        omega
      · exact hl x (hold x hx hxx)
    · exact Or.inr ⟨r2, hmono _ hr2⟩
  · intro m hm
    rcases h.crossRow m hm with hl | ⟨c2, hc2⟩
    · left
      intro x hx
      by_cases hxx : x.row = r ∧ x.col = c
      · obtain ⟨b, hb, -, -, hrb⟩ := hnb x hx hxx
        have := hl b hb
        omega
      · exact hl x (hold x hx hxx)
    · exact Or.inr ⟨c2, hmono _ hc2⟩

/-- Inside the room every cell is joined to the centre. -/
theorem room_walk {rows cols : Int} (hr : 3 ≤ rows) (hc : 3 ≤ cols) :
    ∀ (n : Nat) (x : Cell), (x.row - rows / 2).natAbs + (x.col - cols / 2).natAbs ≤ n →
      InRoom rows cols x.row x.col →
      Walk (fun y => InRoom rows cols y.row y.col) x ⟨rows / 2, cols / 2⟩ := by
  intro n
  induction n with
  | zero =>
    intro x hn _
    obtain ⟨xr, xc⟩ := x
    dsimp only at hn
    have e1 : xr = rows / 2 := by omega
    have e2 : xc = cols / 2 := by omega
    rw [e1, e2]
    exact Relation.ReflTransGen.refl
  | succ n ih =>
    intro x hn hx
    obtain ⟨xr, xc⟩ := x
    dsimp only at hn hx
    obtain ⟨a1, a2, a3, a4, a5⟩ := hx
    have go : ∀ y : Cell, (y.row - rows / 2).natAbs + (y.col - cols / 2).natAbs ≤ n →
        InRoom rows cols y.row y.col → Adjacent ⟨xr, xc⟩ y →
        Walk (fun y => InRoom rows cols y.row y.col) ⟨xr, xc⟩ ⟨rows / 2, cols / 2⟩ := by
      intro y hy1 hy2 hadj
      exact (Walk.step (P := fun y => InRoom rows cols y.row y.col) ⟨a1, a2, a3, a4, a5⟩
        hy2 hadj).trans (ih y hy1 hy2)
    by_cases h1 : rows / 2 < xr
    · refine go ⟨xr - 1, xc⟩ (by dsimp only; omega) ⟨by dsimp only; omega, by dsimp only; omega,
        a3, a4, ?_⟩ (by unfold Adjacent; dsimp only; omega)
      dsimp only
      nlinarith
    · by_cases h2 : xr < rows / 2
      · refine go ⟨xr + 1, xc⟩ (by dsimp only; omega) ⟨by dsimp only; omega,
          by dsimp only; omega, a3, a4, ?_⟩ (by unfold Adjacent; dsimp only; omega)
        dsimp only
        nlinarith
      · by_cases h3 : cols / 2 < xc
        · refine go ⟨xr, xc - 1⟩ (by dsimp only; omega) ⟨a1, a2, by dsimp only; omega,
            by dsimp only; omega, ?_⟩ (by unfold Adjacent; dsimp only; omega)
          dsimp only
          nlinarith
        · by_cases h4 : xc < cols / 2
          · refine go ⟨xr, xc + 1⟩ (by dsimp only; omega) ⟨a1, a2, by dsimp only; omega,
              by dsimp only; omega, ?_⟩ (by unfold Adjacent; dsimp only; omega)
            dsimp only
            nlinarith
          · have e1 : xr = rows / 2 := by omega
            have e2 : xc = cols / 2 := by omega
            rw [e1, e2]
            exact Relation.ReflTransGen.refl

/-- After `addRooms` the open cells of a carved grid of odd size at least 5 × 5 are still joined
to cell (1, 1). -/
theorem Carved.room {rows cols : Int} {g g1 : Grid} (h : Carved rows cols g)
    (hr : 5 ≤ rows) (hc : 5 ≤ cols) (hro : rows % 2 = 1) (hco : cols % 2 = 1)
    (ht : ∀ r c, g1.tile r c = if InRoom rows cols r c then some Tile.floor else g.tile r c) :
    RootConn (Opn rows cols g1) ⟨1, 1⟩ := by
  have hmono : ∀ x, Opn rows cols g x → Opn rows cols g1 x := by
    intro x hx
    obtain ⟨a1, a2, a3, a4, a5⟩ := hx
    refine ⟨a1, a2, a3, a4, ?_⟩
    rw [ht]
    split_ifs
    · rfl
    · exact a5
  have hroom : ∀ x : Cell, InRoom rows cols x.row x.col → Opn rows cols g1 x := by
    intro x hx
    have hx' := hx
    obtain ⟨a1, a2, a3, a4, _⟩ := hx
    refine ⟨by omega, by omega, by omega, by omega, ?_⟩
    rw [ht, if_pos hx']
  have hR : 0 ≤ min rows cols / 6 := Int.ediv_nonneg (le_min (by omega) (by omega)) (by norm_num)
  have hcen : InRoom rows cols (rows / 2) (cols / 2) := by
    refine ⟨by omega, by omega, by omega, by omega, ?_⟩
    simp only [sub_self, mul_zero, add_zero]
    exact mul_nonneg hR hR
  have hcenQ : Opn rows cols g1 ⟨rows / 2, cols / 2⟩ := hroom ⟨rows / 2, cols / 2⟩ hcen
  have hnear : ∃ b, Opn rows cols g b ∧ Walk (Opn rows cols g1) b ⟨rows / 2, cols / 2⟩ := by
    by_cases p1 : (rows / 2) % 2 = 1
    · by_cases p2 : (cols / 2) % 2 = 1
      · exact ⟨_, h.lattice _ _ (by omega) (by omega) (by omega) (by omega) p1 p2,
          Relation.ReflTransGen.refl⟩
      · have hb := h.lattice (rows / 2) (cols / 2 - 1) (by omega) (by omega) (by omega)
          (by omega) p1 (by omega)
        exact ⟨_, hb, Walk.step (hmono _ hb) hcenQ (by unfold Adjacent; dsimp only; omega)⟩
    · by_cases p2 : (cols / 2) % 2 = 1
      · have hb := h.lattice (rows / 2 - 1) (cols / 2) (by omega) (by omega) (by omega)
          (by omega) (by omega) p2
        exact ⟨_, hb, Walk.step (hmono _ hb) hcenQ (by unfold Adjacent; dsimp only; omega)⟩
      · by_cases hR1 : 1 ≤ min rows cols / 6
        · have hb := h.lattice (rows / 2 - 1) (cols / 2 - 1) (by omega) (by omega) (by omega)
            (by omega) (by omega) (by omega)
          have hmid : InRoom rows cols (rows / 2 - 1) (cols / 2) := by
            refine ⟨by omega, by omega, by omega, by omega, ?_⟩
            have e : rows / 2 - 1 - rows / 2 = -1 := by omega
            rw [e]
            simp only [sub_self, mul_zero, add_zero]
            nlinarith
          have hmidQ := hroom ⟨rows / 2 - 1, cols / 2⟩ hmid
          exact ⟨_, hb, (Walk.step (hmono _ hb) hmidQ
            (by unfold Adjacent; dsimp only; omega)).trans
            (Walk.step hmidQ hcenQ (by unfold Adjacent; dsimp only; omega))⟩
        · have hmin : min rows cols < 6 := by omega
          rcases min_lt_iff.mp hmin with h5 | h5
          · have hrows : rows = 5 := by omega
            rcases h.crossCol (cols / 2) (by omega) with hl | ⟨r, hrr⟩
            · exfalso
              have hb := h.lattice 1 (cols - 2) (by omega) (by omega) (by omega) (by omega)
                (by omega) (by omega)
              have := hl _ hb
              dsimp only at this
              omega
            · have hint : 0 < r ∧ r < rows - 1 := by
                obtain ⟨a1, a2, a3, a4, a5⟩ := hrr
                dsimp only at a1 a2 a3 a4 a5
                rcases h.framed.cell r (cols / 2) a1 a2 a3 a4 with hw | hf
                · rw [hw] at a5; cases a5
                · exact ⟨hf.2.1, hf.2.2.1⟩
              by_cases hr2 : r = rows / 2
              · rw [hr2] at hrr
                exact ⟨_, hrr, Relation.ReflTransGen.refl⟩
              · exact ⟨_, hrr, Walk.step (hmono _ hrr) hcenQ
                  (by unfold Adjacent; dsimp only; omega)⟩
          · have hcols : cols = 5 := by omega
            rcases h.crossRow (rows / 2) (by omega) with hl | ⟨c, hcc⟩
            · exfalso
              have hb := h.lattice (rows - 2) 1 (by omega) (by omega) (by omega) (by omega)
                (by omega) (by omega)
              have := hl _ hb
              dsimp only at this
              omega
            · have hint : 0 < c ∧ c < cols - 1 := by
                obtain ⟨a1, a2, a3, a4, a5⟩ := hcc
                dsimp only at a1 a2 a3 a4 a5
                rcases h.framed.cell (rows / 2) c a1 a2 a3 a4 with hw | hf
                · rw [hw] at a5; cases a5
                · exact ⟨hf.2.2.2.1, hf.2.2.2.2⟩
              by_cases hc2 : c = cols / 2
              · rw [hc2] at hcc
                exact ⟨_, hcc, Relation.ReflTransGen.refl⟩
              · exact ⟨_, hcc, Walk.step (hmono _ hcc) hcenQ
                  (by unfold Adjacent; dsimp only; omega)⟩
  apply h.conn.extend hmono
  intro a ha
  by_cases hin : InRoom rows cols a.row a.col
  · obtain ⟨b, hb, hw⟩ := hnear
    refine ⟨b, hb, hw.trans ?_⟩
    exact ((room_walk (by omega) (by omega) _ a (le_refl _) hin).mono hroom).symm
  · obtain ⟨a1, a2, a3, a4, a5⟩ := ha
    rw [ht, if_neg hin] at a5
    exact ⟨a, ⟨a1, a2, a3, a4, a5⟩, Relation.ReflTransGen.refl⟩

theorem Maze.isOpen_iff_opn {m : Maze} (h : Framed m.rows m.cols m.walls) (x : Cell) :
    m.isOpen x.row x.col = true ↔ Opn m.rows m.cols m.walls x := by
  unfold Maze.isOpen Opn
  by_cases hb : x.row < 0 ∨ x.row ≥ m.rows ∨ x.col < 0 ∨ x.col ≥ m.cols
  · rw [if_pos hb]
    constructor
    · intro hh; cases hh
    · rintro ⟨a1, a2, a3, a4, -⟩; omega
  · rw [if_neg hb]
    have hb' : 0 ≤ x.row ∧ x.row < m.rows ∧ 0 ≤ x.col ∧ x.col < m.cols := by omega
    obtain ⟨a1, a2, a3, a4⟩ := hb'
    rcases h.cell x.row x.col a1 a2 a3 a4 with hw | hf
    · simp [hw]
    · simp [hf.1, a1, a2, a3, a4]

theorem forceOdd_of_odd {n : Int} (h : n % 2 = 1) : forceOdd n = n := by
  unfold forceOdd
  rw [if_neg (by omega)]

/-- With enough fuel `generateLayout` returns a grid, for odd sizes with at least three rows and
one column. -/
theorem generateLayout_total {rows cols : Int} (hr : 3 ≤ rows) (hro : rows % 2 = 1)
    (hc : 1 ≤ cols) (hco : cols % 2 = 1) (hc2 : cols < 4294967296) (rnd : Rng) (k : Nat)
    (fuel : Nat) (hfuel : 2 * (rows.toNat * cols.toNat) + 1 ≤ fuel) :
    ∃ g4 k4, generateLayout fuel rows cols rnd k = .ok (g4, k4) := by
  obtain ⟨g1, h0, h1, -, -, -⟩ := @init_spec rows cols (by omega) hc hc2
  obtain ⟨hF1, -, -, -⟩ := init_framed hro hco h0 h1
  have hcarve := (carve_framed rows cols rnd fuel g1 _ k hF1 (stackCell_start hr))
  obtain ⟨g2, k2, h2⟩ := hcarve.2 (by
    have := wallCount_le rows cols g1
    simp only [List.length_singleton]
    omega)
  have hF2 := hcarve.1 g2 k2 h2
  obtain ⟨g3, hs3, hF3, -⟩ := addLoopsFrom_induct hr hco rnd (fun _ => True)
    (fun _ _ _ _ _ _ _ _ _ _ _ _ => trivial) ((rows * cols * 12) / 100).toNat g2 k2 hF2 trivial
  rw [← addLoops_eq hF2] at hs3
  obtain ⟨g4, hs4, -, -⟩ := addRooms_spec hF3
  exact ⟨g4, _, generateLayout_of_stages h0 h1 h2 hs3 hs4⟩

/-- A generated layout of odd size at least 5 × 5 is connected to cell (1, 1). -/
theorem generateLayout_rootConn {fuel : Nat} {rows cols : Int} {rnd : Rng} {k k4 : Nat}
    {g4 : Grid} (hr : 5 ≤ rows) (hc : 5 ≤ cols) (hro : rows % 2 = 1) (hco : cols % 2 = 1)
    (h : generateLayout fuel rows cols rnd k = .ok (g4, k4)) :
    RootConn (Opn rows cols g4) ⟨1, 1⟩ := by
  obtain ⟨g0, g1, g2, k2, g3, h0, h1, h2, h3, h4⟩ := generateLayout_stages h
  obtain ⟨hF1, hr3, hc1, ht1⟩ := init_framed hro hco h0 h1
  have hT1 := TreeInv.start hF1 hr3 (by omega) ht1
  have hC2 := ((carve_tree rows cols rnd fuel g1 _ k hT1).1 g2 k2 h2).carved
  rw [addLoops_eq hC2.framed] at h3
  obtain ⟨g3', hs3, hF3, hC3⟩ := addLoopsFrom_induct hr3 hco rnd (Carved rows cols)
    (fun g g1 r c hJ _ hF1 a1 a2 _ a4 a5 => hJ.open_cell hF1 r c a1 a2 a4 a5)
    ((rows * cols * 12) / 100).toNat g2 k2 hC2.framed hC2
  rw [hs3] at h3
  injection h3 with h3
  injection h3 with h3 _
  subst h3
  obtain ⟨g4', hs4, hF4, ht4⟩ := addRooms_spec hF3
  rw [hs4] at h4
  injection h4 with h4
  subst h4
  exact hC3.room hr hc hro hco ht4

theorem mem_collectPathCells {rows cols : Int} {g : Grid} {x : Cell} :
    x ∈ collectPathCells rows cols g ↔
      0 ≤ x.row ∧ x.row < rows ∧ 0 ≤ x.col ∧ x.col < cols ∧
        g.tile x.row x.col ≠ some Tile.wall := by
  unfold collectPathCells
  simp only [List.mem_flatMap, List.mem_filterMap, mem_intRange]
  constructor
  · rintro ⟨r, ⟨hr0, hr1⟩, c, ⟨hc0, hc1⟩, hx⟩
    by_cases hw : g.tile r c = some Tile.wall
    · simp [hw] at hx
    · simp only [ne_eq, hw, not_false_eq_true, if_true, Option.some.injEq] at hx
      subst hx
      exact ⟨hr0, by dsimp only; omega, hc0, by dsimp only; omega, hw⟩
  · rintro ⟨a1, a2, a3, a4, a5⟩
    refine ⟨x.row, ⟨a1, by omega⟩, x.col, ⟨a3, by omega⟩, ?_⟩
    simp [a5]

theorem Maze.mem_pathCells {m : Maze} (hm : m.Built) (x : Cell) :
    x ∈ m.pathCells ↔ m.isOpen x.row x.col = true := by
  rw [hm, mem_collectPathCells]
  unfold Maze.isOpen
  by_cases hb : x.row < 0 ∨ x.row ≥ m.rows ∨ x.col < 0 ∨ x.col ≥ m.cols
  · rw [if_pos hb]
    constructor
    · rintro ⟨a1, a2, a3, a4, -⟩; omega
    · intro hh; cases hh
  · rw [if_neg hb]
    have hb' : 0 ≤ x.row ∧ x.row < m.rows ∧ 0 ≤ x.col ∧ x.col < m.cols := by omega
    simp [hb']

theorem jsIndex_mem {α : Type} {a : List α} {i : Int} {x : α} (h : jsIndex a i = some x) :
    x ∈ a := by
  obtain ⟨-, h1⟩ := jsIndex_eq_some.mp h
  exact List.getElem?_mem h1

theorem jsIndex_draw {α : Type} (a : List α) (hne : a ≠ []) (d : Draw) :
    ∃ x, jsIndex a (d.floorMul (a.length : Int)) = some x := by
  have hpos : (0 : Int) < (a.length : Int) := by
    have := List.length_pos.mpr hne
    omega
  exact jsIndex_isSome (d.floorMul_nonneg (le_of_lt hpos)) (d.floorMul_lt hpos)

/-- What `getRandomPathCell` returns on a constructed maze. -/
theorem Maze.getRandomPathCell_spec {m : Maze} (hm : m.Built) (d : Draw) :
    (∀ cell, m.getRandomPathCell d = some cell →
      cell ∈ m.pathCells ∧ m.isOpen cell.row cell.col = true) ∧
    ((∃ r c, m.isOpen r c = true ∧ m.getNeighbors r c ≠ []) →
      ∃ cell, m.getRandomPathCell d = some cell ∧ cell ∈ m.pathCells ∧
        m.isOpen cell.row cell.col = true ∧ m.getNeighbors cell.row cell.col ≠ []) := by
  constructor
  · intro cell h
    unfold Maze.getRandomPathCell at h
    dsimp only at h
    have hmem := jsIndex_mem h
    have hp : cell ∈ m.pathCells := by
      split_ifs at hmem with hn
      · exact (List.mem_filter.mp hmem).1
      · exact hmem
    exact ⟨hp, (Maze.mem_pathCells hm cell).mp hp⟩
  · rintro ⟨r, c, ho, hn⟩
    have hin : (Cell.mk r c) ∈ m.pathCells.filter
        (fun cell => (m.getNeighbors cell.row cell.col).length > 0) := by
      refine List.mem_filter.mpr ⟨(Maze.mem_pathCells hm ⟨r, c⟩).mpr ho, ?_⟩
      simpa [List.length_pos] using hn
    have hne : m.pathCells.filter
        (fun cell => (m.getNeighbors cell.row cell.col).length > 0) ≠ [] :=
      List.ne_nil_of_mem hin
    have hlen : (m.pathCells.filter
        (fun cell => (m.getNeighbors cell.row cell.col).length > 0)).length ≠ 0 := by
      simpa using hne
    obtain ⟨cell, hcell⟩ := jsIndex_draw _ hne d
    have hget : m.getRandomPathCell d = some cell := by
      unfold Maze.getRandomPathCell
      dsimp only
      rw [if_pos hlen]
      exact hcell
    have hmem := List.mem_filter.mp (jsIndex_mem hcell)
    refine ⟨cell, hget, hmem.1, (Maze.mem_pathCells hm cell).mp hmem.1, ?_⟩
    have := hmem.2
    simpa [List.length_pos] using this

theorem Maze.new_built {fuel : Nat} {rows cols : Int} {rnd : Rng} {k k1 : Nat} {m : Maze}
    (h : Maze.new fuel rows cols rnd k = .ok (m, k1)) : m.Built :=
  (Maze.new_eq h).2.2.2

/-- `generateLayout` throws when there is at most one row or a negative number of columns. -/
theorem generateLayout_throws (fuel : Nat) (rows cols : Int) (rnd : Rng) (k : Nat)
    (h : rows ≤ 1 ∨ cols < 0) :
    ∃ e, generateLayout fuel rows cols rnd k = .error e ∧ e.isThrow = true := by
  unfold generateLayout newGrid
  by_cases hr : rows ≤ 0
  · exact ⟨Stop.typeError, by simp [hr, Grid.write, jsIndex], rfl⟩
  · by_cases hc : cols < 0 ∨ 4294967296 ≤ cols
    · exact ⟨Stop.rangeError, by simp [hr, hc], rfl⟩
    · have hr1 : rows.toNat = 1 := by omega
      exact ⟨Stop.typeError, by simp [hr, hc, Grid.write, jsIndex, hr1], rfl⟩

theorem sampleMaze_generated : Maze.new 51 5 5 sampleRng 0 = .ok (sampleMaze, 27) := by
  rfl

theorem degenerate_generated : Maze.new 1 3 0 sampleRng 0 = .ok (degenerateMaze, 3) := by
  rfl

theorem mem_DIRECTIONS {dir : Direction} (h : dir ∈ DIRECTIONS) :
    (dir.dx = 1 ∧ dir.dy = 0) ∨ (dir.dx = -1 ∧ dir.dy = 0) ∨ (dir.dx = 0 ∧ dir.dy = 1) ∨
      (dir.dx = 0 ∧ dir.dy = -1) := by
  simp only [DIRECTIONS, List.mem_cons, List.mem_singleton, List.not_mem_nil, or_false] at h
  rcases h with rfl | rfl | rfl | rfl <;> simp

theorem Maze.mem_getNeighbors {m : Maze} {row col : Int} {dir : Direction} :
    dir ∈ m.getNeighbors row col ↔
      dir ∈ DIRECTIONS ∧ m.isOpen (row + dir.dy) (col + dir.dx) = true := by
  unfold Maze.getNeighbors
  rw [List.mem_filter]

theorem Maze.getNeighbors_nodup (m : Maze) (row col : Int) : (m.getNeighbors row col).Nodup := by
  unfold Maze.getNeighbors
  exact List.Nodup.filter _ (by decide)

/-- A step to an open neighbour: the target is open and 4-adjacent to the current cell. -/
theorem Maze.neighbor_step {m : Maze} {row col : Int} {dir : Direction}
    (h : dir ∈ m.getNeighbors row col) :
    m.isOpen (row + dir.dy) (col + dir.dx) = true ∧
      Adjacent ⟨row, col⟩ ⟨row + dir.dy, col + dir.dx⟩ := by
  obtain ⟨hd, ho⟩ := Maze.mem_getNeighbors.mp h
  refine ⟨ho, ?_⟩
  unfold Adjacent
  dsimp only
  rcases mem_DIRECTIONS hd with ⟨e1, e2⟩ | ⟨e1, e2⟩ | ⟨e1, e2⟩ | ⟨e1, e2⟩ <;> omega

theorem keepDirection_single (o : Direction) (previous dir : Direction) :
    keepDirection [o] previous dir = true := by
  simp [keepDirection]

theorem keepDirection_many {options : List Direction} (h : 1 < options.length)
    (previous dir : Direction) :
    keepDirection options previous dir =
      !(decide (dir.dx = -previous.dx ∧ dir.dy = -previous.dy)) := by
  simp [keepDirection, h]

/-- The pool of `chooseNextDirection` is never empty. -/
theorem filter_keep_ne_nil (o : Direction) (os : List Direction) (hnd : (o :: os).Nodup)
    (previous : Direction) : (o :: os).filter (keepDirection (o :: os) previous) ≠ [] := by
  cases os with
  | nil => simp [keepDirection_single]
  | cons o2 os2 =>
    intro hnil
    have hlen : 1 < (o :: o2 :: os2).length := by simp
    have h1 : keepDirection (o :: o2 :: os2) previous o = false := by
      by_contra hk
      have : o ∈ (o :: o2 :: os2).filter (keepDirection (o :: o2 :: os2) previous) :=
        List.mem_filter.mpr ⟨List.mem_cons_self _ _, by simpa using hk⟩
      rw [hnil] at this; exact List.not_mem_nil _ this
    have h2 : keepDirection (o :: o2 :: os2) previous o2 = false := by
      by_contra hk
      have : o2 ∈ (o :: o2 :: os2).filter (keepDirection (o :: o2 :: os2) previous) :=
        List.mem_filter.mpr ⟨List.mem_cons_of_mem _ (List.mem_cons_self _ _), by simpa using hk⟩
      rw [hnil] at this; exact List.not_mem_nil _ this
    rw [keepDirection_many hlen] at h1 h2
    simp only [Bool.not_eq_false', decide_eq_true_eq] at h1 h2
    have heq : o = o2 := by
      cases o; cases o2
      simp only [Direction.mk.injEq]
      dsimp only at h1 h2
      exact ⟨h1.1.trans h2.1.symm, h1.2.trans h2.2.symm⟩
    have hne := (List.nodup_cons.mp hnd).1
    exact hne (by rw [heq]; exact List.mem_cons_self _ _)

/-- The direction picked by `chooseNextDirection` is the entry of the pool at the drawn index. -/
theorem pickDirection_spec (o : Direction) (os : List Direction) (hnd : (o :: os).Nodup)
    (previous : Direction) (dr : Draw) :
    jsIndex ((o :: os).filter (keepDirection (o :: os) previous))
        (dr.floorMul (((o :: os).filter (keepDirection (o :: os) previous)).length : Int))
      = some (pickDirection o os previous dr) ∧
    pickDirection o os previous dr ∈ o :: os ∧
    keepDirection (o :: os) previous (pickDirection o os previous dr) = true := by
  obtain ⟨x, hx⟩ := jsIndex_draw _ (filter_keep_ne_nil o os hnd previous) dr
  have e : pickDirection o os previous dr = x := by
    unfold pickDirection
    rw [hx]; rfl
  rw [e]
  have hm := List.mem_filter.mp (jsIndex_mem hx)
  exact ⟨hx, hm.1, hm.2⟩

/-- Whenever `chooseNextDirection` returns, the target is an open neighbour of the current cell;
progress is kept or reset to zero. -/
theorem Debugger.chooseNextDirection_post (m : Maze) (rnd : Rng) :
    ∀ (fuel : Nat) (d : Debugger) (k : Nat) (d1 : Debugger) (k1 : Nat),
      Debugger.chooseNextDirection m rnd fuel d k = .ok (d1, k1) →
      (∃ dir ∈ m.getNeighbors d1.current.row d1.current.col,
        d1.direction = dir ∧
        d1.target = ⟨d1.current.row + dir.dy, d1.current.col + dir.dx⟩) ∧
      d1.OnTrack m ∧ (d1.progress = d.progress ∨ d1.progress = 0) ∧ d1.speed = d.speed ∧
      d1.tileSize = d.tileSize := by
  intro fuel
  induction fuel with
  | zero => intro d k d1 k1 h; simp [Debugger.chooseNextDirection] at h
  | succ fuel ih =>
    intro d k d1 k1 h
    unfold Debugger.chooseNextDirection at h
    cases hopt : m.getNeighbors d.current.row d.current.col with
    | nil =>
      simp only [hopt] at h
      cases hcell : m.getRandomPathCell (rnd k) with
      | none => simp [hcell] at h
      | some restart =>
        simp only [hcell] at h
        obtain ⟨h1, h2, h3, h4, h5⟩ := ih _ _ _ _ h
        exact ⟨h1, h2, Or.inr (by rcases h3 with h3 | h3 <;> simpa using h3), h4, h5⟩
    | cons o os =>
      simp only [hopt, Except.ok.injEq, Prod.mk.injEq] at h
      obtain ⟨rfl, rfl⟩ := h
      have hnd : (o :: os).Nodup := by rw [← hopt]; exact m.getNeighbors_nodup _ _
      obtain ⟨-, hmem, -⟩ := pickDirection_spec o os hnd d.direction (rnd k)
      rw [← hopt] at hmem
      refine ⟨⟨_, hmem, rfl, rfl⟩, ?_, Or.inl rfl, rfl, rfl⟩
      have := Maze.neighbor_step hmem
      exact ⟨this.1, this.2⟩

theorem Debugger.chooseNextDirection_cons (m : Maze) (rnd : Rng) (fuel : Nat) (d : Debugger)
    (k : Nat) (o : Direction) (os : List Direction)
    (hopt : m.getNeighbors d.current.row d.current.col = o :: os) :
    Debugger.chooseNextDirection m rnd (fuel + 1) d k =
      .ok ({ d with
          direction := pickDirection o os d.direction (rnd k),
          target := ⟨d.current.row + (pickDirection o os d.direction (rnd k)).dy,
                     d.current.col + (pickDirection o os d.direction (rnd k)).dx⟩ }, k + 1) := by
  rw [Debugger.chooseNextDirection]
  simp only [hopt]

theorem Debugger.chooseNextDirection_nil (m : Maze) (rnd : Rng) (fuel : Nat) (d : Debugger)
    (k : Nat) (restart : Cell) (hopt : m.getNeighbors d.current.row d.current.col = [])
    (hcell : m.getRandomPathCell (rnd k) = some restart) :
    Debugger.chooseNextDirection m rnd (fuel + 1) d k =
      Debugger.chooseNextDirection m rnd fuel
        { d with current := restart, target := restart,
                 position := d.getTileCenter restart.col restart.row, progress := 0 } (k + 1) := by
  rw [Debugger.chooseNextDirection]
  simp only [hopt, hcell]

/-- On a constructed maze with a navigable cell, `chooseNextDirection` returns within two calls. -/
theorem Debugger.chooseNextDirection_total {m : Maze} (hm : m.Built)
    (hnav : ∃ r c, m.isOpen r c = true ∧ m.getNeighbors r c ≠ []) (rnd : Rng) (fuel : Nat)
    (hfuel : 2 ≤ fuel) (d : Debugger) (k : Nat) :
    ∃ d1 k1, Debugger.chooseNextDirection m rnd fuel d k = .ok (d1, k1) := by
  obtain ⟨f, rfl⟩ : ∃ f, fuel = f + 2 := ⟨fuel - 2, by omega⟩
  cases hopt : m.getNeighbors d.current.row d.current.col with
  | nil =>
    obtain ⟨cell, hcell, -, -, hne⟩ := (Maze.getRandomPathCell_spec hm (rnd k)).2 hnav
    obtain ⟨o, os, hos⟩ := List.exists_cons_of_ne_nil hne
    rw [Debugger.chooseNextDirection_nil m rnd (f + 1) d k cell hopt hcell]
    exact ⟨_, _, Debugger.chooseNextDirection_cons m rnd f _ (k + 1) o os hos⟩
  | cons o os =>
    exact ⟨_, _, Debugger.chooseNextDirection_cons m rnd (f + 1) d k o os hopt⟩

/-! ### Binary64 arithmetic -/

namespace Dbl

theorem pow2_eq (k : Nat) : pow2 k = 2 ^ k := by
  simp [pow2, Nat.shiftLeft_eq]

theorem bitsAux_spec : ∀ (fuel n : Nat), n ≤ fuel →
    n < 2 ^ bitsAux fuel n ∧ (n ≠ 0 → 2 ^ bitsAux fuel n ≤ 2 * n) := by
  intro fuel
  induction fuel with
  | zero =>
    intro n hn
    have : n = 0 := by omega
    subst this
    simp [bitsAux]
  | succ fuel ih =>
    intro n hn
    unfold bitsAux
    by_cases h0 : n = 0
    · subst h0; simp
    · rw [if_neg h0]
      obtain ⟨h1, h2⟩ := ih (n / 2) (by omega)
      constructor
      · rw [pow_succ]; omega
      · intro _
        rw [pow_succ]
        by_cases h3 : n / 2 = 0
        · have hb : bitsAux fuel (n / 2) = 0 := by
            rw [h3]; cases fuel <;> simp [bitsAux]
          rw [hb]; omega
        · have := h2 h3
          omega

/-- Every number is below `2^bits`. -/
theorem lt_pow_bits (n : Nat) : n < 2 ^ bits n := (bitsAux_spec n n le_rfl).1

/-- A positive number is at least `2^(bits - 1)`. -/
theorem pow_bits_le {n : Nat} (h : n ≠ 0) : 2 ^ bits n ≤ 2 * n := (bitsAux_spec n n le_rfl).2 h

theorem bits_pos {n : Nat} (h : n ≠ 0) : 0 < bits n := by
  by_contra hb
  have : bits n = 0 := by omega
  have h1 := lt_pow_bits n
  rw [this] at h1
  omega

/-- The number of digits is determined by the two bounds. -/
theorem bits_le_iff {n k : Nat} : bits n ≤ k ↔ n < 2 ^ k := by
  constructor
  · intro h
    exact lt_of_lt_of_le (lt_pow_bits n) (Nat.pow_le_pow_right (by norm_num) h)
  · intro h
    by_contra hk
    have hk : k + 1 ≤ bits n := by omega
    have h0 : n ≠ 0 := by
      rintro rfl
      have : bits 0 = 0 := rfl
      omega
    have h1 := pow_bits_le h0
    have h2 : 2 ^ (k + 1) ≤ 2 ^ bits n := Nat.pow_le_pow_right (by norm_num) hk
    rw [pow_succ] at h2
    omega

theorem Nearest.le_of_le {a b : Nat} {x y : ℚ} (ha : Nearest a x) (hb : Nearest b y) (hxy : x ≤ y) :
    a ≤ b := by
  by_contra hlt
  have hab : b + 1 ≤ a := by omega
  have habq : (b : ℚ) + 1 ≤ a := by exact_mod_cast hab
  have h1 := abs_le.1 ha.1
  have h2 := abs_le.1 hb.1
  have e1 : (a : ℚ) - x = 1 / 2 := by linarith
  have e2 : (b : ℚ) - y = -(1 / 2) := by linarith
  have e3 : (a : ℚ) = b + 1 := by linarith
  have e3' : a = b + 1 := by exact_mod_cast e3
  have p1 := ha.2 (by rw [e1]; norm_num)
  have p2 := hb.2 (by rw [e2]; norm_num)
  omega

theorem Nearest.unique {a b : Nat} {x : ℚ} (ha : Nearest a x) (hb : Nearest b x) : a = b :=
  le_antisymm (ha.le_of_le hb le_rfl) (hb.le_of_le ha le_rfl)

theorem Nearest.of_eq {q : Nat} {x : ℚ} (h : (q : ℚ) = x) : Nearest q x := by
  unfold Nearest
  rw [h]
  simp

theorem roundShift_nonpos {n : Nat} {s : Int} (hs : s ≤ 0) :
    ((roundShift n s : Nat) : ℚ) = (n : ℚ) * 2 ^ (-s) := by
  unfold roundShift
  rw [if_pos hs, pow2_eq]
  obtain ⟨k, hk⟩ : ∃ k : Nat, -s = (k : Int) := ⟨(-s).toNat, (Int.toNat_of_nonneg (by omega)).symm⟩
  rw [hk, Int.toNat_ofNat, zpow_natCast]
  push_cast
  rfl

theorem roundShift_nearest (n : Nat) (s : Int) : Nearest (roundShift n s) ((n : ℚ) * 2 ^ (-s)) := by
  by_cases hs : s ≤ 0
  · exact Nearest.of_eq (roundShift_nonpos hs)
  · have hs0 : 0 < s := by omega
    obtain ⟨k, rfl⟩ : ∃ k : Nat, s = ((k + 1 : Nat) : Int) := ⟨(s - 1).toNat, by omega⟩
    unfold roundShift
    rw [if_neg hs]
    simp only [Int.toNat_ofNat, Nat.add_sub_cancel, pow2_eq]
    have hP : (0 : ℚ) < 2 ^ (k + 1) := by positivity
    have hx : (n : ℚ) * 2 ^ (-((k + 1 : Nat) : Int)) = (n : ℚ) / 2 ^ (k + 1) := by
      rw [zpow_neg, zpow_natCast, div_eq_mul_inv]
    rw [hx]
    have hdm := Nat.div_add_mod n (2 ^ (k + 1))
    have hr := Nat.mod_lt n (show 0 < 2 ^ (k + 1) by positivity)
    set q := n / 2 ^ (k + 1) with hq
    set r := n % 2 ^ (k + 1) with hrr
    have hpow : (2 : ℕ) ^ (k + 1) = 2 * 2 ^ k := by rw [pow_succ]; ring
    have hn : (n : ℚ) = 2 ^ (k + 1) * q + r := by exact_mod_cast hdm.symm
    have hpq : (2 : ℚ) ^ (k + 1) = 2 * 2 ^ k := by rw [pow_succ]; ring
    have hk : (0 : ℚ) < 2 ^ k := by positivity
    have hxq : (n : ℚ) / 2 ^ (k + 1) = q + (r : ℚ) / 2 ^ (k + 1) := by
      rw [hn]; field_simp; ring
    have hr0 : (0 : ℚ) ≤ r := by positivity
    have hrq : (r : ℚ) < 2 ^ (k + 1) := by exact_mod_cast hr
    rw [hxq]
    unfold Nearest
    split_ifs with hc
    · -- round up
      have hge : (2 : ℚ) ^ k ≤ r := by
        rcases hc with hc | hc
        · exact_mod_cast hc.le
        · exact_mod_cast hc.1.ge
      have e : ((q + 1 : Nat) : ℚ) - (q + (r : ℚ) / 2 ^ (k + 1)) = 1 - (r : ℚ) / 2 ^ (k + 1) := by
        push_cast; ring
      rw [e]
      have hfrac1 : (r : ℚ) / 2 ^ (k + 1) < 1 := by rw [div_lt_one hP]; exact hrq
      have hfrac2 : 1 / 2 ≤ (r : ℚ) / 2 ^ (k + 1) := by
        rw [le_div_iff₀ hP, hpq]; linarith
      rw [abs_of_nonneg (by linarith)]
      refine ⟨by linarith, ?_⟩
      intro he
      have hre : (r : ℚ) = 2 ^ k := by
        have : (r : ℚ) / 2 ^ (k + 1) = 1 / 2 := by linarith
        rw [div_eq_iff hP.ne', hpq] at this
        linarith
      have hre' : r = 2 ^ k := by exact_mod_cast hre
      rcases hc with hc | hc
      · omega
      · omega
    · -- round down
      push_neg at hc
      have hle : (r : ℚ) ≤ 2 ^ k := by exact_mod_cast hc.1
      have e : ((q : Nat) : ℚ) - (q + (r : ℚ) / 2 ^ (k + 1)) = -((r : ℚ) / 2 ^ (k + 1)) := by
        ring
      rw [e, abs_neg]
      have hfrac0 : 0 ≤ (r : ℚ) / 2 ^ (k + 1) := by positivity
      have hfrac2 : (r : ℚ) / 2 ^ (k + 1) ≤ 1 / 2 := by
        rw [div_le_iff₀ hP, hpq]; linarith
      rw [abs_of_nonneg hfrac0]
      refine ⟨hfrac2, ?_⟩
      intro he
      have hre : (r : ℚ) = 2 ^ k := by
        rw [div_eq_iff hP.ne', hpq] at he
        linarith
      have hre' : r = 2 ^ k := by exact_mod_cast hre
      have := hc.2 hre'
      omega

theorem two_zpow_pos (e : Int) : (0 : ℚ) < 2 ^ e := zpow_pos (by norm_num) e

theorem val_lt_zpow (n : Nat) (e : Int) : (n : ℚ) * 2 ^ e < 2 ^ (e + (bits n : Int)) := by
  have h := lt_pow_bits n
  have h1 : (n : ℚ) < 2 ^ bits n := by exact_mod_cast h
  rw [zpow_add₀ (by norm_num : (2 : ℚ) ≠ 0), zpow_natCast, mul_comm]
  exact mul_lt_mul_of_pos_left h1 (two_zpow_pos e)

theorem zpow_le_val {n : Nat} (h : n ≠ 0) (e : Int) :
    (2 : ℚ) ^ (e + (bits n : Int) - 1) ≤ (n : ℚ) * 2 ^ e := by
  have h0 := pow_bits_le h
  have h1 : (2 : ℚ) ^ bits n ≤ 2 * n := by exact_mod_cast h0
  have e1 : (2 : ℚ) ^ (e + (bits n : Int) - 1) = 2 ^ e * 2 ^ bits n / 2 := by
    rw [zpow_sub₀ (by norm_num : (2 : ℚ) ≠ 0), zpow_add₀ (by norm_num : (2 : ℚ) ≠ 0),
      zpow_natCast, zpow_one]
  rw [e1]
  have := two_zpow_pos e
  rw [div_le_iff₀ (by norm_num : (0 : ℚ) < 2)]
  nlinarith

theorem zpow_lt_zpow_two {a b : Int} : (2 : ℚ) ^ a < 2 ^ b ↔ a < b :=
  zpow_lt_zpow_iff_right₀ (by norm_num)

theorem zpow_le_zpow_two {a b : Int} : (2 : ℚ) ^ a ≤ 2 ^ b ↔ a ≤ b :=
  zpow_le_zpow_iff_right₀ (by norm_num)

theorem roundExp_ge (n : Nat) (e : Int) : -1074 ≤ roundExp n e := le_max_right _ _

theorem roundExp_ge_bits (n : Nat) (e : Int) : e + (bits n : Int) - 53 ≤ roundExp n e :=
  le_max_left _ _

theorem roundExp_cases (n : Nat) (e : Int) :
    (roundExp n e = -1074 ∧ e + (bits n : Int) - 53 ≤ -1074) ∨
      (roundExp n e = e + (bits n : Int) - 53 ∧ -1074 < e + (bits n : Int) - 53) := by
  unfold roundExp
  rcases le_or_lt (e + (bits n : Int) - 53) (-1074) with h | h
  · exact Or.inl ⟨max_eq_right h, h⟩
  · exact Or.inr ⟨max_eq_left h.le, h⟩

/-- The scaled value that is rounded to an integer. -/
theorem scaled_eq (n : Nat) (e E : Int) :
    (n : ℚ) * 2 ^ (-(E - e)) = (n : ℚ) * 2 ^ e * 2 ^ (-E) := by
  rw [mul_assoc, ← zpow_add₀ (by norm_num : (2 : ℚ) ≠ 0)]
  congr 2
  ring

theorem round_nearest (n : Nat) (e : Int) :
    Nearest (roundShift n (roundExp n e - e)) ((n : ℚ) * 2 ^ e * 2 ^ (-roundExp n e)) := by
  rw [← scaled_eq]
  exact roundShift_nearest n _

theorem scaled_lt (n : Nat) (e : Int) : (n : ℚ) * 2 ^ e * 2 ^ (-roundExp n e) < 2 ^ (53 : Nat) := by
  have h1 := val_lt_zpow n e
  have h2 := roundExp_ge_bits n e
  have h3 : (2 : ℚ) ^ (e + (bits n : Int)) ≤ 2 ^ (roundExp n e + 53) :=
    zpow_le_zpow_two.2 (by omega)
  have h4 : (n : ℚ) * 2 ^ e < 2 ^ (roundExp n e + 53) := lt_of_lt_of_le h1 h3
  rw [zpow_add₀ (by norm_num : (2 : ℚ) ≠ 0)] at h4
  rw [zpow_neg, ← div_eq_mul_inv, div_lt_iff₀ (two_zpow_pos _)]
  have e53 : (2 : ℚ) ^ (53 : Int) = 2 ^ (53 : Nat) := by norm_cast
  rw [e53] at h4
  linarith

theorem scaled_ge {n : Nat} (h : n ≠ 0) (e : Int) (hE : roundExp n e ≠ -1074) :
    (2 : ℚ) ^ (52 : Nat) ≤ (n : ℚ) * 2 ^ e * 2 ^ (-roundExp n e) := by
  rcases roundExp_cases n e with ⟨h1, -⟩ | ⟨h1, -⟩
  · exact absurd h1 hE
  · have h2 := zpow_le_val h e
    have e1 : e + (bits n : Int) - 1 = roundExp n e + 52 := by omega
    rw [e1, zpow_add₀ (by norm_num : (2 : ℚ) ≠ 0)] at h2
    rw [zpow_neg, ← div_eq_mul_inv, le_div_iff₀ (two_zpow_pos _)]
    have e52 : (2 : ℚ) ^ (52 : Int) = 2 ^ (52 : Nat) := by norm_cast
    rw [e52] at h2
    linarith

theorem roundShift_le (n : Nat) (e : Int) : roundShift n (roundExp n e - e) ≤ 2 ^ 53 := by
  have h1 := (round_nearest n e).1
  have h2 := scaled_lt n e
  have h3 := (abs_le.1 h1).2
  have h4 : ((roundShift n (roundExp n e - e) : Nat) : ℚ) < 2 ^ (53 : Nat) + 1 := by linarith
  have h5 : roundShift n (roundExp n e - e) < 2 ^ 53 + 1 := by exact_mod_cast h4
  omega

theorem roundShift_ge {n : Nat} (h : n ≠ 0) (e : Int) (hE : roundExp n e ≠ -1074) :
    2 ^ 52 ≤ roundShift n (roundExp n e - e) := by
  have h1 := (round_nearest n e).1
  have h2 := scaled_ge h e hE
  have h3 := (abs_le.1 h1).1
  have h4 : (2 : ℚ) ^ (52 : Nat) - 1 < ((roundShift n (roundExp n e - e) : Nat) : ℚ) := by
    linarith
  have h4' : ((4503599627370495 : Nat) : ℚ) < ((roundShift n (roundExp n e - e) : Nat) : ℚ) := by
    norm_num at h4 ⊢
    linarith
  have h5 : 4503599627370495 < roundShift n (roundExp n e - e) := by exact_mod_cast h4'
  norm_num
  omega

/-- The exponent grows with the value. -/
theorem roundExp_mono {n1 n2 : Nat} (h1 : n1 ≠ 0) {e1 e2 : Int}
    (h : (n1 : ℚ) * 2 ^ e1 ≤ (n2 : ℚ) * 2 ^ e2) : roundExp n1 e1 ≤ roundExp n2 e2 := by
  have a := zpow_le_val h1 e1
  have b := val_lt_zpow n2 e2
  have c : (2 : ℚ) ^ (e1 + (bits n1 : Int) - 1) < 2 ^ (e2 + (bits n2 : Int)) :=
    lt_of_le_of_lt (le_trans a h) b
  have d := zpow_lt_zpow_two.1 c
  unfold roundExp
  exact max_le_max (by omega) le_rfl

/-- Rounding is monotone (positive values, before the range check). -/
theorem roundMag_mono {n1 n2 : Nat} (h1 : n1 ≠ 0) (h2 : n2 ≠ 0) {e1 e2 : Int}
    (h : (n1 : ℚ) * 2 ^ e1 ≤ (n2 : ℚ) * 2 ^ e2) : roundMag n1 e1 ≤ roundMag n2 e2 := by
  have hE := roundExp_mono h1 h
  unfold roundMag
  rcases hE.eq_or_lt with heq | hlt
  · have hq : roundShift n1 (roundExp n1 e1 - e1) ≤ roundShift n2 (roundExp n2 e2 - e2) := by
      refine (round_nearest n1 e1).le_of_le (round_nearest n2 e2) ?_
      rw [heq]
      exact mul_le_mul_of_nonneg_right h (two_zpow_pos _).le
    have hz : (2 : ℚ) ^ roundExp n1 e1 = 2 ^ roundExp n2 e2 := by rw [heq]
    rw [hz]
    exact mul_le_mul_of_nonneg_right (by exact_mod_cast hq) (two_zpow_pos _).le
  · have hne : roundExp n2 e2 ≠ -1074 := by
      have := roundExp_ge n1 e1
      omega
    have a := roundShift_le n1 e1
    have b := roundShift_ge h2 e2 hne
    have a' : ((roundShift n1 (roundExp n1 e1 - e1) : Nat) : ℚ) ≤ 2 ^ (53 : Nat) := by
      exact_mod_cast a
    have b' : (2 : ℚ) ^ (52 : Nat) ≤ ((roundShift n2 (roundExp n2 e2 - e2) : Nat) : ℚ) := by
      exact_mod_cast b
    have p1 := two_zpow_pos (roundExp n1 e1)
    have p2 := two_zpow_pos (roundExp n2 e2)
    have c : (2 : ℚ) ^ (roundExp n1 e1 + 1) ≤ 2 ^ roundExp n2 e2 := zpow_le_zpow_two.2 (by omega)
    rw [zpow_add₀ (by norm_num : (2 : ℚ) ≠ 0), zpow_one] at c
    calc ((roundShift n1 (roundExp n1 e1 - e1) : Nat) : ℚ) * 2 ^ roundExp n1 e1
        ≤ 2 ^ (53 : Nat) * 2 ^ roundExp n1 e1 := mul_le_mul_of_nonneg_right a' p1.le
      _ = 2 ^ (52 : Nat) * (2 ^ roundExp n1 e1 * 2) := by norm_num; ring
      _ ≤ 2 ^ (52 : Nat) * 2 ^ roundExp n2 e2 := mul_le_mul_of_nonneg_left c (by positivity)
      _ ≤ _ := mul_le_mul_of_nonneg_right b' p2.le

/-- Equal values have equal roundings (positive values). -/
theorem roundParts_congr {n1 n2 : Nat} (h1 : n1 ≠ 0) (h2 : n2 ≠ 0) {e1 e2 : Int}
    (h : (n1 : ℚ) * 2 ^ e1 = (n2 : ℚ) * 2 ^ e2) :
    roundExp n1 e1 = roundExp n2 e2 ∧
      roundShift n1 (roundExp n1 e1 - e1) = roundShift n2 (roundExp n2 e2 - e2) := by
  have hE : roundExp n1 e1 = roundExp n2 e2 :=
    le_antisymm (roundExp_mono h1 h.le) (roundExp_mono h2 h.ge)
  refine ⟨hE, ?_⟩
  have a := round_nearest n1 e1
  have b := round_nearest n2 e2
  have hz : (2 : ℚ) ^ (-roundExp n1 e1) = 2 ^ (-roundExp n2 e2) := by rw [hE]
  rw [hz, h] at a
  exact a.unique b

/-- A value with at most 53 digits and an exponent in range is not changed by rounding. -/
theorem roundShift_exact {n : Nat} {e : Int} (hn : n < 2 ^ 53) (he : -1074 ≤ e) :
    roundExp n e ≤ e ∧
      ((roundShift n (roundExp n e - e) : Nat) : ℚ) * 2 ^ roundExp n e = (n : ℚ) * 2 ^ e := by
  have hb : bits n ≤ 53 := bits_le_iff.2 hn
  have hE : roundExp n e ≤ e := by
    unfold roundExp
    exact max_le (by omega) he
  refine ⟨hE, ?_⟩
  rw [roundShift_nonpos (by omega), mul_assoc, ← zpow_add₀ (by norm_num : (2 : ℚ) ≠ 0)]
  congr 2
  ring

theorem natpow_eq_zpow (k : Nat) : (2 : ℚ) ^ k = 2 ^ (k : Int) := by norm_cast

theorem mul_zpow_lt {q : ℚ} {a b c : Int} (hq : q < 2 ^ a) (hb : b ≤ c) :
    q * 2 ^ b < 2 ^ (a + c) := by
  rw [zpow_add₀ (by norm_num : (2 : ℚ) ≠ 0)]
  have h1 : (2 : ℚ) ^ b ≤ 2 ^ c := zpow_le_zpow_two.2 hb
  have p := two_zpow_pos b
  calc q * 2 ^ b < 2 ^ a * 2 ^ b := mul_lt_mul_of_pos_right hq p
    _ ≤ 2 ^ a * 2 ^ c := mul_le_mul_of_nonneg_left h1 (two_zpow_pos a).le

theorem le_mul_zpow {q : ℚ} {a b c : Int} (hq : 2 ^ a ≤ q) (hb : c ≤ b) :
    (2 : ℚ) ^ (a + c) ≤ q * 2 ^ b := by
  rw [zpow_add₀ (by norm_num : (2 : ℚ) ≠ 0)]
  have h1 : (2 : ℚ) ^ c ≤ 2 ^ b := zpow_le_zpow_two.2 hb
  have p := two_zpow_pos c
  calc (2 : ℚ) ^ a * 2 ^ c ≤ q * 2 ^ c := mul_le_mul_of_nonneg_right hq p.le
    _ ≤ q * 2 ^ b := mul_le_mul_of_nonneg_left h1 (le_trans (two_zpow_pos a).le hq)

theorem round_zero (e : Int) : round 0 e = .finite 0 (-1074) := by
  unfold round
  rw [if_pos rfl]

theorem pack_neg (b : Bool) (q : Nat) (e : Int) : neg (pack b q e) = pack (!b) q e := by
  unfold pack
  cases b <;> by_cases h : 971 < e <;> simp [h, neg]

theorem round_neg (m e : Int) : round (-m) e = neg (round m e) := by
  by_cases hm : m = 0
  · subst hm
    simp [round_zero, neg]
  · have hm' : -m ≠ 0 := by omega
    have hd : decide (-m < 0) = !decide (m < 0) := by
      by_cases h : m < 0
      · have : ¬ (-m < 0) := by omega
        simp [h, this]
      · have : -m < 0 := by omega
        simp [h, this]
    unfold round
    rw [if_neg hm, if_neg hm', Int.natAbs_neg, hd]
    split_ifs <;> rw [pack_neg]

/-- The result of rounding a positive value. -/
theorem round_pos_spec {m : Int} (hm : 0 < m) (e : Int) :
    (roundMag m.natAbs e < 2 ^ (1024 : Int) → ∃ (q : Nat) (e1 : Int),
      round m e = .finite (q : Int) e1 ∧ IsFinite (.finite (q : Int) e1) ∧
        (q : ℚ) * 2 ^ e1 = roundMag m.natAbs e) ∧
    ((2 : ℚ) ^ (1024 : Int) ≤ roundMag m.natAbs e → round m e = .posInf) := by
  have hm0 : m ≠ 0 := by omega
  have hn : m.natAbs ≠ 0 := by omega
  have hd : decide (m < 0) = false := by
    have : ¬ m < 0 := by omega
    simp [this]
  have hEge := roundExp_ge m.natAbs e
  have hQle := roundShift_le m.natAbs e
  unfold round roundMag
  rw [if_neg hm0, hd]
  generalize hE : roundExp m.natAbs e = E at *
  generalize hQ : roundShift m.natAbs (E - e) = Q at *
  by_cases hq : Q = 2 ^ 53
  · rw [if_pos hq]
    have hval : ((Q : Nat) : ℚ) * 2 ^ E = 2 ^ (53 + E) := by
      rw [hq, zpow_add₀ (by norm_num : (2 : ℚ) ≠ 0)]
      norm_num
    rw [hval]
    unfold pack
    by_cases hov : 971 < E + 1
    · rw [if_pos hov]
      refine ⟨fun h => ?_, fun _ => by simp⟩
      have := zpow_lt_zpow_two.1 h
      omega
    · rw [if_neg hov]
      refine ⟨fun _ => ⟨2 ^ 52, E + 1, by simp, ?_, ?_⟩, fun h => ?_⟩
      · unfold IsFinite
        refine ⟨by norm_num, by omega, by omega, ?_⟩
        intro h
        norm_num at h
      · rw [zpow_add₀ (by norm_num : (2 : ℚ) ≠ 0), zpow_add₀ (by norm_num : (2 : ℚ) ≠ 0)]
        norm_num
        ring
      · have := zpow_le_zpow_two.1 h
        omega
  · rw [if_neg hq]
    have hQlt : Q < 2 ^ 53 := by omega
    have hQlt' : ((Q : Nat) : ℚ) < 2 ^ (53 : Int) := by
      have h : ((Q : Nat) : ℚ) < 2 ^ (53 : Nat) := by exact_mod_cast hQlt
      exact_mod_cast h
    unfold pack
    by_cases hov : 971 < E
    · rw [if_pos hov]
      refine ⟨fun h => ?_, fun _ => by simp⟩
      have hne : roundExp m.natAbs e ≠ -1074 := by rw [hE]; omega
      have hge := roundShift_ge hn e hne
      rw [hE, hQ] at hge
      have hge' : (2 : ℚ) ^ (52 : Int) ≤ ((Q : Nat) : ℚ) := by
        have h : (2 : ℚ) ^ (52 : Nat) ≤ ((Q : Nat) : ℚ) := by exact_mod_cast hge
        exact_mod_cast h
      have := le_mul_zpow hge' (show (972 : Int) ≤ E by omega)
      norm_num at this
      linarith
    · rw [if_neg hov]
      have hlt := mul_zpow_lt hQlt' (show E ≤ 971 by omega)
      norm_num at hlt
      refine ⟨fun _ => ⟨Q, E, by simp, ?_, rfl⟩, fun h => ?_⟩
      · unfold IsFinite
        refine ⟨by simpa using hQlt, hEge, by omega, ?_⟩
        intro h
        by_contra hne
        have hge := roundShift_ge hn e (by rw [hE]; exact hne)
        rw [hE, hQ] at hge
        simp at h
        omega
      · linarith

theorem IsFinite.wf {x : Dbl} (h : x.IsFinite) : x.Wf := by
  cases x <;> simp_all [IsFinite, Wf]

theorem IsFinite.ne_nan {x : Dbl} (h : x.IsFinite) : x ≠ .nan := by
  rintro rfl; exact h

theorem wf_neg {x : Dbl} (h : x.Wf) : (neg x).Wf := by
  cases x <;> simp_all [Wf, neg]

theorem isFinite_neg {x : Dbl} (h : x.IsFinite) : (neg x).IsFinite := by
  cases x <;> simp_all [IsFinite, neg]

theorem neg_involutive (x : Dbl) : neg (neg x) = x := by
  cases x <;> simp [neg]

theorem zero_def : (0 : Dbl) = .finite 0 (-1074) := rfl

theorem isFinite_zero : (Dbl.finite 0 (-1074)).IsFinite := by
  unfold IsFinite; decide

/-- A rounded value is a binary64 value. -/
theorem round_wf (m e : Int) : (round m e).Wf := by
  rcases lt_trichotomy m 0 with h | h | h
  · have hpos : 0 < -m := by omega
    have e1 : round m e = neg (round (-m) e) := by rw [round_neg, neg_involutive]
    rw [e1]
    apply wf_neg
    obtain ⟨h1, h2⟩ := round_pos_spec hpos e
    rcases lt_or_le (roundMag (-m).natAbs e) (2 ^ (1024 : Int)) with hc | hc
    · obtain ⟨q, e1, hr, hf, -⟩ := h1 hc
      rw [hr]; exact hf.wf
    · rw [h2 hc]; trivial
  · subst h
    rw [round_zero]
    exact isFinite_zero.wf
  · obtain ⟨h1, h2⟩ := round_pos_spec h e
    rcases lt_or_le (roundMag m.natAbs e) (2 ^ (1024 : Int)) with hc | hc
    · obtain ⟨q, e1, hr, hf, -⟩ := h1 hc
      rw [hr]; exact hf.wf
    · rw [h2 hc]; trivial

theorem round_ne_nan (m e : Int) : round m e ≠ .nan := by
  unfold round pack
  split_ifs <;> simp

/-- A binary64 value is not changed by rounding. -/
theorem round_of_isFinite {m e : Int} (h : IsFinite (.finite m e)) : round m e = .finite m e := by
  obtain ⟨h1, h2, h3, h4⟩ := h
  by_cases hm : m = 0
  · subst hm
    have : e = -1074 := h4 (by norm_num)
    rw [this, round_zero]
  · have hn : m.natAbs ≠ 0 := by omega
    have hE : roundExp m.natAbs e = e := by
      unfold roundExp
      by_cases hs : m.natAbs < 2 ^ 52
      · have he := h4 hs
        have hb : bits m.natAbs ≤ 52 := bits_le_iff.2 hs
        rw [he]
        exact max_eq_right (by omega)
      · have hb1 : bits m.natAbs ≤ 53 := bits_le_iff.2 h1
        have hb2 : ¬ bits m.natAbs ≤ 52 := fun hb => hs (bits_le_iff.1 hb)
        have : (bits m.natAbs : Int) = 53 := by omega
        rw [this, show e + 53 - 53 = e by ring]
        exact max_eq_left h2
    have hQ : roundShift m.natAbs (e - e) = m.natAbs := by
      unfold roundShift
      rw [sub_self, if_pos le_rfl]
      simp [pow2]
    unfold round
    rw [if_neg hm, hE, hQ, if_neg (by omega)]
    unfold pack
    rw [if_neg (by omega)]
    by_cases hneg : m < 0
    · simp only [hneg, decide_True, if_true]
      congr 1
      omega
    · simp only [hneg, decide_False, Bool.false_eq_true, if_false]
      congr 1
      omega

theorem add_def (a b : Dbl) : a + b = Dbl.add a b := rfl
theorem sub_def (a b : Dbl) : a - b = Dbl.add a (Dbl.neg b) := rfl
theorem mul_def (a b : Dbl) : a * b = Dbl.mul a b := rfl
theorem le_def (a b : Dbl) : a ≤ b ↔ Dbl.le a b = true := Iff.rfl
theorem lt_def (a b : Dbl) : a < b ↔ Dbl.lt a b = true := Iff.rfl

theorem natAbs_cast_of_pos {m : Int} (h : 0 < m) : ((m.natAbs : Nat) : ℚ) = (m : ℚ) := by
  rw [Nat.cast_natAbs, abs_of_pos h]

theorem round_eq_of_parts {m1 e1 m2 e2 : Int} (h1 : m1 ≠ 0) (h2 : m2 ≠ 0)
    (hs : decide (m1 < 0) = decide (m2 < 0))
    (hE : roundExp m1.natAbs e1 = roundExp m2.natAbs e2)
    (hQ : roundShift m1.natAbs (roundExp m1.natAbs e1 - e1) =
      roundShift m2.natAbs (roundExp m2.natAbs e2 - e2)) :
    round m1 e1 = round m2 e2 := by
  unfold round
  rw [if_neg h1, if_neg h2, hs, hQ, hE]

/-- Rounding depends on the value only. -/
theorem round_congr {m1 e1 m2 e2 : Int} (h : (m1 : ℚ) * 2 ^ e1 = (m2 : ℚ) * 2 ^ e2) :
    round m1 e1 = round m2 e2 := by
  have p1 := two_zpow_pos e1
  have p2 := two_zpow_pos e2
  rcases lt_trichotomy m1 0 with hm | hm | hm
  · have hm1 : (m1 : ℚ) < 0 := by exact_mod_cast hm
    have hm2q : (m2 : ℚ) < 0 := by
      by_contra hc
      push_neg at hc
      have : 0 ≤ (m2 : ℚ) * 2 ^ e2 := mul_nonneg hc p2.le
      have : (m1 : ℚ) * 2 ^ e1 < 0 := mul_neg_of_neg_of_pos hm1 p1
      linarith
    have hm2 : m2 < 0 := by exact_mod_cast hm2q
    have a1 : ((m1.natAbs : Nat) : ℚ) = -(m1 : ℚ) := by
      rw [Nat.cast_natAbs, abs_of_neg hm]
      push_cast
      rfl
    have a2 : ((m2.natAbs : Nat) : ℚ) = -(m2 : ℚ) := by
      rw [Nat.cast_natAbs, abs_of_neg hm2]
      push_cast
      rfl
    have hv : ((m1.natAbs : Nat) : ℚ) * 2 ^ e1 = ((m2.natAbs : Nat) : ℚ) * 2 ^ e2 := by
      rw [a1, a2]; linarith
    obtain ⟨hE, hQ⟩ := roundParts_congr (by omega) (by omega) hv
    exact round_eq_of_parts (by omega) (by omega) (by simp [hm, hm2]) hE hQ
  · subst hm
    have : (m2 : ℚ) = 0 := by
      have h0 : (m2 : ℚ) * 2 ^ e2 = 0 := by rw [← h]; simp
      rcases mul_eq_zero.1 h0 with h0 | h0
      · exact h0
      · exact absurd h0 p2.ne'
    have : m2 = 0 := by exact_mod_cast this
    subst this
    rw [round_zero, round_zero]
  · have hm1 : (0 : ℚ) < m1 := by exact_mod_cast hm
    have hm2q : (0 : ℚ) < m2 := by
      by_contra hc
      push_neg at hc
      have : (m2 : ℚ) * 2 ^ e2 ≤ 0 := mul_nonpos_of_nonpos_of_nonneg hc p2.le
      have : 0 < (m1 : ℚ) * 2 ^ e1 := mul_pos hm1 p1
      linarith
    have hm2 : 0 < m2 := by exact_mod_cast hm2q
    have hv : ((m1.natAbs : Nat) : ℚ) * 2 ^ e1 = ((m2.natAbs : Nat) : ℚ) * 2 ^ e2 := by
      rw [natAbs_cast_of_pos hm, natAbs_cast_of_pos hm2]; exact h
    obtain ⟨hE, hQ⟩ := roundParts_congr (by omega) (by omega) hv
    have n1 : ¬ m1 < 0 := by omega
    have n2 : ¬ m2 < 0 := by omega
    exact round_eq_of_parts (by omega) (by omega) (by simp [n1, n2]) hE hQ

/-- An exact result that is a binary64 value is the result. -/
theorem round_eq_of_toRat {m e : Int} {x : Dbl} (hx : x.IsFinite)
    (h : (m : ℚ) * 2 ^ e = x.toRat) : round m e = x := by
  cases x with
  | finite m1 e1 =>
    rw [round_congr (show (m : ℚ) * 2 ^ e = (m1 : ℚ) * 2 ^ e1 from h)]
    exact round_of_isFinite hx
  | posInf => exact absurd hx id
  | negInf => exact absurd hx id
  | nan => exact absurd hx id

theorem aligned (m e1 e : Int) (h : e ≤ e1) :
    ((m * ((pow2 (e1 - e).toNat : Nat) : Int) : Int) : ℚ) * 2 ^ e = (m : ℚ) * 2 ^ e1 := by
  obtain ⟨k, hk⟩ : ∃ k : Nat, e1 - e = (k : Int) := ⟨(e1 - e).toNat, by omega⟩
  rw [hk, Int.toNat_ofNat, pow2_eq]
  have : e1 = (k : Int) + e := by omega
  rw [this, zpow_add₀ (by norm_num : (2 : ℚ) ≠ 0), zpow_natCast]
  push_cast
  ring

theorem le_finite_iff (m1 e1 m2 e2 : Int) :
    Dbl.finite m1 e1 ≤ Dbl.finite m2 e2 ↔ (m1 : ℚ) * 2 ^ e1 ≤ (m2 : ℚ) * 2 ^ e2 := by
  rw [le_def]
  unfold Dbl.le
  rw [decide_eq_true_iff]
  have a1 := aligned m1 e1 (min e1 e2) (min_le_left _ _)
  have a2 := aligned m2 e2 (min e1 e2) (min_le_right _ _)
  rw [← a1, ← a2]
  have p := two_zpow_pos (min e1 e2)
  constructor
  · intro h
    exact mul_le_mul_of_nonneg_right (by exact_mod_cast h) p.le
  · intro h
    have := le_of_mul_le_mul_right h p
    exact_mod_cast this

theorem lt_finite_iff (m1 e1 m2 e2 : Int) :
    Dbl.finite m1 e1 < Dbl.finite m2 e2 ↔ (m1 : ℚ) * 2 ^ e1 < (m2 : ℚ) * 2 ^ e2 := by
  rw [lt_def]
  unfold Dbl.lt
  rw [decide_eq_true_iff]
  have a1 := aligned m1 e1 (min e1 e2) (min_le_left _ _)
  have a2 := aligned m2 e2 (min e1 e2) (min_le_right _ _)
  rw [← a1, ← a2]
  have p := two_zpow_pos (min e1 e2)
  constructor
  · intro h
    exact mul_lt_mul_of_pos_right (by exact_mod_cast h) p
  · intro h
    have := lt_of_mul_lt_mul_right h p.le
    exact_mod_cast this

theorem le_refl_of_ne_nan {a : Dbl} (h : a ≠ .nan) : a ≤ a := by
  cases a with
  | finite m e => exact (le_finite_iff _ _ _ _).2 le_rfl
  | posInf => rfl
  | negInf => rfl
  | nan => exact absurd rfl h

theorem le_of_le_of_le {a b c : Dbl} (h1 : a ≤ b) (h2 : b ≤ c) : a ≤ c := by
  cases a <;> cases b <;> cases c <;>
    first
    | exact (le_finite_iff _ _ _ _).2
        (le_trans ((le_finite_iff _ _ _ _).1 h1) ((le_finite_iff _ _ _ _).1 h2))
    | simp_all [le_def, Dbl.le]

theorem neg_le_neg_of_le {a b : Dbl} (h : a ≤ b) : neg b ≤ neg a := by
  cases a <;> cases b <;>
    first
    | (rw [le_finite_iff] at h
       show Dbl.finite _ _ ≤ Dbl.finite _ _
       rw [le_finite_iff]
       push_cast
       linarith)
    | simp_all [le_def, Dbl.le, neg]

theorem round_pos_le {m1 m2 : Int} (h1 : 0 < m1) (h2 : 0 < m2) {e1 e2 : Int}
    (h : (m1 : ℚ) * 2 ^ e1 ≤ (m2 : ℚ) * 2 ^ e2) : round m1 e1 ≤ round m2 e2 := by
  have hv : ((m1.natAbs : Nat) : ℚ) * 2 ^ e1 ≤ ((m2.natAbs : Nat) : ℚ) * 2 ^ e2 := by
    rw [natAbs_cast_of_pos h1, natAbs_cast_of_pos h2]; exact h
  have hR := roundMag_mono (by omega) (by omega) hv
  obtain ⟨a1, a2⟩ := round_pos_spec h1 e1
  obtain ⟨b1, b2⟩ := round_pos_spec h2 e2
  rcases lt_or_le (roundMag m2.natAbs e2) (2 ^ (1024 : Int)) with hc | hc
  · obtain ⟨q2, f2, r2, -, v2⟩ := b1 hc
    obtain ⟨q1, f1, r1, -, v1⟩ := a1 (lt_of_le_of_lt hR hc)
    rw [r1, r2, le_finite_iff]
    push_cast
    rw [v1, v2]
    exact hR
  · rw [b2 hc]
    rcases lt_or_le (roundMag m1.natAbs e1) (2 ^ (1024 : Int)) with hd | hd
    · obtain ⟨q1, f1, r1, -, -⟩ := a1 hd
      rw [r1]; rfl
    · rw [a2 hd]; rfl

theorem zero_le_round {m : Int} (h : 0 ≤ m) (e : Int) : Dbl.finite 0 (-1074) ≤ round m e := by
  rcases h.eq_or_lt with h0 | h0
  · rw [← h0, round_zero]
    exact le_refl_of_ne_nan (by simp)
  · obtain ⟨a1, a2⟩ := round_pos_spec h0 e
    rcases lt_or_le (roundMag m.natAbs e) (2 ^ (1024 : Int)) with hc | hc
    · obtain ⟨q, f, r, -, -⟩ := a1 hc
      rw [r, le_finite_iff]
      have := two_zpow_pos f
      push_cast
      have hq : (0 : ℚ) ≤ (q : ℚ) := by positivity
      nlinarith
    · rw [a2 hc]; rfl

theorem round_le_zero {m : Int} (h : m ≤ 0) (e : Int) : round m e ≤ Dbl.finite 0 (-1074) := by
  have h1 := zero_le_round (show 0 ≤ -m by omega) e
  rw [round_neg] at h1
  have h2 := neg_le_neg_of_le h1
  rw [neg_involutive] at h2
  exact h2

/-- Rounding is monotone. -/
theorem round_mono {m1 e1 m2 e2 : Int} (h : (m1 : ℚ) * 2 ^ e1 ≤ (m2 : ℚ) * 2 ^ e2) :
    round m1 e1 ≤ round m2 e2 := by
  have p1 := two_zpow_pos e1
  have p2 := two_zpow_pos e2
  rcases lt_or_le 0 m1 with hm1 | hm1
  · have hq1 : (0 : ℚ) < m1 := by exact_mod_cast hm1
    have hm2 : 0 < m2 := by
      by_contra hc
      have hq2 : (m2 : ℚ) ≤ 0 := by exact_mod_cast (show m2 ≤ 0 by omega)
      have : (m2 : ℚ) * 2 ^ e2 ≤ 0 := mul_nonpos_of_nonpos_of_nonneg hq2 p2.le
      have : 0 < (m1 : ℚ) * 2 ^ e1 := mul_pos hq1 p1
      linarith
    exact round_pos_le hm1 hm2 h
  · rcases lt_or_le m2 0 with hm2 | hm2
    · have hm1' : m1 < 0 := by
        by_contra hc
        have h0 : m1 = 0 := by omega
        have hq2 : (m2 : ℚ) < 0 := by exact_mod_cast hm2
        have : (m2 : ℚ) * 2 ^ e2 < 0 := mul_neg_of_neg_of_pos hq2 p2
        rw [h0] at h
        simp at h
        linarith
      have hv : ((-m2 : Int) : ℚ) * 2 ^ e2 ≤ ((-m1 : Int) : ℚ) * 2 ^ e1 := by
        push_cast; linarith
      have h3 := round_pos_le (show 0 < -m2 by omega) (show 0 < -m1 by omega) hv
      rw [round_neg, round_neg] at h3
      have h4 := neg_le_neg_of_le h3
      rwa [neg_involutive, neg_involutive] at h4
    · exact le_of_le_of_le (round_le_zero hm1 e1) (zero_le_round hm2 e2)

theorem add_finite (m1 e1 m2 e2 : Int) :
    ∃ M E : Int, Dbl.finite m1 e1 + Dbl.finite m2 e2 = round M E ∧
      (M : ℚ) * 2 ^ E = (m1 : ℚ) * 2 ^ e1 + (m2 : ℚ) * 2 ^ e2 := by
  refine ⟨_, _, rfl, ?_⟩
  have a1 := aligned m1 e1 (min e1 e2) (min_le_left _ _)
  have a2 := aligned m2 e2 (min e1 e2) (min_le_right _ _)
  rw [← a1, ← a2]
  push_cast
  ring

theorem mul_finite (m1 e1 m2 e2 : Int) :
    Dbl.finite m1 e1 * Dbl.finite m2 e2 = round (m1 * m2) (e1 + e2) ∧
      ((m1 * m2 : Int) : ℚ) * 2 ^ (e1 + e2) = ((m1 : ℚ) * 2 ^ e1) * ((m2 : ℚ) * 2 ^ e2) := by
  refine ⟨rfl, ?_⟩
  rw [zpow_add₀ (by norm_num : (2 : ℚ) ≠ 0)]
  push_cast
  ring

theorem IsFinite.eq_finite {x : Dbl} (h : x.IsFinite) : ∃ m e, x = .finite m e := by
  cases x with
  | finite m e => exact ⟨m, e, rfl⟩
  | posInf => exact absurd h id
  | negInf => exact absurd h id
  | nan => exact absurd h id

theorem toRat_neg (x : Dbl) : (neg x).toRat = -x.toRat := by
  cases x <;> simp [neg, toRat]

/-- The sum of two finite values is the rounded exact sum. -/
theorem add_eq_round {a b : Dbl} (ha : a.IsFinite) (hb : b.IsFinite) :
    ∃ M E : Int, a + b = round M E ∧ (M : ℚ) * 2 ^ E = a.toRat + b.toRat := by
  obtain ⟨m1, e1, rfl⟩ := ha.eq_finite
  obtain ⟨m2, e2, rfl⟩ := hb.eq_finite
  exact add_finite m1 e1 m2 e2

/-- The difference of two finite values is the rounded exact difference. -/
theorem sub_eq_round {a b : Dbl} (ha : a.IsFinite) (hb : b.IsFinite) :
    ∃ M E : Int, a - b = round M E ∧ (M : ℚ) * 2 ^ E = a.toRat - b.toRat := by
  obtain ⟨M, E, h1, h2⟩ := add_eq_round ha (isFinite_neg hb)
  exact ⟨M, E, h1, by rw [h2, toRat_neg]; ring⟩

/-- The product of two finite values is the rounded exact product. -/
theorem mul_eq_round {a b : Dbl} (ha : a.IsFinite) (hb : b.IsFinite) :
    ∃ M E : Int, a * b = round M E ∧ (M : ℚ) * 2 ^ E = a.toRat * b.toRat := by
  obtain ⟨m1, e1, rfl⟩ := ha.eq_finite
  obtain ⟨m2, e2, rfl⟩ := hb.eq_finite
  exact ⟨_, _, (mul_finite m1 e1 m2 e2).1, (mul_finite m1 e1 m2 e2).2⟩

theorem le_iff_toRat {a b : Dbl} (ha : a.IsFinite) (hb : b.IsFinite) :
    a ≤ b ↔ a.toRat ≤ b.toRat := by
  obtain ⟨m1, e1, rfl⟩ := ha.eq_finite
  obtain ⟨m2, e2, rfl⟩ := hb.eq_finite
  exact le_finite_iff _ _ _ _

theorem lt_iff_toRat {a b : Dbl} (ha : a.IsFinite) (hb : b.IsFinite) :
    a < b ↔ a.toRat < b.toRat := by
  obtain ⟨m1, e1, rfl⟩ := ha.eq_finite
  obtain ⟨m2, e2, rfl⟩ := hb.eq_finite
  exact lt_finite_iff _ _ _ _

/-- A finite value is the rounding of itself. -/
theorem IsFinite.eq_round {x : Dbl} (h : x.IsFinite) :
    ∃ m e : Int, x = round m e ∧ (m : ℚ) * 2 ^ e = x.toRat := by
  obtain ⟨m, e, rfl⟩ := h.eq_finite
  exact ⟨m, e, (round_of_isFinite h).symm, rfl⟩

/-- A value between two finite values is finite. -/
theorem isFinite_of_between {a x b : Dbl} (ha : a.IsFinite) (hb : b.IsFinite) (hx : x.Wf)
    (h1 : a ≤ x) (h2 : x ≤ b) : x.IsFinite := by
  obtain ⟨m1, e1, rfl⟩ := ha.eq_finite
  obtain ⟨m2, e2, rfl⟩ := hb.eq_finite
  cases x with
  | finite m e => exact hx
  | posInf => simp [le_def, Dbl.le] at h2
  | negInf => simp [le_def, Dbl.le] at h1
  | nan => simp [le_def, Dbl.le] at h1

/-- Sums of finite values are ordered as the exact sums are. -/
theorem add_le_add_of_toRat {a b c d : Dbl} (ha : a.IsFinite) (hb : b.IsFinite)
    (hc : c.IsFinite) (hd : d.IsFinite) (h : a.toRat + b.toRat ≤ c.toRat + d.toRat) :
    a + b ≤ c + d := by
  obtain ⟨M1, E1, r1, v1⟩ := add_eq_round ha hb
  obtain ⟨M2, E2, r2, v2⟩ := add_eq_round hc hd
  rw [r1, r2]
  exact round_mono (by rw [v1, v2]; exact h)

/-- Products of finite values are ordered as the exact products are. -/
theorem mul_le_mul_of_toRat {a b c d : Dbl} (ha : a.IsFinite) (hb : b.IsFinite)
    (hc : c.IsFinite) (hd : d.IsFinite) (h : a.toRat * b.toRat ≤ c.toRat * d.toRat) :
    a * b ≤ c * d := by
  obtain ⟨M1, E1, r1, v1⟩ := mul_eq_round ha hb
  obtain ⟨M2, E2, r2, v2⟩ := mul_eq_round hc hd
  rw [r1, r2]
  exact round_mono (by rw [v1, v2]; exact h)

theorem add_wf (a b : Dbl) : (a + b).Wf := by
  cases a <;> cases b <;> first | exact round_wf _ _ | trivial

theorem mul_wf (a b : Dbl) : (a * b).Wf := by
  cases a <;> cases b <;>
    first
    | exact round_wf _ _
    | trivial
    | (show (Dbl.mul _ _).Wf
       simp only [Dbl.mul]
       split_ifs <;> trivial)

theorem sub_wf (a b : Dbl) : (a - b).Wf := add_wf a (neg b)

/-- Adding a non-negative finite value does not make a value smaller. -/
theorem le_add_right {a x : Dbl} (ha : a.Wf) (hn : a ≠ .nan) (hx : x.IsFinite)
    (h0 : Dbl.finite 0 (-1074) ≤ x) : a ≤ a + x := by
  obtain ⟨mx, ex, rfl⟩ := hx.eq_finite
  cases a with
  | finite m e =>
    have ha' : IsFinite (.finite m e) := ha
    obtain ⟨M, E, r, v⟩ := add_eq_round ha' hx
    rw [r]
    have h1 := round_of_isFinite ha'
    have h2 : round m e ≤ round M E := by
      apply round_mono
      rw [v]
      have := (le_finite_iff _ _ _ _).1 h0
      simp only [toRat]
      push_cast at this
      linarith
    rwa [h1] at h2
  | posInf => rfl
  | negInf => rfl
  | nan => exact absurd rfl hn

/-- Addition is monotone in its second argument. -/
theorem add_le_add_left_of_le {a x y : Dbl} (ha : a.Wf) (hn : a ≠ .nan) (hx : x.IsFinite)
    (hy : y.IsFinite) (h : x ≤ y) : a + x ≤ a + y := by
  cases a with
  | finite m e =>
    have ha' : IsFinite (.finite m e) := ha
    exact add_le_add_of_toRat ha' hx ha' hy (by
      have := (le_iff_toRat hx hy).1 h
      linarith)
  | posInf =>
    obtain ⟨mx, ex, rfl⟩ := hx.eq_finite
    obtain ⟨my, ey, rfl⟩ := hy.eq_finite
    rfl
  | negInf =>
    obtain ⟨mx, ex, rfl⟩ := hx.eq_finite
    obtain ⟨my, ey, rfl⟩ := hy.eq_finite
    rfl
  | nan => exact absurd rfl hn

theorem not_le_of_lt {a b : Dbl} (h : a < b) : ¬ b ≤ a := by
  cases a <;> cases b <;>
    first
    | (rw [lt_finite_iff] at h
       rw [le_finite_iff]
       exact not_le.2 h)
    | simp_all [le_def, lt_def, Dbl.le, Dbl.lt]

theorem lt_of_lt_of_le' {a b c : Dbl} (h1 : a < b) (h2 : b ≤ c) : a < c := by
  cases a <;> cases b <;> cases c <;>
    first
    | exact (lt_finite_iff _ _ _ _).2
        (lt_of_lt_of_le ((lt_finite_iff _ _ _ _).1 h1) ((le_finite_iff _ _ _ _).1 h2))
    | simp_all [le_def, lt_def, Dbl.le, Dbl.lt]

theorem lt_of_not_le {a b : Dbl} (ha : a.IsFinite) (hb : b.IsFinite) (h : ¬ a ≤ b) : b < a := by
  rw [le_iff_toRat ha hb] at h
  exact (lt_iff_toRat hb ha).2 (not_le.1 h)

theorem le_of_lt {a b : Dbl} (h : a < b) : a ≤ b := by
  cases a <;> cases b <;>
    first
    | exact (le_finite_iff _ _ _ _).2 ((lt_finite_iff _ _ _ _).1 h).le
    | simp_all [le_def, lt_def, Dbl.le, Dbl.lt]

/-- A value with at most 53 digits, an exponent of at least `-1074` and a magnitude in range is
a binary64 value, whichever way it is written. -/
theorem round_exact {k j : Int} (hk : k.natAbs < 2 ^ 53) (hj : -1074 ≤ j)
    (hv : ((k.natAbs : Nat) : ℚ) * 2 ^ j < 2 ^ (1024 : Int)) :
    (round k j).IsFinite ∧ (round k j).toRat = (k : ℚ) * 2 ^ j := by
  have key : ∀ k : Int, 0 < k → k.natAbs < 2 ^ 53 →
      ((k.natAbs : Nat) : ℚ) * 2 ^ j < 2 ^ (1024 : Int) →
      (round k j).IsFinite ∧ (round k j).toRat = (k : ℚ) * 2 ^ j := by
    intro k hk0 hk hv
    obtain ⟨-, hval⟩ := roundShift_exact hk hj
    obtain ⟨a1, -⟩ := round_pos_spec hk0 j
    have hR : roundMag k.natAbs j = ((k.natAbs : Nat) : ℚ) * 2 ^ j := hval
    obtain ⟨q, e1, r, hf, v⟩ := a1 (by rw [hR]; exact hv)
    rw [r]
    refine ⟨hf, ?_⟩
    simp only [toRat]
    push_cast
    rw [v, hR, natAbs_cast_of_pos hk0]
  rcases lt_trichotomy k 0 with h | h | h
  · obtain ⟨f1, f2⟩ := key (-k) (by omega) (by rwa [Int.natAbs_neg])
      (by rwa [Int.natAbs_neg])
    rw [round_neg] at f1 f2
    have g1 := isFinite_neg f1
    rw [neg_involutive] at g1
    refine ⟨g1, ?_⟩
    have := toRat_neg (neg (round k j))
    rw [neg_involutive] at this
    rw [this, f2]
    push_cast
    ring
  · subst h
    rw [round_zero]
    exact ⟨isFinite_zero, by simp [toRat]⟩
  · exact key k h hk hv

theorem one_def : (1 : Dbl) = .finite 4503599627370496 (-52) := rfl
theorem four_def : (4 : Dbl) = .finite 4503599627370496 (-50) := rfl
theorem six_def : (6 : Dbl) = .finite 6755399441055744 (-50) := rfl

theorem isFinite_one : (1 : Dbl).IsFinite := by decide
theorem isFinite_four : (4 : Dbl).IsFinite := by decide
theorem isFinite_six : (6 : Dbl).IsFinite := by decide

theorem toRat_zero : (0 : Dbl).toRat = 0 := by
  rw [zero_def]; simp [toRat]

theorem toRat_one : (1 : Dbl).toRat = 1 := by
  rw [one_def]
  simp only [toRat]
  rw [zpow_neg]
  norm_num

theorem toRat_six : (6 : Dbl).toRat = 6 := by
  rw [six_def]
  simp only [toRat]
  rw [zpow_neg]
  norm_num

theorem natCast_lt_zpow {a K : Nat} (h : a < 2 ^ K) : (a : ℚ) < 2 ^ (K : Int) := by
  rw [← natpow_eq_zpow]
  exact_mod_cast h

/-- The largest binary64 value below a draw is a finite value of `[0, 1)`. -/
theorem floorRat_spec {num den : Nat} (h : num < den) :
    (floorRat num den).IsFinite ∧ 0 ≤ (floorRat num den).toRat ∧
      (floorRat num den).toRat < 1 := by
  have hq : num * pow2 1074 / den < 2 ^ 1074 := by
    rw [pow2_eq, Nat.div_lt_iff_lt_mul (by omega)]
    have : 0 < 2 ^ 1074 := by positivity
    calc num * 2 ^ 1074 < den * 2 ^ 1074 := Nat.mul_lt_mul_of_pos_right h this
      _ = 2 ^ 1074 * den := Nat.mul_comm _ _
  unfold floorRat
  generalize num * pow2 1074 / den = q at hq
  by_cases h0 : q = 0
  · simp only [h0, if_true]
    exact ⟨isFinite_zero, by simp [toRat], by simp [toRat]⟩
  · simp only [h0, if_false]
    rw [pow2_eq]
    have hb : bits q ≤ 1074 := bits_le_iff.2 hq
    have hlt := lt_pow_bits q
    have hge := pow_bits_le h0
    have hs : bits q ≤ (bits q - 53) + 53 := by omega
    have hm : q / 2 ^ (bits q - 53) < 2 ^ 53 := by
      rw [Nat.div_lt_iff_lt_mul (by positivity), ← pow_add]
      exact lt_of_lt_of_le hlt (Nat.pow_le_pow_right (by norm_num) (by omega))
    have hmq : q / 2 ^ (bits q - 53) * 2 ^ (bits q - 53) ≤ q := Nat.div_mul_le_self _ _
    refine ⟨⟨by rw [Int.natAbs_ofNat]; exact hm, by omega, by omega, ?_⟩, ?_, ?_⟩
    · intro hsub
      rw [Int.natAbs_ofNat] at hsub
      by_contra hne
      have hs0 : 0 < bits q - 53 := by omega
      have hbq : bits q = (bits q - 53) + 52 + 1 := by omega
      have h1 : 2 ^ ((bits q - 53) + 52) * 2 ≤ 2 * q := by
        rw [← pow_succ, ← hbq]; exact hge
      have e2 : 2 ^ ((bits q - 53) + 52) = 2 ^ 52 * 2 ^ (bits q - 53) := by
        rw [pow_add, Nat.mul_comm]
      have h2 : 2 ^ 52 * 2 ^ (bits q - 53) ≤ q := by omega
      have h3 : 2 ^ 52 ≤ q / 2 ^ (bits q - 53) :=
        (Nat.le_div_iff_mul_le (by positivity)).2 h2
      omega
    · simp only [toRat]
      have := two_zpow_pos (-1074 + ((bits q - 53 : Nat) : Int))
      positivity
    · simp only [toRat]
      have e1 : (2 : ℚ) ^ (-1074 + ((bits q - 53 : Nat) : Int)) =
          2 ^ (bits q - 53) * 2 ^ (-1074 : Int) := by
        rw [zpow_add₀ (by norm_num : (2 : ℚ) ≠ 0), zpow_natCast, mul_comm]
      rw [e1, ← mul_assoc, Int.cast_natCast]
      have h4 : ((q / 2 ^ (bits q - 53) : Nat) : ℚ) * 2 ^ (bits q - 53) <
          2 ^ ((1074 : Nat) : Int) := by
        have := natCast_lt_zpow (lt_of_le_of_lt hmq hq)
        rwa [Nat.cast_mul, Nat.cast_pow, Nat.cast_ofNat] at this
      have h5 : (2 : ℚ) ^ ((1074 : Nat) : Int) * 2 ^ (-1074 : Int) = 1 := by
        rw [← zpow_add₀ (by norm_num : (2 : ℚ) ≠ 0)]
        norm_num
      have p := two_zpow_pos (-1074)
      calc _ < (2 : ℚ) ^ ((1074 : Nat) : Int) * 2 ^ (-1074 : Int) :=
            mul_lt_mul_of_pos_right h4 p
        _ = 1 := h5

/-- Subtracting 1 from a value of `[1, 2^53)` is exact. -/
theorem sub_one_exact {p : Dbl} (hp : p.IsFinite) (h1 : (1 : Dbl) ≤ p)
    (h2 : p.toRat < 2 ^ (53 : Nat)) :
    (p - 1).IsFinite ∧ (p - 1).toRat = p.toRat - 1 := by
  obtain ⟨M, E, r, v⟩ := sub_eq_round hp isFinite_one
  rw [toRat_one] at v
  have hv1 : (1 : ℚ) ≤ p.toRat := by
    have := (le_iff_toRat isFinite_one hp).1 h1
    rwa [toRat_one] at this
  obtain ⟨m, e, rfl⟩ := hp.eq_finite
  obtain ⟨f1, f2, f3, f4⟩ := hp
  simp only [toRat] at v h2 hv1
  have pe := two_zpow_pos e
  have hmpos : (0 : ℚ) < m := by
    by_contra hc
    push_neg at hc
    have : (m : ℚ) * 2 ^ e ≤ 0 := mul_nonpos_of_nonpos_of_nonneg hc pe.le
    linarith
  have hmpos' : 0 < m := by exact_mod_cast hmpos
  have hmabs : ((m.natAbs : Nat) : ℚ) = (m : ℚ) := natAbs_cast_of_pos hmpos'
  have hmlt : (m : ℚ) < 2 ^ (53 : Int) := by
    have : ((m.natAbs : Nat) : ℚ) < 2 ^ (53 : Nat) := by exact_mod_cast f1
    rw [hmabs] at this
    exact_mod_cast this
  -- the value is normal: the significand has 53 digits
  have hnorm : ¬ m.natAbs < 2 ^ 52 := by
    intro hsub
    have he := f4 hsub
    have : ((m.natAbs : Nat) : ℚ) < 2 ^ (52 : Nat) := by exact_mod_cast hsub
    rw [hmabs] at this
    have h52 : (m : ℚ) < 2 ^ (52 : Int) := by exact_mod_cast this
    have := mul_zpow_lt h52 (show e ≤ -1074 by omega)
    have h3 : (2 : ℚ) ^ ((52 : Int) + -1074) ≤ 2 ^ (0 : Int) := zpow_le_zpow_two.2 (by norm_num)
    rw [zpow_zero] at h3
    linarith
  have hmge : (2 : ℚ) ^ (52 : Int) ≤ m := by
    have : 2 ^ 52 ≤ m.natAbs := by omega
    have : (2 : ℚ) ^ (52 : Nat) ≤ ((m.natAbs : Nat) : ℚ) := by exact_mod_cast this
    rw [hmabs] at this
    exact_mod_cast this
  -- the exponent is at most 0
  have he0 : e ≤ 0 := by
    by_contra hc
    have := le_mul_zpow hmge (show (1 : Int) ≤ e by omega)
    have h3 : (2 : ℚ) ^ ((52 : Int) + 1) = 2 ^ (53 : Nat) := by norm_cast
    rw [h3] at this
    linarith
  obtain ⟨j, hj⟩ : ∃ j : Nat, -e = (j : Int) := ⟨(-e).toNat, by omega⟩
  have hpow : ((2 ^ j : Int) : ℚ) * 2 ^ e = 1 := by
    push_cast
    rw [← zpow_natCast, ← hj, ← zpow_add₀ (by norm_num : (2 : ℚ) ≠ 0)]
    simp
  have hval : ((m - 2 ^ j : Int) : ℚ) * 2 ^ e = (m : ℚ) * 2 ^ e - 1 := by
    push_cast
    rw [sub_mul]
    congr 1
    exact_mod_cast hpow
  have hk0 : 0 ≤ m - 2 ^ j := by
    have : (0 : ℚ) ≤ ((m - 2 ^ j : Int) : ℚ) * 2 ^ e := by rw [hval]; linarith
    have h3 : (0 : ℚ) ≤ ((m - 2 ^ j : Int) : ℚ) := by
      by_contra hc
      push_neg at hc
      have := mul_neg_of_neg_of_pos hc pe
      linarith
    exact_mod_cast h3
  have hjpos : (0 : Int) < 2 ^ j := by positivity
  have hk53 : (m - 2 ^ j).natAbs < 2 ^ 53 := by omega
  have hrange : (((m - 2 ^ j).natAbs : Nat) : ℚ) * 2 ^ e < 2 ^ (1024 : Int) := by
    rw [Nat.cast_natAbs, abs_of_nonneg hk0, hval]
    have h3 : (2 : ℚ) ^ (53 : Nat) ≤ 2 ^ (1024 : Int) := by
      rw [natpow_eq_zpow]
      exact zpow_le_zpow_two.2 (by norm_num)
    linarith
  obtain ⟨g1, g2⟩ := round_exact hk53 f2 hrange
  have hc := round_congr (show (M : ℚ) * 2 ^ E = ((m - 2 ^ j : Int) : ℚ) * 2 ^ e by
    rw [v, hval])
  rw [r, hc]
  exact ⟨g1, by rw [g2, hval]; simp [toRat]⟩

end Dbl

theorem Draw.val_isFinite (d : Draw) : d.val.IsFinite := (Dbl.floorRat_spec d.lt).1

theorem Draw.val_nonneg (d : Draw) : (0 : Dbl) ≤ d.val := by
  show Dbl.finite 0 (-1074) ≤ d.val
  rw [Dbl.le_iff_toRat Dbl.isFinite_zero d.val_isFinite]
  simpa [Dbl.toRat] using (Dbl.floorRat_spec d.lt).2.1

theorem Draw.val_lt_one (d : Draw) : d.val < 1 := by
  rw [Dbl.lt_iff_toRat d.val_isFinite Dbl.isFinite_one, Dbl.toRat_one]
  exact (Dbl.floorRat_spec d.lt).2.2

namespace Dbl

theorem zero_le_iff {x : Dbl} (hx : x.IsFinite) : (0 : Dbl) ≤ x ↔ 0 ≤ x.toRat := by
  have := le_iff_toRat isFinite_zero hx
  rw [show (Dbl.finite 0 (-1074)).toRat = 0 by simp [toRat]] at this
  exact this

/-- A non-negative binary64 value is finite or the positive infinity. -/
theorem nonneg_cases {p : Dbl} (h0 : (0 : Dbl) ≤ p) (hw : p.Wf) : p.IsFinite ∨ p = .posInf := by
  cases p with
  | finite m e => exact Or.inl hw
  | posInf => exact Or.inr rfl
  | negInf => exact absurd h0 (by decide)
  | nan => exact absurd h0 (by decide)

theorem zero_le_posInf : (0 : Dbl) ≤ .posInf := by decide

/-- The exact result of an operation on non-negative values is not below zero. -/
theorem zero_le_round_of_val {M E : Int} (h : 0 ≤ (M : ℚ) * 2 ^ E) : (0 : Dbl) ≤ round M E := by
  have := round_mono (show ((0 : Int) : ℚ) * 2 ^ (0 : Int) ≤ (M : ℚ) * 2 ^ E by simpa using h)
  rwa [round_zero] at this

theorem mul_nonneg_of {a b : Dbl} (ha : a.IsFinite) (hb : b.IsFinite) (h1 : (0 : Dbl) ≤ a)
    (h2 : (0 : Dbl) ≤ b) : (0 : Dbl) ≤ a * b := by
  obtain ⟨M, E, r, v⟩ := mul_eq_round ha hb
  rw [r]
  apply zero_le_round_of_val
  rw [v]
  exact mul_nonneg ((zero_le_iff ha).1 h1) ((zero_le_iff hb).1 h2)

theorem add_nonneg_of {a b : Dbl} (ha : a.Wf) (hb : b.Wf) (h1 : (0 : Dbl) ≤ a)
    (h2 : (0 : Dbl) ≤ b) : (0 : Dbl) ≤ a + b := by
  rcases nonneg_cases h1 ha with fa | rfl
  · rcases nonneg_cases h2 hb with fb | rfl
    · obtain ⟨M, E, r, v⟩ := add_eq_round fa fb
      rw [r]
      apply zero_le_round_of_val
      rw [v]
      exact add_nonneg ((zero_le_iff fa).1 h1) ((zero_le_iff fb).1 h2)
    · obtain ⟨m, e, rfl⟩ := fa.eq_finite
      exact zero_le_posInf
  · cases b with
    | finite m e => exact zero_le_posInf
    | posInf => exact zero_le_posInf
    | negInf => exact absurd h2 (by decide)
    | nan => exact absurd h2 (by decide)

/-- Subtracting 1 from a value that is at least 1 leaves a non-negative value. -/
theorem sub_one_nonneg {p : Dbl} (h0 : (0 : Dbl) ≤ p) (hw : p.Wf) (h1 : (1 : Dbl) ≤ p) :
    (0 : Dbl) ≤ p - 1 := by
  rcases nonneg_cases h0 hw with fp | rfl
  · obtain ⟨M, E, r, v⟩ := sub_eq_round fp isFinite_one
    rw [r]
    apply zero_le_round_of_val
    rw [v, toRat_one]
    have := (le_iff_toRat isFinite_one fp).1 h1
    rw [toRat_one] at this
    linarith
  · decide

/-- A non-negative value that is not at least 1 is below 1. -/
theorem lt_one_of_not_le {p : Dbl} (h0 : (0 : Dbl) ≤ p) (hw : p.Wf) (h : ¬ (1 : Dbl) ≤ p) :
    p < 1 := by
  rcases nonneg_cases h0 hw with fp | rfl
  · exact lt_of_not_le isFinite_one fp h
  · exact absurd (by decide) h

/-- A non-negative value below a finite value is finite. -/
theorem isFinite_of_lt {p c : Dbl} (h0 : (0 : Dbl) ≤ p) (hw : p.Wf) (hc : c.IsFinite)
    (h : p < c) : p.IsFinite := by
  rcases nonneg_cases h0 hw with fp | rfl
  · exact fp
  · obtain ⟨m, e, rfl⟩ := hc.eq_finite
    exact absurd h (by simp [lt_def, Dbl.lt])

theorem not_one_le_of_lt {p : Dbl} (h : p < 1) : ¬ (1 : Dbl) ≤ p := not_le_of_lt h

end Dbl

namespace Dbl

theorem isqrtAux_spec (n : Nat) : ∀ (k r : Nat), r * r ≤ n → n < (r + 2 ^ k) * (r + 2 ^ k) →
    isqrtAux n k r * isqrtAux n k r ≤ n ∧
      n < (isqrtAux n k r + 1) * (isqrtAux n k r + 1) := by
  intro k
  induction k with
  | zero =>
    intro r h1 h2
    simpa [isqrtAux] using ⟨h1, h2⟩
  | succ k ih =>
    intro r h1 h2
    unfold isqrtAux
    rw [pow2_eq]
    by_cases hc : (r + 2 ^ k) * (r + 2 ^ k) ≤ n
    · rw [if_pos hc]
      apply ih _ hc
      have e : r + 2 ^ k + 2 ^ k = r + 2 ^ (k + 1) := by rw [pow_succ]; omega
      rw [e]
      exact h2
    · rw [if_neg hc]
      exact ih _ h1 (by omega)

/-- The integer square root: the largest number whose square is at most `n`. -/
theorem isqrt_spec (n : Nat) : isqrt n * isqrt n ≤ n ∧ n < (isqrt n + 1) * (isqrt n + 1) := by
  unfold isqrt
  apply isqrtAux_spec n _ 0 (by simp)
  have h1 := lt_pow_bits n
  have h2 : bits n ≤ 2 * (bits n / 2 + 1) := by omega
  have h3 : 2 ^ bits n ≤ 2 ^ (2 * (bits n / 2 + 1)) := Nat.pow_le_pow_right (by norm_num) h2
  have h4 : (0 + 2 ^ (bits n / 2 + 1)) * (0 + 2 ^ (bits n / 2 + 1)) =
      2 ^ (2 * (bits n / 2 + 1)) := by
    rw [Nat.zero_add, ← pow_add]
    congr 1
    omega
  rw [h4]
  omega

/-- The literal `0.45`: its binary64 value, which is within half a unit of the last place. -/
theorem literal_radius : Dbl.ofRat 45 100 = .finite 8106479329266893 (-54) ∧
    |(45 / 100 : ℚ) - (Dbl.finite 8106479329266893 (-54)).toRat| < 2 ^ (-55 : Int) := by
  refine ⟨rfl, ?_⟩
  simp only [toRat]
  rw [zpow_neg, zpow_neg, abs_lt]
  norm_num

/-- The literal `2.8`: its binary64 value, which is within half a unit of the last place. -/
theorem literal_speed : Dbl.ofRat 28 10 = .finite 6305039478318694 (-51) ∧
    |(28 / 10 : ℚ) - (Dbl.finite 6305039478318694 (-51)).toRat| < 2 ^ (-52 : Int) := by
  refine ⟨rfl, ?_⟩
  simp only [toRat]
  rw [zpow_neg, zpow_neg, abs_lt]
  norm_num

/-- The literal `0.5` is exact. -/
theorem literal_half : Dbl.ofRat 5 10 = .finite 4503599627370496 (-53) ∧
    (Dbl.finite 4503599627370496 (-53)).toRat = 1 / 2 := by
  refine ⟨rfl, ?_⟩
  simp only [toRat]
  rw [zpow_neg]
  norm_num

end Dbl

/-! ### The hunter, the prey and the page reload -/

theorem Debugger.withinRadius_congr {d d1 : Debugger} (h1 : d1.tileSize = d.tileSize)
    (h2 : d1.position = d.position) (b : Bug) : d1.withinRadius b = d.withinRadius b := by
  unfold Debugger.withinRadius
  rw [h1, h2]

/-- The method `consume` changes only `highlight` and `munchBurst` of the hunter, and treats
every prey of the list by `Marks`. -/
theorem Debugger.consume_spec (time : Dbl) (cb : Option Nat) (rnd : Rng) :
    ∀ (bugs : List Bug) (d : Debugger) (k : Nat),
      (Debugger.consume time cb rnd d bugs k).1.current = d.current ∧
      (Debugger.consume time cb rnd d bugs k).1.target = d.target ∧
      (Debugger.consume time cb rnd d bugs k).1.progress = d.progress ∧
      (Debugger.consume time cb rnd d bugs k).1.speed = d.speed ∧
      (Debugger.consume time cb rnd d bugs k).1.tileSize = d.tileSize ∧
      (Debugger.consume time cb rnd d bugs k).1.position = d.position ∧
      (Debugger.consume time cb rnd d bugs k).1.direction = d.direction ∧
      List.Forall₂ (d.Marks time) bugs (Debugger.consume time cb rnd d bugs k).2.1 := by
  intro bugs
  induction bugs with
  | nil => intro d k; simp [Debugger.consume]
  | cons bug rest ih =>
    intro d k
    by_cases he : bug.eaten = true
    · obtain ⟨a1, a2, a3, a4, a5, a6, a7, a8⟩ := ih d k
      have e : Debugger.consume time cb rnd d (bug :: rest) k =
          ((Debugger.consume time cb rnd d rest k).1,
            bug :: (Debugger.consume time cb rnd d rest k).2.1,
            (Debugger.consume time cb rnd d rest k).2.2) := by
        simp [Debugger.consume, he]
      rw [e]
      refine ⟨a1, a2, a3, a4, a5, a6, a7, List.Forall₂.cons ⟨?_, fun _ => rfl⟩ a8⟩
      intro h; rw [he] at h; exact absurd h.1 (by simp)
    · by_cases hw : d.withinRadius bug = true
      · have hmark : d.Marks time bug (bug.markEaten time (rnd k)) :=
          ⟨fun _ => ⟨rnd k, rfl⟩, fun h => absurd ⟨by simpa using he, hw⟩ h⟩
        have hF : ∀ r : Debugger × List Bug × List Point × Nat,
            List.Forall₂ (Debugger.Marks { d with highlight := 1, munchBurst := 1 } time) rest r.2.1 →
            List.Forall₂ (d.Marks time) rest r.2.1 := by
          intro r hr
          exact List.Forall₂.imp (fun _ _ hb => hb) hr
        cases cb with
        | some draws =>
          obtain ⟨a1, a2, a3, a4, a5, a6, a7, a8⟩ :=
            ih { d with highlight := 1, munchBurst := 1 } (k + 1 + draws)
          have e : Debugger.consume time (some draws) rnd d (bug :: rest) k =
              ((Debugger.consume time (some draws) rnd { d with highlight := 1, munchBurst := 1 }
                  rest (k + 1 + draws)).1,
                bug.markEaten time (rnd k) ::
                  (Debugger.consume time (some draws) rnd
                    { d with highlight := 1, munchBurst := 1 } rest (k + 1 + draws)).2.1,
                ⟨bug.position.x, bug.position.y⟩ ::
                  (Debugger.consume time (some draws) rnd
                    { d with highlight := 1, munchBurst := 1 } rest (k + 1 + draws)).2.2.1,
                (Debugger.consume time (some draws) rnd
                  { d with highlight := 1, munchBurst := 1 } rest (k + 1 + draws)).2.2.2) := by
            simp [Debugger.consume, he, hw]
          rw [e]
          exact ⟨a1, a2, a3, a4, a5, a6, a7, List.Forall₂.cons hmark (hF _ a8)⟩
        | none =>
          obtain ⟨a1, a2, a3, a4, a5, a6, a7, a8⟩ :=
            ih { d with highlight := 1, munchBurst := 1 } (k + 1)
          have e : Debugger.consume time none rnd d (bug :: rest) k =
              ((Debugger.consume time none rnd { d with highlight := 1, munchBurst := 1 }
                  rest (k + 1)).1,
                bug.markEaten time (rnd k) ::
                  (Debugger.consume time none rnd
                    { d with highlight := 1, munchBurst := 1 } rest (k + 1)).2.1,
                (Debugger.consume time none rnd
                  { d with highlight := 1, munchBurst := 1 } rest (k + 1)).2.2) := by
            simp [Debugger.consume, he, hw]
          rw [e]
          exact ⟨a1, a2, a3, a4, a5, a6, a7, List.Forall₂.cons hmark (hF _ a8)⟩
      · obtain ⟨a1, a2, a3, a4, a5, a6, a7, a8⟩ := ih d k
        have e : Debugger.consume time cb rnd d (bug :: rest) k =
            ((Debugger.consume time cb rnd d rest k).1,
              bug :: (Debugger.consume time cb rnd d rest k).2.1,
              (Debugger.consume time cb rnd d rest k).2.2) := by
          simp [Debugger.consume, he, hw]
        rw [e]
        refine ⟨a1, a2, a3, a4, a5, a6, a7, List.Forall₂.cons ⟨?_, fun _ => rfl⟩ a8⟩
        intro h; exact absurd h.2 hw

/-- The test of `consume` is the comparison of the source. -/
theorem Debugger.withinRadius_iff (d : Debugger) (b : Bug) :
    d.withinRadius b = true ↔
      Dbl.sqrt ((b.position.x - d.position.x) * (b.position.x - d.position.x) +
        (b.position.y - d.position.y) * (b.position.y - d.position.y)) <
        d.tileSize * Dbl.ofRat 45 100 :=
  Iff.rfl

theorem Debugger.updateLoop_idle (m : Maze) (time : Dbl) (cb : Option Nat) (rnd : Rng) (cf : Nat)
    (fuel : Nat) (d : Debugger) (bugs : List Bug) (ev : List Point) (k : Nat)
    (h : ¬ d.progress ≥ 1) :
    Debugger.updateLoop m time cb rnd cf fuel d bugs ev k = .ok (d, bugs, ev, k) := by
  cases fuel with
  | zero => rw [Debugger.updateLoop]; simp only [h, if_false]
  | succ fuel => rw [Debugger.updateLoop]; simp only [h, if_false]

theorem Debugger.updateLoop_step (m : Maze) (time : Dbl) (cb : Option Nat) (rnd : Rng) (cf : Nat)
    (fuel : Nat) (d : Debugger) (bugs : List Bug) (ev : List Point) (k : Nat)
    (h : d.progress ≥ 1) (d3 : Debugger) (k3 : Nat)
    (hch : Debugger.chooseNextDirection m rnd cf
      (Debugger.consume time cb rnd
        { d with progress := d.progress - 1, current := d.target } bugs k).1
      (Debugger.consume time cb rnd
        { d with progress := d.progress - 1, current := d.target } bugs k).2.2.2 = .ok (d3, k3)) :
    Debugger.updateLoop m time cb rnd cf (fuel + 1) d bugs ev k =
      Debugger.updateLoop m time cb rnd cf fuel d3
        (Debugger.consume time cb rnd
          { d with progress := d.progress - 1, current := d.target } bugs k).2.1
        (ev ++ (Debugger.consume time cb rnd
          { d with progress := d.progress - 1, current := d.target } bugs k).2.2.1) k3 := by
  rw [Debugger.updateLoop]
  simp only [h, if_true, hch]

theorem Debugger.updateLoop_step_error (m : Maze) (time : Dbl) (cb : Option Nat) (rnd : Rng)
    (cf : Nat) (fuel : Nat) (d : Debugger) (bugs : List Bug) (ev : List Point) (k : Nat)
    (h : d.progress ≥ 1) (e : Stop)
    (hch : Debugger.chooseNextDirection m rnd cf
      (Debugger.consume time cb rnd
        { d with progress := d.progress - 1, current := d.target } bugs k).1
      (Debugger.consume time cb rnd
        { d with progress := d.progress - 1, current := d.target } bugs k).2.2.2 = .error e) :
    Debugger.updateLoop m time cb rnd cf (fuel + 1) d bugs ev k = .error e := by
  rw [Debugger.updateLoop]
  simp only [h, if_true, hch]

/-- Whenever the loop of `update` ends, progress is in `[0, 1)` and the target is an open
neighbour of the current cell. -/
theorem Debugger.updateLoop_post (m : Maze) (time : Dbl) (cb : Option Nat) (rnd : Rng) (cf : Nat) :
    ∀ (fuel : Nat) (d : Debugger) (bugs : List Bug) (ev : List Point) (k : Nat)
      (d1 : Debugger) (bugs1 : List Bug) (ev1 : List Point) (k1 : Nat),
      0 ≤ d.progress → d.progress.Wf → d.OnTrack m →
      Debugger.updateLoop m time cb rnd cf fuel d bugs ev k = .ok (d1, bugs1, ev1, k1) →
      0 ≤ d1.progress ∧ d1.progress < 1 ∧ d1.OnTrack m := by
  intro fuel
  induction fuel with
  | zero =>
    intro d bugs ev k d1 bugs1 ev1 k1 hp hw ht h
    rw [Debugger.updateLoop] at h
    by_cases hge : d.progress ≥ 1
    · simp [hge] at h
    · simp only [hge, if_false, Except.ok.injEq, Prod.mk.injEq] at h
      obtain ⟨rfl, -⟩ := h
      exact ⟨hp, Dbl.lt_one_of_not_le hp hw hge, ht⟩
  | succ fuel ih =>
    intro d bugs ev k d1 bugs1 ev1 k1 hp hw ht h
    by_cases hge : d.progress ≥ 1
    · obtain ⟨c1, c2, c3, c4, c5, c6, c7, c8⟩ := Debugger.consume_spec time cb rnd bugs
        { d with progress := d.progress - 1, current := d.target } k
      cases hch : Debugger.chooseNextDirection m rnd cf
          (Debugger.consume time cb rnd
            { d with progress := d.progress - 1, current := d.target } bugs k).1
          (Debugger.consume time cb rnd
            { d with progress := d.progress - 1, current := d.target } bugs k).2.2.2 with
      | error e =>
        rw [Debugger.updateLoop_step_error m time cb rnd cf fuel d bugs ev k hge e hch] at h
        cases h
      | ok p =>
        obtain ⟨d3, k3⟩ := p
        rw [Debugger.updateLoop_step m time cb rnd cf fuel d bugs ev k hge d3 k3 hch] at h
        obtain ⟨-, q2, q3, -, -⟩ := Debugger.chooseNextDirection_post m rnd cf _ _ _ _ hch
        have hd3 : 0 ≤ d3.progress ∧ d3.progress.Wf := by
          rcases q3 with q3 | q3
          · rw [q3, c3]
            exact ⟨Dbl.sub_one_nonneg hp hw hge, Dbl.sub_wf _ _⟩
          · rw [q3]
            exact ⟨by decide, by decide⟩
        exact ih _ _ _ _ _ _ _ _ hd3.1 hd3.2 q2 h
    · rw [Debugger.updateLoop_idle m time cb rnd cf _ d bugs ev k hge] at h
      simp only [Except.ok.injEq, Prod.mk.injEq] at h
      obtain ⟨rfl, -⟩ := h
      exact ⟨hp, Dbl.lt_one_of_not_le hp hw hge, ht⟩

/-- On a constructed maze with a navigable cell the loop of `update` ends within
`⌊progress⌋` iterations when progress is below `2^53`, where subtracting 1 is exact. -/
theorem Debugger.updateLoop_total {m : Maze} (hm : m.Built)
    (hnav : ∃ r c, m.isOpen r c = true ∧ m.getNeighbors r c ≠ []) (time : Dbl) (cb : Option Nat)
    (rnd : Rng) (cf : Nat) (hcf : 2 ≤ cf) :
    ∀ (fuel : Nat) (d : Debugger) (bugs : List Bug) (ev : List Point) (k : Nat),
      d.progress.IsFinite → 0 ≤ d.progress.toRat → d.progress.toRat < 2 ^ (53 : Nat) →
      ⌊d.progress.toRat⌋₊ ≤ fuel →
      ∃ res, Debugger.updateLoop m time cb rnd cf fuel d bugs ev k = .ok res := by
  intro fuel
  induction fuel with
  | zero =>
    intro d bugs ev k hf hp hb hfl
    have hlt : d.progress.toRat < 1 := by
      have := Nat.le_zero.mp hfl
      rw [Nat.floor_eq_zero] at this
      exact this
    have hlt' : d.progress < 1 := by
      rw [Dbl.lt_iff_toRat hf Dbl.isFinite_one, Dbl.toRat_one]; exact hlt
    exact ⟨_, Debugger.updateLoop_idle m time cb rnd cf 0 d bugs ev k (Dbl.not_one_le_of_lt hlt')⟩
  | succ fuel ih =>
    intro d bugs ev k hf hp hb hfl
    by_cases hge : d.progress ≥ 1
    · obtain ⟨c1, c2, c3, c4, c5, c6, c7, c8⟩ := Debugger.consume_spec time cb rnd bugs
        { d with progress := d.progress - 1, current := d.target } k
      obtain ⟨d3, k3, hch⟩ := Debugger.chooseNextDirection_total hm hnav rnd cf hcf
        (Debugger.consume time cb rnd
            { d with progress := d.progress - 1, current := d.target } bugs k).1
        (Debugger.consume time cb rnd
            { d with progress := d.progress - 1, current := d.target } bugs k).2.2.2
      obtain ⟨-, -, q3, -, -⟩ := Debugger.chooseNextDirection_post m rnd cf _ _ _ _ hch
      rw [Debugger.updateLoop_step m time cb rnd cf fuel d bugs ev k hge d3 k3 hch]
      obtain ⟨s1, s2⟩ := Dbl.sub_one_exact hf hge hb
      have hge' : (1 : ℚ) ≤ d.progress.toRat := by
        have := (Dbl.le_iff_toRat Dbl.isFinite_one hf).1 hge
        rwa [Dbl.toRat_one] at this
      have hd3 : d3.progress = d.progress - 1 ∨ d3.progress = 0 := by
        rcases q3 with q3 | q3
        · left; rw [q3, c3]
        · right; exact q3
      rcases hd3 with e | e
      · apply ih
        · rw [e]; exact s1
        · rw [e, s2]; linarith
        · rw [e, s2]; linarith
        · rw [e, s2, Nat.floor_sub_one]; omega
      · apply ih
        · rw [e]; exact Dbl.isFinite_zero
        · rw [e, Dbl.toRat_zero]
        · rw [e, Dbl.toRat_zero]; positivity
        · rw [e, Dbl.toRat_zero]; simp
    · exact ⟨_, Debugger.updateLoop_idle m time cb rnd cf _ d bugs ev k hge⟩

theorem sampleMaze_built : sampleMaze.Built := by
  unfold Maze.Built
  rfl

theorem Debugger.update_eq (fuel : Nat) (d : Debugger) (m : Maze) (delta : Dbl) (bugs : List Bug)
    (time : Dbl) (cb : Option Nat) (rnd : Rng) (k : Nat) (d1 : Debugger) (bugs1 : List Bug)
    (ev1 : List Point) (k1 : Nat)
    (h : Debugger.updateLoop m time cb rnd fuel fuel (d.advance delta) bugs [] k = .ok (d1, bugs1, ev1, k1)) :
    Debugger.update fuel d m delta bugs time cb rnd k =
      .ok ((Debugger.consume time cb rnd d1.updatePosition bugs1 k1).1,
        (Debugger.consume time cb rnd d1.updatePosition bugs1 k1).2.1,
        ev1 ++ (Debugger.consume time cb rnd d1.updatePosition bugs1 k1).2.2.1,
        (Debugger.consume time cb rnd d1.updatePosition bugs1 k1).2.2.2) := by
  unfold Debugger.update
  simp only [h]

theorem Debugger.update_error (fuel : Nat) (d : Debugger) (m : Maze) (delta : Dbl)
    (bugs : List Bug) (time : Dbl) (cb : Option Nat) (rnd : Rng) (k : Nat) (e : Stop)
    (h : Debugger.updateLoop m time cb rnd fuel fuel (d.advance delta) bugs [] k = .error e) :
    Debugger.update fuel d m delta bugs time cb rnd k = .error e := by
  unfold Debugger.update
  simp only [h]

theorem scenario_near :
    scenarioHunter.withinRadius (preyAt (100 + Dbl.ofRat 4 10 * 24)) = true := by
  rfl

theorem scenario_far :
    scenarioHunter.withinRadius (preyAt (100 + Dbl.ofRat 5 10 * 24)) = false := by
  rfl

theorem scenario_at : scenarioHunter.withinRadius (preyAt 100) = true := by
  rfl

/-- On a constructed maze with an open cell, every draw of `getRandomPathCell` gives an open
cell. -/
theorem Maze.getRandomPathCell_some {m : Maze} (hm : m.Built)
    (hopen : ∃ r c, m.isOpen r c = true) (d : Draw) :
    ∃ cell, m.getRandomPathCell d = some cell ∧ m.isOpen cell.row cell.col = true := by
  obtain ⟨r, c, ho⟩ := hopen
  have hmem : (Cell.mk r c) ∈ m.pathCells := (Maze.mem_pathCells hm ⟨r, c⟩).mpr ho
  have hne : m.pathCells ≠ [] := List.ne_nil_of_mem hmem
  have hpool : ∃ cell, m.getRandomPathCell d = some cell := by
    unfold Maze.getRandomPathCell
    dsimp only
    split_ifs with hn
    · exact jsIndex_draw _ (by intro h; rw [h] at hn; simp at hn) d
    · exact jsIndex_draw _ hne d
  obtain ⟨cell, hcell⟩ := hpool
  exact ⟨cell, hcell, ((Maze.getRandomPathCell_spec hm d).1 cell hcell).2⟩

/-- The sampling loop of `spawn` stops at the first unoccupied sample, or at the last allowed
sample. -/
theorem Bug.sampleCell_spec {m : Maze} (hm : m.Built) (hopen : ∃ r c, m.isOpen r c = true)
    (occ : List (Int × Int)) (rnd : Rng) :
    ∀ (n k : Nat), ∃ (j : Nat) (cell : Cell), j ≤ n ∧
      m.getRandomPathCell (rnd (k + j)) = some cell ∧
      (∀ i, i < j → ∃ c, m.getRandomPathCell (rnd (k + i)) = some c ∧ (c.row, c.col) ∈ occ) ∧
      (j < n → (cell.row, cell.col) ∉ occ) ∧
      Bug.sampleCell m occ rnd n k = .ok (cell, k + j + 1) := by
  intro n
  induction n with
  | zero =>
    intro k
    obtain ⟨cell, hcell, -⟩ := Maze.getRandomPathCell_some hm hopen (rnd k)
    refine ⟨0, cell, le_refl _, hcell, fun i hi => absurd hi (Nat.not_lt_zero _),
      fun h => absurd h (lt_irrefl _), ?_⟩
    rw [Bug.sampleCell]
    simp only [hcell]
  | succ n ih =>
    intro k
    obtain ⟨cell, hcell, -⟩ := Maze.getRandomPathCell_some hm hopen (rnd k)
    by_cases hocc : (cell.row, cell.col) ∈ occ
    · obtain ⟨j, cell2, hj, hs, hbefore, hfree, hres⟩ := ih (k + 1)
      refine ⟨j + 1, cell2, by omega, ?_, ?_, ?_, ?_⟩
      · rw [show k + (j + 1) = k + 1 + j by omega]; exact hs
      · intro i hi
        cases i with
        | zero => exact ⟨cell, hcell, hocc⟩
        | succ i =>
          obtain ⟨c, hc1, hc2⟩ := hbefore i (by omega)
          exact ⟨c, by rw [show k + (i + 1) = k + 1 + i by omega]; exact hc1, hc2⟩
      · intro hlt; exact hfree (by omega)
      · rw [Bug.sampleCell]
        simp only [hcell, hocc, if_true, hres]
        rw [show k + 1 + j + 1 = k + (j + 1) + 1 by omega]
    · refine ⟨0, cell, Nat.zero_le _, hcell, fun i hi => absurd hi (Nat.not_lt_zero _),
        fun _ => hocc, ?_⟩
      rw [Bug.sampleCell]
      simp only [hcell, hocc, if_false]

theorem mem_occupiedKeys_aux (bugs : List Bug) :
    ∀ (acc : List (Int × Int)) (key : Int × Int),
      key ∈ bugs.foldl (fun occ bug => if bug.eaten = true then occ else bug.key :: occ) acc ↔
        key ∈ acc ∨ ∃ b ∈ bugs, b.eaten = false ∧ b.key = key := by
  induction bugs with
  | nil => intro acc key; simp
  | cons b rest ih =>
    intro acc key
    rw [List.foldl_cons]
    by_cases he : b.eaten = true
    · rw [if_pos he, ih]
      constructor
      · rintro (h | ⟨b2, hb2, h1, h2⟩)
        · exact Or.inl h
        · exact Or.inr ⟨b2, List.mem_cons_of_mem _ hb2, h1, h2⟩
      · rintro (h | ⟨b2, hb2, h1, h2⟩)
        · exact Or.inl h
        · rcases List.mem_cons.mp hb2 with rfl | hb2
          · rw [he] at h1; cases h1
          · exact Or.inr ⟨b2, hb2, h1, h2⟩
    · have he' : b.eaten = false := by simpa using he
      rw [if_neg he, ih]
      constructor
      · rintro (h | ⟨b2, hb2, h1, h2⟩)
        · rcases List.mem_cons.mp h with h | h
          · exact Or.inr ⟨b, List.mem_cons_self _ _, he', h.symm⟩
          · exact Or.inl h
        · exact Or.inr ⟨b2, List.mem_cons_of_mem _ hb2, h1, h2⟩
      · rintro (h | ⟨b2, hb2, h1, h2⟩)
        · exact Or.inl (List.mem_cons_of_mem _ h)
        · rcases List.mem_cons.mp hb2 with rfl | hb2
          · exact Or.inl (by rw [← h2]; exact List.mem_cons_self _ _)
          · exact Or.inr ⟨b2, hb2, h1, h2⟩

/-- The occupancy set holds exactly the keys of the prey that are not eaten. -/
theorem mem_occupiedKeys (bugs : List Bug) (key : Int × Int) :
    key ∈ occupiedKeys bugs ↔ ∃ b ∈ bugs, b.eaten = false ∧ b.key = key := by
  unfold occupiedKeys
  rw [mem_occupiedKeys_aux]
  simp

theorem Debugger.consume_capture (time : Dbl) (draws : Nat) (rnd : Rng) (d : Debugger) (bug : Bug)
    (rest : List Bug) (k : Nat) (he : bug.eaten = false) (hw : d.withinRadius bug = true) :
    Debugger.consume time (some draws) rnd d (bug :: rest) k =
      ((Debugger.consume time (some draws) rnd { d with highlight := 1, munchBurst := 1 }
          rest (k + 1 + draws)).1,
        bug.markEaten time (rnd k) ::
          (Debugger.consume time (some draws) rnd
            { d with highlight := 1, munchBurst := 1 } rest (k + 1 + draws)).2.1,
        ⟨bug.position.x, bug.position.y⟩ ::
          (Debugger.consume time (some draws) rnd
            { d with highlight := 1, munchBurst := 1 } rest (k + 1 + draws)).2.2.1,
        (Debugger.consume time (some draws) rnd
          { d with highlight := 1, munchBurst := 1 } rest (k + 1 + draws)).2.2.2) := by
  simp [Debugger.consume, he, hw]

theorem Debugger.consume_miss (time : Dbl) (cb : Option Nat) (rnd : Rng) (d : Debugger) (bug : Bug)
    (rest : List Bug) (k : Nat) (hw : bug.eaten = true ∨ d.withinRadius bug = false) :
    Debugger.consume time cb rnd d (bug :: rest) k =
      ((Debugger.consume time cb rnd d rest k).1,
        bug :: (Debugger.consume time cb rnd d rest k).2.1,
        (Debugger.consume time cb rnd d rest k).2.2) := by
  by_cases he : bug.eaten = true
  · simp [Debugger.consume, he]
  · rcases hw with hw | hw
    · exact absurd hw he
    · simp [Debugger.consume, he, hw]

theorem sampleFrame_hunter :
    sampleHunter.update 2 sampleMaze 0 [preyOnHunter, preyElsewhere] 1 (some 12) sampleRng 0 =
      .ok ({ sampleHunter with highlight := 1, munchBurst := 1 },
        [preyOnHunter.markEaten 1 (sampleRng 0), preyElsewhere], [⟨36, 60⟩], 13) := by
  rfl

theorem sampleFrame_bugs :
    updateBugs 1 sampleMaze sampleRng [preyOnHunter.markEaten 1 (sampleRng 0), preyElsewhere]
      (occupiedKeys [preyOnHunter.markEaten 1 (sampleRng 0), preyElsewhere]) 13 =
      .ok ([(preyOnHunter.markEaten 1 (sampleRng 0)).updatePosition, preyElsewhere.updatePosition],
        [(1, 1)], 13) := by
  rfl

theorem sampleFrame_update :
    Screensaver.update 2 sampleFrame 0 sampleRng 0 =
      .ok ({ sampleFrame with
          debugger := { sampleHunter with highlight := 1, munchBurst := 1 },
          bugs := [(preyOnHunter.markEaten 1 (sampleRng 0)).updatePosition,
            preyElsewhere.updatePosition] }, [⟨36, 60⟩], 13) := by
  rfl

theorem Bug.update_wait (e : Bug) (time : Dbl) (m : Maze) (occ : List (Int × Int)) (rnd : Rng)
    (k : Nat) (h : ¬ (e.eaten = true ∧ time ≥ e.respawnAt)) :
    e.update time m occ rnd k = .ok (e.updatePosition, occ, k) := by
  unfold Bug.update
  rw [if_neg h]

theorem Bug.update_respawn (e : Bug) (time : Dbl) (m : Maze) (occ : List (Int × Int)) (rnd : Rng)
    (k : Nat) (h : e.eaten = true ∧ time ≥ e.respawnAt) (b1 : Bug) (occ1 : List (Int × Int))
    (k1 : Nat) (hs : e.spawn m occ rnd k = .ok (b1, occ1, k1)) :
    e.update time m occ rnd k = .ok (b1.updatePosition, occ1, k1) := by
  unfold Bug.update
  rw [if_pos h]
  simp only [hs]

theorem Bug.update_respawn_error (e : Bug) (time : Dbl) (m : Maze) (occ : List (Int × Int))
    (rnd : Rng) (k : Nat) (h : e.eaten = true ∧ time ≥ e.respawnAt) (err : Stop)
    (hs : e.spawn m occ rnd k = .error err) :
    e.update time m occ rnd k = .error err := by
  unfold Bug.update
  rw [if_pos h]
  simp only [hs]

/-- The method `spawn` on a constructed maze with an open cell: the cell it settles on. -/
theorem Bug.spawn_spec (b : Bug) {m : Maze} (hm : m.Built) (hopen : ∃ r c, m.isOpen r c = true)
    (occ : List (Int × Int)) (rnd : Rng) (k : Nat) :
    ∃ (j : Nat) (cell : Cell), j < 60 ∧
      m.getRandomPathCell (rnd (k + j)) = some cell ∧
      (∀ i, i < j → ∃ c, m.getRandomPathCell (rnd (k + i)) = some c ∧ (c.row, c.col) ∈ occ) ∧
      (j < 59 → (cell.row, cell.col) ∉ occ) ∧
      m.isOpen cell.row cell.col = true ∧
      ∃ b1, b.spawn m occ rnd k = .ok (b1, (cell.row, cell.col) :: occ, k + j + 2) ∧
        b1.row = cell.row ∧ b1.col = cell.col ∧ b1.eaten = false := by
  obtain ⟨j, cell, hj, hs, hbefore, hfree, hres⟩ := Bug.sampleCell_spec hm hopen occ rnd 59 k
  refine ⟨j, cell, by omega, hs, hbefore, hfree,
    ((Maze.getRandomPathCell_spec hm (rnd (k + j))).1 cell hs).2, ?_⟩
  refine ⟨Bug.updatePosition { b with row := cell.row, col := cell.col, eaten := false,
                                      respawnAt := 0 }, ?_, rfl, rfl, rfl⟩
  unfold Bug.spawn
  simp only [hres]

/-- Opening entries that exist keeps the set of entries. -/
theorem Exact.update {rows cols : Int} {g g1 : Grid} (h : Exact rows cols g) (P : Int → Int → Prop)
    [∀ r c, Decidable (P r c)] (hP : ∀ r c, P r c → 0 ≤ r ∧ r < rows ∧ 0 ≤ c ∧ c < cols)
    (ht : ∀ r c, g1.tile r c = if P r c then some Tile.floor else g.tile r c) :
    Exact rows cols g1 := by
  intro r c
  rw [ht]
  by_cases hp : P r c
  · rw [if_pos hp]
    exact ⟨fun _ => hP r c hp, fun _ => ⟨_, rfl⟩⟩
  · rw [if_neg hp]
    exact h r c

/-- In a framed grid with exactly the entries of `rows × cols`, every row has `cols` entries. -/
theorem Exact.row_length {rows cols : Int} {g : Grid} (h : Exact rows cols g)
    (hF : Framed rows cols g) (hc : 0 ≤ cols) : ∀ row ∈ g, (row.length : Int) = cols := by
  intro row hrow
  obtain ⟨i, hi, hget⟩ := List.getElem_of_mem hrow
  have hlen := hF.len
  have hidx : jsIndex g (i : Int) = some row := by
    rw [jsIndex_eq_some]
    refine ⟨Int.ofNat_nonneg _, ?_⟩
    rw [Int.toNat_ofNat, List.getElem?_eq_getElem hi, hget]
  have htile : ∀ c, g.tile (i : Int) c = jsIndex row c := by
    intro c
    unfold Grid.tile
    rw [hidx]
    rfl
  have hdef : ∀ c : Int, (∃ t, jsIndex row c = some t) ↔ (0 ≤ c ∧ c < cols) := by
    intro c
    rw [← htile, h]
    constructor
    · rintro ⟨-, -, a, b⟩; exact ⟨a, b⟩
    · rintro ⟨a, b⟩; exact ⟨Int.ofNat_nonneg _, by omega, a, b⟩
  by_contra hne
  rcases lt_or_gt_of_ne hne with hlt | hgt
  · have : ∃ t, jsIndex row (row.length : Int) = some t :=
      (hdef _).mpr ⟨Int.ofNat_nonneg _, hlt⟩
    obtain ⟨t, ht⟩ := this
    have := (jsIndex_lt_length ht).2
    omega
  · have hpos : (0 : Int) ≤ cols ∧ cols < (row.length : Int) := ⟨hc, hgt⟩
    obtain ⟨t, ht⟩ := jsIndex_isSome (a := row) hpos.1 hpos.2
    have := ((hdef cols).mp ⟨t, ht⟩).2
    omega

/-- A generated layout with at least two columns has exactly the entries of `rows × cols`. -/
theorem generateLayout_exact {fuel : Nat} {rows cols : Int} {rnd : Rng} {k k4 : Nat} {g4 : Grid}
    (hro : rows % 2 = 1) (hco : cols % 2 = 1) (hc2 : 2 ≤ cols)
    (h : generateLayout fuel rows cols rnd k = .ok (g4, k4)) : Exact rows cols g4 := by
  obtain ⟨g0, g1, g2, k2, g3, h0, h1, h2, h3, h4⟩ := generateLayout_stages h
  obtain ⟨hF1, hr3, hc1, ht1⟩ := init_framed hro hco h0 h1
  have hE1 : Exact rows cols g1 := by
    intro r c
    rw [ht1]
    by_cases hx : r = 1 ∧ c = 1
    · rw [if_pos hx]
      exact ⟨fun _ => by omega, fun _ => ⟨_, rfl⟩⟩
    · rw [if_neg hx]
      by_cases hin : 0 ≤ r ∧ r < rows ∧ 0 ≤ c ∧ c < cols
      · rw [if_pos hin]; exact ⟨fun _ => hin, fun _ => ⟨_, rfl⟩⟩
      · rw [if_neg hin]
        constructor
        · rintro ⟨t, ht⟩; cases ht
        · intro hh; exact absurd hh hin
  have key := carve_induct rows cols rnd
    (fun g stack => (Framed rows cols g ∧ ∀ x ∈ stack, StackCell rows cols x) ∧ Exact rows cols g)
    (fun g cur rest hI _ => ⟨⟨hI.1.1, fun x hx => hI.1.2 x (List.mem_cons_of_mem _ hx)⟩, hI.2⟩)
    (fun g cur rest d hI hd hc => by
      obtain ⟨g1, g2, hw1, hw2, hF, ht, hS2, b1, b2, b3, b4, hlt⟩ :=
        carve_push hI.1.1 (hI.1.2 cur (List.mem_cons_self _ _)) hd hc
      obtain ⟨n1, n2, n3, n4, -⟩ := carvable_iff.mp hc
      refine ⟨g1, g2, hw1, hw2, ⟨⟨hF, ?_⟩, ?_⟩, hlt⟩
      · intro x hx
        rcases List.mem_cons.mp hx with rfl | hx
        · exact hS2
        · exact hI.1.2 x hx
      · refine hI.2.update (fun r c => (r = cur.row + d.dr ∧ c = cur.col + d.dc) ∨
          (r = cur.row + d.dr / 2 ∧ c = cur.col + d.dc / 2)) ?_ ht
        rintro r c (⟨rfl, rfl⟩ | ⟨rfl, rfl⟩) <;> omega)
    fuel g1 [⟨1, 1⟩] k ⟨⟨hF1, stackCell_start hr3⟩, hE1⟩
  obtain ⟨⟨hF2, -⟩, hE2⟩ := key.1 g2 k2 h2
  rw [addLoops_eq hF2] at h3
  obtain ⟨g3', hs3, hF3, hE3⟩ := addLoopsFrom_induct hr3 hco rnd (Exact rows cols)
    (fun g g1 r c hJ _ _ _ _ hw _ ht =>
      hJ.update (fun r1 c1 => r1 = r ∧ c1 = c)
        (by rintro r1 c1 ⟨rfl, rfl⟩; exact (hJ r1 c1).mp ⟨_, hw⟩) ht)
    ((rows * cols * 12) / 100).toNat g2 k2 hF2 hE2
  rw [hs3] at h3
  injection h3 with h3
  injection h3 with h3 _
  subst h3
  obtain ⟨g4', hs4, hF4, ht4⟩ := addRooms_spec hF3
  rw [hs4] at h4
  injection h4 with h4
  subst h4
  exact hE3.update (InRoom rows cols)
    (fun r c hroom => ⟨by unfold InRoom at hroom; omega, by unfold InRoom at hroom; omega,
      by unfold InRoom at hroom; omega, by unfold InRoom at hroom; omega⟩) ht4

theorem tinyMaze_generated : Maze.new 19 3 3 sampleRng 0 = .ok (tinyMaze, 5) := by
  rfl

theorem tinyMaze_sample (dr : Draw) : tinyMaze.getRandomPathCell dr = some ⟨1, 1⟩ := by
  have h0 : dr.floorMul 1 = 0 := by
    have h1 := dr.floorMul_nonneg (k := 1) (by norm_num)
    have h2 := dr.floorMul_lt (k := 1) (by norm_num)
    omega
  have hnav : tinyMaze.pathCells.filter
      (fun cell => (tinyMaze.getNeighbors cell.row cell.col).length > 0) = [] := by
    decide
  unfold Maze.getRandomPathCell
  simp only [hnav, List.length_nil, ne_eq, not_true_eq_false, if_false]
  show jsIndex [Cell.mk 1 1] (dr.floorMul ((1 : Nat) : Int)) = some ⟨1, 1⟩
  rw [Nat.cast_one, h0]
  rfl

/-- On `tinyMaze` a hunter on the open cell never gets a direction: every call relocates it to
the same cell and calls again. -/
theorem tinyMaze_stuck (rnd : Rng) : ∀ (fuel : Nat) (d : Debugger) (k : Nat),
    d.current = ⟨1, 1⟩ →
    Debugger.chooseNextDirection tinyMaze rnd fuel d k = .error .outOfFuel := by
  intro fuel
  induction fuel with
  | zero => intro d k _; rfl
  | succ fuel ih =>
    intro d k hd
    have hopt : tinyMaze.getNeighbors d.current.row d.current.col = [] := by
      rw [hd]; decide
    rw [Debugger.chooseNextDirection_nil tinyMaze rnd fuel d k ⟨1, 1⟩ hopt (tinyMaze_sample _)]
    exact ih _ _ rfl

/-- Reading a property of a truthy value does not throw. -/
theorem JsValue.get_of_truthy {v : JsValue} (h : v.truthy = true) (key : String) :
    ∃ x, v.get key = .ok x := by
  cases v <;> simp [JsValue.truthy] at h <;> exact ⟨_, rfl⟩

/-- The condition of line 4 for a falsy `win`. -/
theorem windowCheck_falsy {win : JsValue} (h : win.truthy = false) :
    windowCheck win = .ok true := by
  unfold windowCheck
  simp [h]

/-- The condition of line 4 for a truthy `win` with a falsy `location`. -/
theorem windowCheck_no_location {win l : JsValue} (h : win.truthy = true)
    (hl : win.get "location" = .ok l) (hlt : l.truthy = false) :
    windowCheck win = .ok true := by
  unfold windowCheck
  simp [h, hl, hlt]

/-- The condition of line 4 for a truthy `win` with a truthy `location`. -/
theorem windowCheck_reload {win l r : JsValue} (h : win.truthy = true)
    (hl : win.get "location" = .ok l) (hlt : l.truthy = true)
    (hr : l.get "reload" = .ok r) :
    windowCheck win = .ok (!r.isFunction) := by
  unfold windowCheck
  simp [h, hl, hlt, hr]

/-- The cases of the condition of line 4. -/
theorem windowCheck_cases (win : JsValue) :
    (win.truthy = false ∧ windowCheck win = .ok true) ∨
    (∃ l, win.truthy = true ∧ win.get "location" = .ok l ∧ l.truthy = false ∧
      windowCheck win = .ok true) ∨
    (∃ l r, win.truthy = true ∧ win.get "location" = .ok l ∧ l.truthy = true ∧
      l.get "reload" = .ok r ∧ windowCheck win = .ok (!r.isFunction)) := by
  cases hw : win.truthy
  · exact Or.inl ⟨rfl, windowCheck_falsy hw⟩
  · obtain ⟨l, hl⟩ := JsValue.get_of_truthy hw "location"
    cases hlt : l.truthy
    · exact Or.inr (Or.inl ⟨l, rfl, hl, hlt, windowCheck_no_location hw hl hlt⟩)
    · obtain ⟨r, hr⟩ := JsValue.get_of_truthy hlt "reload"
      exact Or.inr (Or.inr ⟨l, r, rfl, hl, hlt, hr, windowCheck_reload hw hl hlt hr⟩)

/-- The condition of line 4 never throws. -/
theorem windowCheck_total (win : JsValue) : ∃ b, windowCheck win = .ok b := by
  rcases windowCheck_cases win with ⟨-, h⟩ | ⟨l, -, -, -, h⟩ | ⟨l, r, -, -, -, -, h⟩
  · exact ⟨_, h⟩
  · exact ⟨_, h⟩
  · exact ⟨_, h⟩

/-- A value is a function exactly when it is built by `function`. -/
theorem JsValue.isFunction_iff (v : JsValue) :
    v.isFunction = true ↔ ∃ id props, v = .function id props := by
  cases v <;> simp [JsValue.isFunction]

/-- The condition of line 4 is false exactly for a window that can be asked to reload. -/
theorem windowCheck_false_iff (win : JsValue) :
    windowCheck win = .ok false ↔ ReloadCapable win := by
  unfold ReloadCapable
  rcases windowCheck_cases win with ⟨hw, h⟩ | ⟨l, hw, hl, hlt, h⟩ | ⟨l, r, hw, hl, hlt, hr, h⟩
  · rw [h, hw]
    constructor
    · intro e; cases e
    · rintro ⟨e, -⟩; cases e
  · rw [h]
    constructor
    · intro e; cases e
    · rintro ⟨-, l1, id, props, e1, e2, -⟩
      rw [hl] at e1
      cases e1
      rw [hlt] at e2
      cases e2
  · rw [h]
    constructor
    · intro e
      have hf : r.isFunction = true := by
        cases hq : r.isFunction
        · rw [hq] at e; cases e
        · rfl
      obtain ⟨id, props, rfl⟩ := (JsValue.isFunction_iff r).1 hf
      exact ⟨hw, l, id, props, hl, hlt, hr⟩
    · rintro ⟨-, l1, id, props, e1, -, e3⟩
      rw [hl] at e1
      cases e1
      rw [hr] at e3
      cases e3
      rfl

/-- The condition of line 4 is true exactly when `win` is falsy, `win.location` is falsy or
`win.location.reload` is not a function. -/
theorem windowCheck_true_iff (win : JsValue) :
    windowCheck win = .ok true ↔
      (win.truthy = false ∨ (∃ l, win.get "location" = .ok l ∧ l.truthy = false) ∨
        ∃ l r, win.get "location" = .ok l ∧ l.get "reload" = .ok r ∧ r.isFunction = false) := by
  rcases windowCheck_cases win with ⟨hw, h⟩ | ⟨l, hw, hl, hlt, h⟩ | ⟨l, r, hw, hl, hlt, hr, h⟩
  · exact ⟨fun _ => Or.inl hw, fun _ => h⟩
  · exact ⟨fun _ => Or.inr (Or.inl ⟨l, hl, hlt⟩), fun _ => h⟩
  · rw [h]
    constructor
    · intro e
      refine Or.inr (Or.inr ⟨l, r, hl, hr, ?_⟩)
      cases hq : r.isFunction
      · rfl
      · rw [hq] at e; cases e
    · rintro (e | ⟨l1, e1, e2⟩ | ⟨l1, r1, e1, e2, e3⟩)
      · rw [hw] at e; cases e
      · rw [hl] at e1
        cases e1
        rw [hlt] at e2
        cases e2
      · rw [hl] at e1
        cases e1
        rw [hr] at e2
        cases e2
        rw [e3]
        rfl

/-- The delay is the argument, or the default when the argument is `undefined`. -/
theorem defaultArg_interval (intervalMs : JsValue) :
    ∃ delay, defaultArg intervalMs (.ok (.number DEFAULT_REFRESH_INTERVAL)) = .ok delay ∧
      (intervalMs ≠ .undefined → delay = intervalMs) ∧
      (intervalMs = .undefined → delay = .number DEFAULT_REFRESH_INTERVAL) := by
  cases intervalMs <;>
    first
    | exact ⟨_, rfl, fun _ => rfl, fun h => by cases h⟩
    | exact ⟨_, rfl, fun h => absurd rfl h, fun _ => rfl⟩

/-- An invalid window: the first configuration error, nothing called. -/
theorem setupAutoRefresh_bad_window {host : Host} {win intervalMs scheduler w s : JsValue}
    (hw : defaultArg win (lookupGlobal "window" host.window) = .ok w)
    (hs : defaultArg scheduler (lookupGlobal "setInterval" host.setInterval) = .ok s)
    (hc : windowCheck w = .ok true) :
    setupAutoRefresh host win intervalMs scheduler = ⟨[], .error .requiresWindow⟩ := by
  obtain ⟨delay, hd, -⟩ := defaultArg_interval intervalMs
  unfold setupAutoRefresh
  rw [hw, hd, hs]
  simp only [hc]

/-- A valid window and a scheduler that is not a function: the second configuration error,
nothing called. -/
theorem setupAutoRefresh_bad_scheduler {host : Host} {win intervalMs scheduler w s : JsValue}
    (hw : defaultArg win (lookupGlobal "window" host.window) = .ok w)
    (hs : defaultArg scheduler (lookupGlobal "setInterval" host.setInterval) = .ok s)
    (hc : windowCheck w = .ok false) (hf : s.isFunction = false) :
    setupAutoRefresh host win intervalMs scheduler = ⟨[], .error .requiresScheduler⟩ := by
  obtain ⟨delay, hd, -⟩ := defaultArg_interval intervalMs
  unfold setupAutoRefresh
  rw [hw, hd, hs]
  simp only [hc]
  cases s <;> first | rfl | simp [JsValue.isFunction] at hf

/-- A valid window and a scheduler function: the scheduler is called with the callback and the
delay, and its result is the result. -/
theorem setupAutoRefresh_call {host : Host} {win intervalMs scheduler w delay : JsValue}
    {id : Nat} {props : List (String × JsValue)}
    (hw : defaultArg win (lookupGlobal "window" host.window) = .ok w)
    (hd : defaultArg intervalMs (.ok (.number DEFAULT_REFRESH_INTERVAL)) = .ok delay)
    (hs : defaultArg scheduler (lookupGlobal "setInterval" host.setInterval) =
      .ok (.function id props))
    (hc : windowCheck w = .ok false) :
    setupAutoRefresh host win intervalMs scheduler =
      ⟨.scheduled id delay :: (host.schedule id (refreshCallback host w) delay).toRun.trace,
        (host.schedule id (refreshCallback host w) delay).toRun.outcome⟩ := by
  unfold setupAutoRefresh
  rw [hw, hd, hs]
  simp only [hc]

/-- The result of a called host function is a value or a foreign error. -/
theorem Effect.toRun_outcome (e : Effect) :
    (∀ v, e.outcome = .ok v → e.toRun.outcome = .ok v) ∧
      (∀ v, e.outcome = .error v → e.toRun.outcome = .error (.foreign v)) := by
  unfold Effect.toRun
  constructor <;> intro v h <;> simp only [h]

/-- A defined argument is taken as it is. -/
theorem defaultArg_defined {v : JsValue} (h : v ≠ .undefined) (dflt : Except Thrown JsValue) :
    defaultArg v dflt = .ok v := by
  cases v <;> first | rfl | exact absurd rfl h

/-- The callback on a window that can be asked to reload: one call of `reload`, then what
`reload` does. -/
theorem refreshCallback_spec (host : Host) {win location : JsValue} {id : Nat}
    {props : List (String × JsValue)} (h1 : win.get "location" = .ok location)
    (h2 : location.get "reload" = .ok (.function id props)) :
    (refreshCallback host win).trace = .reloaded id :: (host.invoke id).trace ∧
      (∀ v, (host.invoke id).outcome = .ok v →
        (refreshCallback host win).outcome = .ok .undefined) ∧
      (∀ v, (host.invoke id).outcome = .error v →
        (refreshCallback host win).outcome = .error (.foreign v)) := by
  unfold refreshCallback
  simp only [h1, h2]
  refine ⟨rfl, ?_, ?_⟩
  · intro v hv
    simp only [((host.invoke id).toRun_outcome).1 v hv]
  · intro v hv
    simp only [((host.invoke id).toRun_outcome).2 v hv]

/-- Once progress is a value that subtracting 1 does not change, the loop of `update` does not
end: every iteration leaves progress as it is. -/
theorem Debugger.updateLoop_stuck {m : Maze}
    (hnb : ∀ r c, m.isOpen r c = true → m.getNeighbors r c ≠ []) (time : Dbl)
    (cb : Option Nat) (rnd : Rng) (cf : Nat) (P : Dbl) (hP1 : P ≥ 1) (hP : P - 1 = P) :
    ∀ (fuel : Nat) (d : Debugger) (bugs : List Bug) (ev : List Point) (k : Nat),
      fuel ≤ cf → d.progress = P → m.isOpen d.target.row d.target.col = true →
      Debugger.updateLoop m time cb rnd cf fuel d bugs ev k = .error .outOfFuel := by
  intro fuel
  induction fuel with
  | zero =>
    intro d bugs ev k _ hp _
    have hge : d.progress ≥ 1 := by rw [hp]; exact hP1
    rw [Debugger.updateLoop]
    simp only [hge, if_true]
  | succ fuel ih =>
    intro d bugs ev k hcf hp ht
    have hge : d.progress ≥ 1 := by rw [hp]; exact hP1
    obtain ⟨cf1, rfl⟩ : ∃ c, cf = c + 1 := ⟨cf - 1, by omega⟩
    obtain ⟨c1, c2, c3, c4, c5, c6, c7, c8⟩ := Debugger.consume_spec time cb rnd bugs
      { d with progress := d.progress - 1, current := d.target } k
    have hne : m.getNeighbors
        (Debugger.consume time cb rnd
          { d with progress := d.progress - 1, current := d.target } bugs k).1.current.row
        (Debugger.consume time cb rnd
          { d with progress := d.progress - 1, current := d.target } bugs k).1.current.col
        ≠ [] := by
      rw [c1]
      exact hnb _ _ ht
    obtain ⟨o, os, hos⟩ := List.exists_cons_of_ne_nil hne
    have hch := Debugger.chooseNextDirection_cons m rnd cf1
      (Debugger.consume time cb rnd
        { d with progress := d.progress - 1, current := d.target } bugs k).1
      (Debugger.consume time cb rnd
        { d with progress := d.progress - 1, current := d.target } bugs k).2.2.2 o os hos
    rw [Debugger.updateLoop_step m time cb rnd (cf1 + 1) fuel d bugs ev k hge _ _ hch]
    apply ih
    · omega
    · show (Debugger.consume time cb rnd
        { d with progress := d.progress - 1, current := d.target } bugs k).1.progress = P
      rw [c3]
      show d.progress - 1 = P
      rw [hp, hP]
    · have hnd : (o :: os).Nodup := by rw [← hos]; exact m.getNeighbors_nodup _ _
      obtain ⟨-, hmem, -⟩ := pickDirection_spec o os hnd
        (Debugger.consume time cb rnd
          { d with progress := d.progress - 1, current := d.target } bugs k).1.direction
        (rnd (Debugger.consume time cb rnd
          { d with progress := d.progress - 1, current := d.target } bugs k).2.2.2)
      rw [← hos] at hmem
      exact (Maze.neighbor_step hmem).1

theorem sampleMaze_neighbours (r c : Int) (h : sampleMaze.isOpen r c = true) :
    sampleMaze.getNeighbors r c ≠ [] := by
  have hmem := (Maze.mem_pathCells sampleMaze_built ⟨r, c⟩).2 h
  have hall : ∀ cell ∈ sampleMaze.pathCells,
      sampleMaze.getNeighbors cell.row cell.col ≠ [] := by decide
  exact hall _ hmem

theorem bigDelta_stuck (fuel : Nat) :
    Debugger.update fuel sampleHunter sampleMaze bigDelta [] 0 none sampleRng 0 =
      .error .outOfFuel := by
  apply Debugger.update_error
  exact Debugger.updateLoop_stuck sampleMaze_neighbours 0 none sampleRng fuel
    (sampleHunter.advance bigDelta).progress (by decide) (by decide) fuel _ _ _ _ le_rfl rfl
    (by decide)

namespace Dbl

theorem add_ne_nan {a b : Dbl} (ha : a.IsFinite) (hb : b.IsFinite) : a + b ≠ .nan := by
  obtain ⟨M, E, r, -⟩ := add_eq_round ha hb
  rw [r]
  exact round_ne_nan M E

theorem isFinite_pow53 : (9007199254740992 : Dbl).IsFinite := by decide

theorem toRat_pow53 : (9007199254740992 : Dbl).toRat = 2 ^ (53 : Nat) := by
  have e : (9007199254740992 : Dbl) = .finite 4503599627370496 1 := rfl
  rw [e]
  simp only [toRat]
  norm_num

end Dbl

/-- The term `Math.random() * 6` of `markEaten` is a finite value of `[0, 6]`. -/
theorem Draw.val_mul_six (d : Draw) :
    (d.val * 6).IsFinite ∧ (0 : Dbl) ≤ d.val * 6 ∧ d.val * 6 ≤ 6 := by
  have h0 : (0 : Dbl) ≤ d.val * 6 :=
    Dbl.mul_nonneg_of d.val_isFinite Dbl.isFinite_six d.val_nonneg (by decide)
  have h6 : d.val * 6 ≤ 6 := by
    have h := Dbl.mul_le_mul_of_toRat d.val_isFinite Dbl.isFinite_six Dbl.isFinite_one
      Dbl.isFinite_six (by
        have := (Dbl.lt_iff_toRat d.val_isFinite Dbl.isFinite_one).1 d.val_lt_one
        rw [Dbl.toRat_one] at this ⊢
        rw [Dbl.toRat_six]
        linarith)
    have e : (1 : Dbl) * 6 = 6 := rfl
    rwa [e] at h
  exact ⟨Dbl.isFinite_of_between Dbl.isFinite_zero Dbl.isFinite_six (Dbl.mul_wf _ _) h0 h6, h0, h6⟩

/-! ## The claims -/

/-- C1. For odd `rows ≥ 5`, odd `cols ≥ 5` and every stream of draws, whenever `new Maze(rows, cols)`
returns, every open cell of the maze is reachable from every other open cell through 4-adjacent
open cells; and it does return, with such a maze, once the fuel covers `2 * rows * cols + 1`
iterations of the carving loop (for a column count that `Array(cols)` accepts). -/
theorem maze_fully_connected (rows cols : Int) (hr : 5 ≤ rows) (hc : 5 ≤ cols)
    (hro : rows % 2 = 1) (hco : cols % 2 = 1) (rnd : Rng) (k : Nat) :
    (∀ fuel m k1, Maze.new fuel rows cols rnd k = .ok (m, k1) → m.Connected) ∧
    (cols < 4294967296 → ∀ fuel, 2 * (rows.toNat * cols.toNat) + 1 ≤ fuel →
      ∃ m k1, Maze.new fuel rows cols rnd k = .ok (m, k1) ∧ m.Connected) := by
  have part1 : ∀ fuel m k1, Maze.new fuel rows cols rnd k = .ok (m, k1) → m.Connected := by
    intro fuel m k1 h
    have hF := Maze.new_framed h
    obtain ⟨hg, e1, e2, -⟩ := Maze.new_eq h
    rw [forceOdd_of_odd hro] at hg e1
    rw [forceOdd_of_odd hco] at hg e2
    have hconn := generateLayout_rootConn hr hc hro hco hg
    rw [← e1, ← e2] at hconn
    intro a b ha hb
    have hw := hconn.all a b ((Maze.isOpen_iff_opn hF a).mp ha) ((Maze.isOpen_iff_opn hF b).mp hb)
    exact hw.mono (fun x hx => (Maze.isOpen_iff_opn hF x).mpr hx)
  refine ⟨part1, ?_⟩
  intro hc2 fuel hfuel
  obtain ⟨g4, k4, hg⟩ := generateLayout_total (by omega) hro (by omega) hco hc2 rnd k fuel hfuel
  have hnew : Maze.new fuel rows cols rnd k =
      .ok (⟨rows, cols, g4, collectPathCells rows cols g4⟩, k4) := by
    unfold Maze.new
    rw [forceOdd_of_odd hro, forceOdd_of_odd hco, hg]
  exact ⟨_, _, hnew, part1 _ _ _ hnew⟩

theorem maze_fully_connected_witness :
    ∃ m k1, Maze.new 51 5 5 sampleRng 0 = .ok (m, k1) ∧ m.Connected :=
  (maze_fully_connected 5 5 (by decide) (by decide) (by decide) (by decide) sampleRng 0).2
    (by decide) 51 (by decide)

/-- C2. In every maze returned by `new Maze(rows, cols)`, whatever the arguments and the draws,
every cell of row `0`, of row `rows - 1`, of column `0` and of column `cols - 1` is a wall. -/
theorem maze_border_blocked (fuel : Nat) (rows cols : Int) (rnd : Rng) (k : Nat) (m : Maze)
    (k1 : Nat) (h : Maze.new fuel rows cols rnd k = .ok (m, k1)) (r c : Int)
    (hr0 : 0 ≤ r) (hr1 : r < m.rows) (hc0 : 0 ≤ c) (hc1 : c < m.cols)
    (hb : r = 0 ∨ r = m.rows - 1 ∨ c = 0 ∨ c = m.cols - 1) :
    m.walls.tile r c = some Tile.wall := by
  rcases (Maze.new_framed h).cell r c hr0 hr1 hc0 hc1 with hw | hf
  · exact hw
  · omega

theorem maze_border_blocked_witness :
    Maze.new 51 5 5 sampleRng 0 = .ok (sampleMaze, 27) ∧
      sampleMaze.walls.tile 4 2 = some Tile.wall :=
  ⟨sampleMaze_generated, maze_border_blocked 51 5 5 sampleRng 0 sampleMaze 27 sampleMaze_generated
    4 2 (by decide) (by decide) (by decide) (by decide) (by decide)⟩


/-- C3. On every maze returned by `new Maze(rows, cols)` and for every draw,
`getRandomPathCell` never returns a blocked cell, and when some open cell has an open neighbour it
returns an element of `pathCells` that is open and has a non-empty `getNeighbors`. -/
theorem getRandomPathCell_open (fuel : Nat) (rows cols : Int) (rnd : Rng) (k : Nat) (m : Maze)
    (k1 : Nat) (h : Maze.new fuel rows cols rnd k = .ok (m, k1)) (d : Draw) :
    (∀ cell, m.getRandomPathCell d = some cell → m.isOpen cell.row cell.col = true) ∧
    ((∃ r c, m.isOpen r c = true ∧ m.getNeighbors r c ≠ []) →
      ∃ cell, m.getRandomPathCell d = some cell ∧ cell ∈ m.pathCells ∧
        m.isOpen cell.row cell.col = true ∧ m.getNeighbors cell.row cell.col ≠ []) :=
  ⟨fun cell hc => ((Maze.getRandomPathCell_spec (Maze.new_built h) d).1 cell hc).2,
    (Maze.getRandomPathCell_spec (Maze.new_built h) d).2⟩

theorem getRandomPathCell_open_witness :
    Maze.new 51 5 5 sampleRng 0 = .ok (sampleMaze, 27) ∧
      ∃ cell, sampleMaze.getRandomPathCell (sampleRng 4) = some cell ∧
        cell ∈ sampleMaze.pathCells ∧ sampleMaze.isOpen cell.row cell.col = true ∧
        sampleMaze.getNeighbors cell.row cell.col ≠ [] :=
  ⟨sampleMaze_generated,
    (getRandomPathCell_open 51 5 5 sampleRng 0 sampleMaze 27 sampleMaze_generated (sampleRng 4)).2
      ⟨1, 1, by decide, by decide⟩⟩

/-- C10, the claim as stated fails: `new Maze(3, 0)` has a non-positive column count and returns
a maze (one column, no path cell) instead of throwing. -/
theorem maze_new_nonpositive_counterexample :
    (0 : Int) ≤ 0 ∧ Maze.new 7 3 0 sampleRng 0 = .ok (degenerateMaze, 3) ∧
      ¬ ∃ e, Maze.new 7 3 0 sampleRng 0 = .error e := by
  refine ⟨le_refl _, rfl, ?_⟩
  rintro ⟨e, he⟩
  have h : Maze.new 7 3 0 sampleRng 0 = .ok (degenerateMaze, 3) := rfl
  rw [h] at he
  cases he

/-- C10, amended. `new Maze(rows, cols)` throws (a `TypeError` or a `RangeError`) for every
`rows ≤ 0` and for every `cols < 0`; for `cols = 0` and `rows ≥ 2` it returns a maze with one
column and no path cell. -/
theorem maze_new_malformed (fuel : Nat) (rows cols : Int) (rnd : Rng) (k : Nat) :
    ((rows ≤ 0 ∨ cols < 0) →
      ∃ e, Maze.new fuel rows cols rnd k = .error e ∧ e.isThrow = true) ∧
    (cols = 0 → 2 ≤ rows → 2 * (forceOdd rows).toNat + 1 ≤ fuel →
      ∃ m k1, Maze.new fuel rows cols rnd k = .ok (m, k1) ∧ m.cols = 1 ∧ m.pathCells = []) := by
  constructor
  · intro h
    have h' : forceOdd rows ≤ 1 ∨ forceOdd cols < 0 := by
      unfold forceOdd
      rcases h with h | h
      · left; split_ifs <;> omega
      · right; split_ifs <;> omega
    obtain ⟨e, he, ht⟩ := generateLayout_throws fuel _ _ rnd k h'
    exact ⟨e, by simp only [Maze.new, he], ht⟩
  · intro hc hr hfuel
    subst hc
    have hco : forceOdd 0 = 1 := by decide
    have hr3 : 3 ≤ forceOdd rows := by
      unfold forceOdd; split_ifs <;> omega
    obtain ⟨g4, k4, hg⟩ := generateLayout_total hr3 (forceOdd_odd rows) (le_refl 1) (by decide)
      (by decide) rnd k fuel (by simpa using hfuel)
    have hF := generateLayout_framed (forceOdd_odd rows) (by decide) hg
    refine ⟨⟨forceOdd rows, 1, g4, collectPathCells (forceOdd rows) 1 g4⟩, k4, ?_, rfl, ?_⟩
    · simp only [Maze.new, hco, hg]
    · apply List.eq_nil_iff_forall_not_mem.mpr
      intro x hx
      obtain ⟨a1, a2, a3, a4, a5⟩ := mem_collectPathCells.mp hx
      rcases hF.cell x.row x.col a1 a2 a3 a4 with hw | hf
      · exact a5 hw
      · omega

theorem maze_new_malformed_witness :
    (∃ e, Maze.new 0 0 0 sampleRng 0 = .error e ∧ e.isThrow = true) ∧
      (∃ m k1, Maze.new 7 3 0 sampleRng 0 = .ok (m, k1) ∧ m.cols = 1 ∧ m.pathCells = []) :=
  ⟨(maze_new_malformed 0 0 0 sampleRng 0).1 (Or.inl (by decide)),
    (maze_new_malformed 7 3 0 sampleRng 0).2 rfl (by decide) (by decide)⟩

/-- C4, the claim as stated fails. First, for the hunter `nearHunter` (progress
0.9999999999999998, speed 2.8) and the frame time `5 * 2^-56` the sum
`progress + delta * speed` is below 1, but in binary64 it is rounded to 1, and `update` moves
the hunter to the next cell. Second, for the frame time `1e17` the loop of `update` never
ends, since subtracting 1 from the progress `2.8e17` does not change it: `update` returns for
no amount of fuel. -/
theorem debugger_update_counterexample :
    ((0 : Dbl) ≤ tinyDelta ∧ (0 : Dbl) ≤ nearHunter.progress ∧ nearHunter.progress < 1 ∧
      nearHunter.progress.toRat + tinyDelta.toRat * nearHunter.speed.toRat < 1 ∧
      nearHunter.progress + tinyDelta * nearHunter.speed = 1 ∧
      ∃ d1 bugs1 ev k1,
        Debugger.update 2 nearHunter sampleMaze tinyDelta [] 0 none sampleRng 0 =
          .ok (d1, bugs1, ev, k1) ∧ d1.current ≠ nearHunter.current) ∧
    ((0 : Dbl) ≤ bigDelta ∧ ∀ fuel,
      Debugger.update fuel sampleHunter sampleMaze bigDelta [] 0 none sampleRng 0 =
        .error .outOfFuel) := by
  refine ⟨⟨by decide, by decide, by decide, ?_, rfl, _, _, _, _, rfl, by decide⟩,
    by decide, bigDelta_stuck⟩
  have e1 : nearHunter.progress = .finite 9007199254740990 (-53) := rfl
  have e2 : tinyDelta = .finite 5629499534213120 (-106) := rfl
  have e3 : nearHunter.speed = .finite 6305039478318694 (-51) := rfl
  rw [e1, e2, e3]
  simp only [Dbl.toRat]
  rw [zpow_neg, zpow_neg, zpow_neg]
  norm_num

/-- C4, amended. For a hunter whose progress is in `[0, 1)` and whose target is an open cell
4-adjacent to its current cell, on a constructed maze in which some open cell has an open
neighbour, for a finite `delta ≥ 0` and a finite speed `≥ 0` (2.8 in the program), all
arithmetic being that of binary64: `update` leaves `current` unchanged when
`progress + delta * speed < 1`; when `progress + delta * speed` is below `2^53` it returns once
the fuel covers the `⌊progress + delta * speed⌋` iterations of its loop; and whenever it
returns, progress is in `[0, 1)` and the target is an open cell 4-adjacent to the current
cell. -/
theorem debugger_update_keeps_track (m : Maze) (hm : m.Built)
    (hnav : ∃ r c, m.isOpen r c = true ∧ m.getNeighbors r c ≠ []) (d : Debugger)
    (hpw : d.progress.Wf) (hp0 : 0 ≤ d.progress) (hp1 : d.progress < 1)
    (ht : m.isOpen d.target.row d.target.col = true) (hadj : Adjacent d.current d.target)
    (hsf : d.speed.IsFinite) (hs : 0 ≤ d.speed) (delta : Dbl) (hdf : delta.IsFinite)
    (hd : 0 ≤ delta) (bugs : List Bug) (time : Dbl) (cb : Option Nat) (rnd : Rng) (k : Nat) :
    (d.progress + delta * d.speed < 1 → ∀ fuel, ∃ d1 bugs1 ev k1,
      Debugger.update fuel d m delta bugs time cb rnd k = .ok (d1, bugs1, ev, k1) ∧
        d1.current = d.current) ∧
    (d.progress + delta * d.speed < 9007199254740992 →
      ∀ fuel, ⌊(d.progress + delta * d.speed).toRat⌋₊ + 2 ≤ fuel → ∃ d1 bugs1 ev k1,
        Debugger.update fuel d m delta bugs time cb rnd k = .ok (d1, bugs1, ev, k1) ∧
          0 ≤ d1.progress ∧ d1.progress < 1 ∧
          m.isOpen d1.target.row d1.target.col = true ∧ Adjacent d1.current d1.target) ∧
    (∀ fuel d1 bugs1 ev k1,
      Debugger.update fuel d m delta bugs time cb rnd k = .ok (d1, bugs1, ev, k1) →
        0 ≤ d1.progress ∧ d1.progress < 1 ∧
        m.isOpen d1.target.row d1.target.col = true ∧ Adjacent d1.current d1.target) := by
  have hpf : d.progress.IsFinite := Dbl.isFinite_of_lt hp0 hpw Dbl.isFinite_one hp1
  have hstart : (0 : Dbl) ≤ d.progress + delta * d.speed :=
    Dbl.add_nonneg_of hpw (Dbl.mul_wf _ _) hp0 (Dbl.mul_nonneg_of hdf hsf hd hs)
  have hstartw : (d.progress + delta * d.speed).Wf := Dbl.add_wf _ _
  have hpost : ∀ fuel d1 bugs1 ev k1,
      Debugger.update fuel d m delta bugs time cb rnd k = .ok (d1, bugs1, ev, k1) →
        0 ≤ d1.progress ∧ d1.progress < 1 ∧
        m.isOpen d1.target.row d1.target.col = true ∧ Adjacent d1.current d1.target := by
    intro fuel d1 bugs1 ev k1 h
    cases hloop : Debugger.updateLoop m time cb rnd fuel fuel (d.advance delta) bugs [] k with
    | error e =>
      rw [Debugger.update_error fuel d m delta bugs time cb rnd k e hloop] at h
      cases h
    | ok p =>
      obtain ⟨d2, bugs2, ev2, k2⟩ := p
      rw [Debugger.update_eq fuel d m delta bugs time cb rnd k d2 bugs2 ev2 k2 hloop] at h
      simp only [Except.ok.injEq, Prod.mk.injEq] at h
      obtain ⟨rfl, -⟩ := h
      obtain ⟨q1, q2, q3⟩ := Debugger.updateLoop_post m time cb rnd fuel fuel (d.advance delta)
        bugs [] k d2 bugs2 ev2 k2 hstart hstartw ⟨ht, hadj⟩ hloop
      obtain ⟨c1, c2, c3, -⟩ := Debugger.consume_spec time cb rnd bugs2 d2.updatePosition k2
      rw [c1, c2, c3]
      exact ⟨q1, q2, q3.1, q3.2⟩
  refine ⟨?_, ?_, hpost⟩
  · intro hlt fuel
    have hloop := Debugger.updateLoop_idle m time cb rnd fuel fuel (d.advance delta) bugs [] k
      (Dbl.not_one_le_of_lt hlt)
    refine ⟨_, _, _, _, Debugger.update_eq fuel d m delta bugs time cb rnd k _ _ _ _ hloop, ?_⟩
    obtain ⟨c1, -⟩ := Debugger.consume_spec time cb rnd bugs
      (d.advance delta).updatePosition k
    rw [c1]
    rfl
  · intro hlt fuel hfuel
    have hfin : (d.progress + delta * d.speed).IsFinite :=
      Dbl.isFinite_of_lt hstart hstartw Dbl.isFinite_pow53 hlt
    have hb : (d.progress + delta * d.speed).toRat < 2 ^ (53 : Nat) := by
      have := (Dbl.lt_iff_toRat hfin Dbl.isFinite_pow53).1 hlt
      rwa [Dbl.toRat_pow53] at this
    obtain ⟨⟨d2, bugs2, ev2, k2⟩, hloop⟩ := Debugger.updateLoop_total hm hnav time cb rnd fuel
      (by omega) fuel (d.advance delta) bugs [] k hfin ((Dbl.zero_le_iff hfin).1 hstart) hb (by
        show ⌊(d.progress + delta * d.speed).toRat⌋₊ ≤ fuel
        omega)
    have hupd := Debugger.update_eq fuel d m delta bugs time cb rnd k d2 bugs2 ev2 k2 hloop
    exact ⟨_, _, _, _, hupd, hpost fuel _ _ _ _ hupd⟩

theorem debugger_update_keeps_track_witness :
    ∃ d1 bugs1 ev k1,
      Debugger.update 6 sampleHunter sampleMaze (Dbl.ofRat 5 10) [] 0 none sampleRng 0
        = .ok (d1, bugs1, ev, k1) ∧
      0 ≤ d1.progress ∧ d1.progress < 1 ∧
      sampleMaze.isOpen d1.target.row d1.target.col = true ∧ Adjacent d1.current d1.target :=
  (debugger_update_keeps_track sampleMaze sampleMaze_built ⟨1, 1, by decide, by decide⟩
    sampleHunter (by decide) (by decide) (by decide) (by decide)
    (Or.inr ⟨rfl, Or.inr rfl⟩) (by decide) (by decide) (Dbl.ofRat 5 10) (by decide) (by decide)
    [] 0 none sampleRng 0).2.1 (by decide) 6 (by
      have e : sampleHunter.progress + Dbl.ofRat 5 10 * sampleHunter.speed =
          .finite 6305039478318694 (-52) := rfl
      rw [e]
      have : ⌊(Dbl.finite 6305039478318694 (-52)).toRat⌋₊ ≤ 4 := by
        apply Nat.floor_le_of_le
        simp only [Dbl.toRat]
        rw [zpow_neg]
        norm_num
      omega)

/-- C5. In `chooseNextDirection`, when the current cell has two or more open neighbours the chosen
direction is the entry, at the drawn index, of the open-neighbour directions with the reverse of
the previous direction removed: it is an open-neighbour direction and not the reverse. When the
cell has exactly one open neighbour, that direction is chosen, reverse or not. -/
theorem chooseNextDirection_avoids_reverse (m : Maze) (rnd : Rng) (fuel : Nat) (d : Debugger)
    (k : Nat) :
    (2 ≤ (m.getNeighbors d.current.row d.current.col).length →
      ∃ dir, Debugger.chooseNextDirection m rnd (fuel + 1) d k =
          .ok ({ d with direction := dir,
                        target := ⟨d.current.row + dir.dy, d.current.col + dir.dx⟩ }, k + 1) ∧
        jsIndex ((m.getNeighbors d.current.row d.current.col).filter
            (fun x => !(decide (x.dx = -d.direction.dx ∧ x.dy = -d.direction.dy))))
          ((rnd k).floorMul (((m.getNeighbors d.current.row d.current.col).filter
            (fun x => !(decide (x.dx = -d.direction.dx ∧ x.dy = -d.direction.dy)))).length : Int))
          = some dir ∧
        dir ∈ m.getNeighbors d.current.row d.current.col ∧
        ¬ (dir.dx = -d.direction.dx ∧ dir.dy = -d.direction.dy)) ∧
    (∀ o, m.getNeighbors d.current.row d.current.col = [o] →
      Debugger.chooseNextDirection m rnd (fuel + 1) d k =
        .ok ({ d with direction := o,
                      target := ⟨d.current.row + o.dy, d.current.col + o.dx⟩ }, k + 1)) := by
  constructor
  · intro h2
    cases hopt : m.getNeighbors d.current.row d.current.col with
    | nil => rw [hopt] at h2; simp at h2
    | cons o os =>
      have hnd : (o :: os).Nodup := by rw [← hopt]; exact m.getNeighbors_nodup _ _
      have hlen : 1 < (o :: os).length := by rw [hopt] at h2; omega
      have hkeep : keepDirection (o :: os) d.direction =
          (fun x => !(decide (x.dx = -d.direction.dx ∧ x.dy = -d.direction.dy))) := by
        funext x; exact keepDirection_many hlen _ _
      obtain ⟨p1, p2, p3⟩ := pickDirection_spec o os hnd d.direction (rnd k)
      rw [hkeep] at p1 p3
      refine ⟨pickDirection o os d.direction (rnd k),
        Debugger.chooseNextDirection_cons m rnd fuel d k o os hopt, p1, p2, ?_⟩
      intro hneg
      simp [hneg.1, hneg.2] at p3
  · intro o hopt
    rw [Debugger.chooseNextDirection_cons m rnd fuel d k o [] hopt]
    have e : pickDirection o [] d.direction (rnd k) = o := by
      unfold pickDirection
      cases h : jsIndex (List.filter (keepDirection [o] d.direction) [o])
          ((rnd k).floorMul ((List.filter (keepDirection [o] d.direction) [o]).length : Int)) with
      | none => rfl
      | some x =>
        have := (List.mem_filter.mp (jsIndex_mem h)).1
        simp only [List.mem_singleton] at this
        simp [this]
    rw [e]

theorem chooseNextDirection_avoids_reverse_witness :
    ∃ dir, Debugger.chooseNextDirection sampleMaze sampleRng 1 sampleHunter 0 =
        .ok ({ sampleHunter with
            direction := dir,
            target := ⟨sampleHunter.current.row + dir.dy, sampleHunter.current.col + dir.dx⟩ },
          1) ∧
      jsIndex ((sampleMaze.getNeighbors sampleHunter.current.row sampleHunter.current.col).filter
          (fun x => !(decide (x.dx = -sampleHunter.direction.dx ∧
            x.dy = -sampleHunter.direction.dy))))
        ((sampleRng 0).floorMul
          (((sampleMaze.getNeighbors sampleHunter.current.row sampleHunter.current.col).filter
            (fun x => !(decide (x.dx = -sampleHunter.direction.dx ∧
              x.dy = -sampleHunter.direction.dy)))).length : Int))
        = some dir ∧
      dir ∈ sampleMaze.getNeighbors sampleHunter.current.row sampleHunter.current.col ∧
      ¬ (dir.dx = -sampleHunter.direction.dx ∧ dir.dy = -sampleHunter.direction.dy) :=
  (chooseNextDirection_avoids_reverse sampleMaze sampleRng 0 sampleHunter 0).1 (by decide)

/-- C6, the claim as stated fails: the hunter `edgeHunter` has tile size 36, so the capture
radius is `0.45 * 36 = 16.2`; the prey `edgePrey` is at the Euclidean distance
`16.199999999999999289…` (the binary64 value nearest to 16.2), which is within the radius, and
it is not captured: in binary64 the distance `Math.sqrt(dx * dx + dy * dy)` and the radius
`36 * 0.45` are the same value, so `distance < radius` is false. -/
theorem consume_marks_counterexample :
    (edgePrey.position.x.toRat - edgeHunter.position.x.toRat) ^ 2 +
        (edgePrey.position.y.toRat - edgeHunter.position.y.toRat) ^ 2 <
      ((45 / 100 : ℚ) * edgeHunter.tileSize.toRat) ^ 2 ∧
    edgePrey.eaten = false ∧ edgeHunter.withinRadius edgePrey = false ∧
    (Debugger.consume 0 none sampleRng edgeHunter [edgePrey] 0).2.1 = [edgePrey] := by
  refine ⟨?_, rfl, rfl, rfl⟩
  have e1 : edgePrey.position.x = .finite 0 (-1074) := rfl
  have e2 : edgePrey.position.y = .finite 4559894622712627 (-48) := rfl
  have e3 : edgeHunter.position.x = .finite 0 (-1074) := rfl
  have e4 : edgeHunter.position.y = .finite 0 (-1074) := rfl
  have e5 : edgeHunter.tileSize = .finite 5066549580791808 (-47) := rfl
  rw [e1, e2, e3, e4, e5]
  simp only [Dbl.toRat]
  rw [zpow_neg, zpow_neg]
  norm_num

/-- C6, amended. For every hunter, time, callback, stream and list of prey, `consume` returns
the prey in the same order, each with `eaten` set to `eaten || withinRadius`, its cell and
position kept, and left entirely unchanged when it was eaten already or is out of reach: one
capture does not stop the later prey from being checked. `withinRadius` is the comparison that
the source makes in binary64 arithmetic: the distance `Math.sqrt(dx * dx + dy * dy)`, each
operation rounded, is smaller than the radius `tileSize * 0.45`, rounded. With tile size 24 the
prey at `100 + 0.4 * 24` (distance 9.6) is captured and the prey at `100 + 0.5 * 24` (distance
12) is not, and in the list of these two and a prey at distance 0 the first and the third
prey are both captured in one pass. -/
theorem consume_marks_within_radius (d : Debugger) (time : Dbl) (cb : Option Nat) (rnd : Rng)
    (bugs : List Bug) (k : Nat) :
    List.Forall₂ (fun b b1 =>
        b1.eaten = (b.eaten || d.withinRadius b) ∧ b1.row = b.row ∧ b1.col = b.col ∧
          b1.position = b.position ∧ b1.tileSize = b.tileSize ∧
          ((b.eaten = true ∨ d.withinRadius b = false) → b1 = b))
      bugs (Debugger.consume time cb rnd d bugs k).2.1 ∧
    (∀ b : Bug, d.withinRadius b = true ↔
      Dbl.sqrt ((b.position.x - d.position.x) * (b.position.x - d.position.x) +
        (b.position.y - d.position.y) * (b.position.y - d.position.y)) <
        d.tileSize * Dbl.ofRat 45 100) ∧
    scenarioHunter.withinRadius (preyAt (100 + Dbl.ofRat 4 10 * 24)) = true ∧
    scenarioHunter.withinRadius (preyAt (100 + Dbl.ofRat 5 10 * 24)) = false ∧
    ((Debugger.consume time cb rnd scenarioHunter
        [preyAt (100 + Dbl.ofRat 4 10 * 24), preyAt (100 + Dbl.ofRat 5 10 * 24), preyAt 100]
        k).2.1.map Bug.eaten
      = [true, false, true]) := by
  have hgen : ∀ (d : Debugger) (bugs : List Bug) (k : Nat), List.Forall₂ (fun b b1 =>
        b1.eaten = (b.eaten || d.withinRadius b) ∧ b1.row = b.row ∧ b1.col = b.col ∧
          b1.position = b.position ∧ b1.tileSize = b.tileSize ∧
          ((b.eaten = true ∨ d.withinRadius b = false) → b1 = b))
      bugs (Debugger.consume time cb rnd d bugs k).2.1 := by
    intro d bugs k
    refine List.Forall₂.imp ?_ (Debugger.consume_spec time cb rnd bugs d k).2.2.2.2.2.2.2
    intro b b1 ⟨h1, h2⟩
    by_cases hc : b.eaten = false ∧ d.withinRadius b = true
    · obtain ⟨dr, rfl⟩ := h1 hc
      refine ⟨?_, rfl, rfl, rfl, rfl, ?_⟩
      · simp [Bug.markEaten, hc.1, hc.2]
      · intro h
        rcases h with h | h
        · rw [hc.1] at h; cases h
        · rw [hc.2] at h; cases h
    · have e := h2 hc
      subst e
      refine ⟨?_, rfl, rfl, rfl, rfl, fun _ => rfl⟩
      cases hb : b1.eaten
      · cases hw : d.withinRadius b1
        · rfl
        · exact absurd ⟨hb, hw⟩ hc
      · rfl
  refine ⟨hgen d bugs k, d.withinRadius_iff, scenario_near, scenario_far, ?_⟩
  have h3 := hgen scenarioHunter
    [preyAt (100 + Dbl.ofRat 4 10 * 24), preyAt (100 + Dbl.ofRat 5 10 * 24), preyAt 100] k
  generalize (Debugger.consume time cb rnd scenarioHunter
    [preyAt (100 + Dbl.ofRat 4 10 * 24), preyAt (100 + Dbl.ofRat 5 10 * 24), preyAt 100]
    k).2.1 = out at h3 ⊢
  cases h3 with
  | cons ha h3 =>
    cases h3 with
    | cons hb h3 =>
      cases h3 with
      | cons hc h3 =>
        cases h3
        simp only [List.map_cons, List.map_nil]
        rw [ha.1, hb.1, hc.1, scenario_near, scenario_far, scenario_at]
        rfl

/-- C7, the claim as stated fails: for `T = 100` and the draw `1 - 2^-52` (0.9999999999999998,
a value of `[0, 1)`) the sum `100 + 4 + 0.9999999999999998 * 6` is rounded to 110, so
`respawnAt` is `T + 10` and not below it. -/
theorem markEaten_respawn_counterexample :
    lateDraw.val = Dbl.ofRat 9999999999999998 10000000000000000 ∧ lateDraw.val < 1 ∧
      ((preyAt 100).markEaten 100 lateDraw).respawnAt = 110 ∧ (100 : Dbl) + 10 = 110 ∧
      ¬ ((preyAt 100).markEaten 100 lateDraw).respawnAt < (100 : Dbl) + 10 := by
  refine ⟨rfl, by decide, rfl, rfl, by decide⟩

/-- C7, amended. For every finite time `T` and every draw, after `markEaten(T)` the prey is
eaten, on the same cell, with `respawnAt = T + 4 + draw * 6` computed in binary64, which lies
between `T + 4` and `T + 4 + 6`, both ends included. `update` at any time before `T + 4` leaves
the prey eaten on its cell. For an eaten prey, `update` respawns it exactly when
`time >= respawnAt`: otherwise it stays eaten on its cell, and then `update` is the call of
`spawn`: it returns what `spawn` returns, not eaten, fails when `spawn` fails, and on a
constructed maze with an open cell it respawns the prey on an open cell. -/
theorem markEaten_respawn_window (b : Bug) (T : Dbl) (hT : T.IsFinite) (dr : Draw) (m : Maze)
    (occ : List (Int × Int)) (rnd : Rng) (k : Nat) :
    (b.markEaten T dr).eaten = true ∧ (b.markEaten T dr).row = b.row ∧
    (b.markEaten T dr).col = b.col ∧
    (b.markEaten T dr).respawnAt = T + 4 + dr.val * 6 ∧
    T + 4 ≤ (b.markEaten T dr).respawnAt ∧ (b.markEaten T dr).respawnAt ≤ T + 4 + 6 ∧
    (∀ time, time < T + 4 → ∃ b1,
      (b.markEaten T dr).update time m occ rnd k = .ok (b1, occ, k) ∧ b1.eaten = true ∧
        b1.row = b.row ∧ b1.col = b.col ∧ b1.respawnAt = (b.markEaten T dr).respawnAt) ∧
    (∀ (e : Bug) (time : Dbl), e.eaten = true →
      (¬ time ≥ e.respawnAt → ∃ b1, e.update time m occ rnd k = .ok (b1, occ, k) ∧
        b1.eaten = true ∧ b1.row = e.row ∧ b1.col = e.col) ∧
      (time ≥ e.respawnAt →
        (∀ b1 occ1 k1, e.spawn m occ rnd k = .ok (b1, occ1, k1) →
          ∃ b2, e.update time m occ rnd k = .ok (b2, occ1, k1) ∧ b2.eaten = false ∧
            b2.row = b1.row ∧ b2.col = b1.col) ∧
        (∀ err, e.spawn m occ rnd k = .error err → e.update time m occ rnd k = .error err) ∧
        (m.Built → (∃ r c, m.isOpen r c = true) →
          ∃ b2 occ1 k1, e.update time m occ rnd k = .ok (b2, occ1, k1) ∧ b2.eaten = false ∧
            m.isOpen b2.row b2.col = true))) := by
  obtain ⟨x1, x2, x3⟩ := dr.val_mul_six
  have hw : (T + 4).Wf := Dbl.add_wf _ _
  have hn : T + 4 ≠ .nan := Dbl.add_ne_nan hT Dbl.isFinite_four
  have hlo : T + 4 ≤ (b.markEaten T dr).respawnAt := Dbl.le_add_right hw hn x1 x2
  have hhi : (b.markEaten T dr).respawnAt ≤ T + 4 + 6 :=
    Dbl.add_le_add_left_of_le hw hn x1 Dbl.isFinite_six x3
  refine ⟨rfl, rfl, rfl, rfl, hlo, hhi, ?_, ?_⟩
  · intro time htime
    refine ⟨_, Bug.update_wait _ time m occ rnd k ?_, rfl, rfl, rfl, rfl⟩
    rintro ⟨-, hge⟩
    exact Dbl.not_le_of_lt (Dbl.lt_of_lt_of_le' htime hlo) hge
  · intro e time he
    refine ⟨?_, ?_⟩
    · intro hlt
      refine ⟨_, Bug.update_wait e time m occ rnd k ?_, he, rfl, rfl⟩
      rintro ⟨-, hge⟩
      exact hlt hge
    · intro hge
      have hcond : e.eaten = true ∧ time ≥ e.respawnAt := ⟨he, hge⟩
      refine ⟨?_, fun err hs => Bug.update_respawn_error e time m occ rnd k hcond err hs, ?_⟩
      · intro b1 occ1 k1 hs
        refine ⟨_, Bug.update_respawn e time m occ rnd k hcond b1 occ1 k1 hs, ?_, rfl, rfl⟩
        unfold Bug.spawn at hs
        cases hsc : Bug.sampleCell m occ rnd 59 k with
        | error err => simp [hsc] at hs
        | ok p =>
          obtain ⟨cell, k0⟩ := p
          simp only [hsc, Except.ok.injEq, Prod.mk.injEq] at hs
          obtain ⟨rfl, -, -⟩ := hs
          rfl
      · intro hm hopen
        obtain ⟨j, cell, -, -, -, -, hcell, b1, hs, e1, e2, e3⟩ :=
          Bug.spawn_spec e hm hopen occ rnd k
        refine ⟨_, _, _, Bug.update_respawn e time m occ rnd k hcond b1 _ _ hs, e3, ?_⟩
        show m.isOpen b1.row b1.col = true
        rw [e1, e2]; exact hcell

theorem markEaten_respawn_window_witness :
    ∃ b1, ((preyAt 100).markEaten 5 (sampleRng 0)).update 8 sampleMaze [] sampleRng 0
        = .ok (b1, [], 0) ∧ b1.eaten = true ∧ b1.row = (preyAt 100).row ∧
      b1.col = (preyAt 100).col ∧
      b1.respawnAt = ((preyAt 100).markEaten 5 (sampleRng 0)).respawnAt :=
  (markEaten_respawn_window (preyAt 100) 5 (by decide) (sampleRng 0) sampleMaze [] sampleRng
    0).2.2.2.2.2.2.1 8 (by decide)

/-- C8. On a constructed maze with an open cell, `spawn` settles on the sample number `j < 60`
(counted from 0) of `getRandomPathCell`: every earlier sample was occupied; if any of the 60
samples is unoccupied the chosen cell is unoccupied (the first such), and if all 60 are occupied
it is the 60th. The prey ends on that cell, which is open, with `eaten = false`; `j + 1` samples
and the draw of `floatPhase` are consumed, and the key of the cell is added to the set. -/
theorem spawn_prefers_unoccupied (b : Bug) (m : Maze) (hm : m.Built)
    (hopen : ∃ r c, m.isOpen r c = true) (occ : List (Int × Int)) (rnd : Rng) (k : Nat) :
    ∃ (j : Nat) (cell : Cell), j < 60 ∧
      m.getRandomPathCell (rnd (k + j)) = some cell ∧
      (∀ i, i < j → ∃ c, m.getRandomPathCell (rnd (k + i)) = some c ∧ (c.row, c.col) ∈ occ) ∧
      ((∃ i, i < 60 ∧ ∃ c, m.getRandomPathCell (rnd (k + i)) = some c ∧ (c.row, c.col) ∉ occ) →
        (cell.row, cell.col) ∉ occ) ∧
      ((∀ i, i < 60 → ∀ c, m.getRandomPathCell (rnd (k + i)) = some c → (c.row, c.col) ∈ occ) →
        j = 59) ∧
      m.isOpen cell.row cell.col = true ∧
      ∃ b1, b.spawn m occ rnd k = .ok (b1, (cell.row, cell.col) :: occ, k + j + 2) ∧
        b1.row = cell.row ∧ b1.col = cell.col ∧ b1.eaten = false := by
  obtain ⟨j, cell, hj, hs, hbefore, hfree, hcell, hb⟩ := Bug.spawn_spec b hm hopen occ rnd k
  refine ⟨j, cell, hj, hs, hbefore, ?_, ?_, hcell, hb⟩
  · rintro ⟨i, hi, c, hc, hfreec⟩
    by_cases hj59 : j < 59
    · exact hfree hj59
    · by_cases hij : i < j
      · obtain ⟨c2, hc2, hocc2⟩ := hbefore i hij
        rw [hc] at hc2
        injection hc2 with hc2
        subst hc2
        exact absurd hocc2 hfreec
      · have : i = j := by omega
        subst this
        rw [hc] at hs
        injection hs with hs
        subst hs
        exact hfreec
  · intro hall
    by_contra hne
    exact hfree (by omega) (hall j hj cell hs)

theorem spawn_prefers_unoccupied_witness :
    ∃ (j : Nat) (cell : Cell), j < 60 ∧
      sampleMaze.getRandomPathCell (sampleRng (0 + j)) = some cell ∧
      (∀ i, i < j → ∃ c, sampleMaze.getRandomPathCell (sampleRng (0 + i)) = some c ∧
        (c.row, c.col) ∈ [((2 : Int), (2 : Int))]) ∧
      ((∃ i, i < 60 ∧ ∃ c, sampleMaze.getRandomPathCell (sampleRng (0 + i)) = some c ∧
          (c.row, c.col) ∉ [((2 : Int), (2 : Int))]) →
        (cell.row, cell.col) ∉ [((2 : Int), (2 : Int))]) ∧
      ((∀ i, i < 60 → ∀ c, sampleMaze.getRandomPathCell (sampleRng (0 + i)) = some c →
          (c.row, c.col) ∈ [((2 : Int), (2 : Int))]) → j = 59) ∧
      sampleMaze.isOpen cell.row cell.col = true ∧
      ∃ b1, (preyAt 100).spawn sampleMaze [(2, 2)] sampleRng 0
          = .ok (b1, (cell.row, cell.col) :: [(2, 2)], 0 + j + 2) ∧
        b1.row = cell.row ∧ b1.col = cell.col ∧ b1.eaten = false :=
  spawn_prefers_unoccupied (preyAt 100) sampleMaze sampleMaze_built ⟨1, 1, by decide⟩ [(2, 2)]
    sampleRng 0

/-- C9. Whenever `Screensaver.update` returns, the prey were updated with the set
`occupiedKeys bugs1` built from the prey list `bugs1` that the hunter's update returned in this
call: its entries are exactly the keys of the prey of `bugs1` that are not eaten, so a prey eaten
by the hunter in this frame contributes no entry, and no entry comes from anywhere else. -/
theorem update_uses_fresh_occupancy (fuel : Nat) (s : Screensaver) (delta : Dbl) (rnd : Rng)
    (k : Nat) (s1 : Screensaver) (ev : List Point) (k2 : Nat)
    (h : Screensaver.update fuel s delta rnd k = .ok (s1, ev, k2)) :
    ∃ dbg bugs1 k1 occ2,
      s.debugger.update fuel s.maze delta s.bugs s.elapsed (some 12) rnd k
        = .ok (dbg, bugs1, ev, k1) ∧
      updateBugs s.elapsed s.maze rnd bugs1 (occupiedKeys bugs1) k1 = .ok (s1.bugs, occ2, k2) ∧
      s1.debugger = dbg ∧
      (∀ key, key ∈ occupiedKeys bugs1 ↔ ∃ b ∈ bugs1, b.eaten = false ∧ b.key = key) ∧
      (∀ b ∈ bugs1, b.eaten = true →
        b.key ∈ occupiedKeys bugs1 → ∃ b2 ∈ bugs1, b2.eaten = false ∧ b2.key = b.key) := by
  unfold Screensaver.update at h
  cases hd : s.debugger.update fuel s.maze delta s.bugs s.elapsed (some 12) rnd k with
  | error e => simp [hd] at h
  | ok p =>
    obtain ⟨dbg, bugs1, ev1, k1⟩ := p
    simp only [hd] at h
    cases hb : updateBugs s.elapsed s.maze rnd bugs1 (occupiedKeys bugs1) k1 with
    | error e => simp [hb] at h
    | ok q =>
      obtain ⟨bugs2, occ2, k2'⟩ := q
      simp only [hb, Except.ok.injEq, Prod.mk.injEq] at h
      obtain ⟨rfl, rfl, rfl⟩ := h
      exact ⟨dbg, bugs1, k1, occ2, rfl, hb, rfl, mem_occupiedKeys bugs1,
        fun b _ _ hk => (mem_occupiedKeys bugs1 b.key).mp hk⟩

theorem update_uses_fresh_occupancy_witness :
    Screensaver.update 2 sampleFrame 0 sampleRng 0 =
      .ok ({ sampleFrame with
          debugger := { sampleHunter with highlight := 1, munchBurst := 1 },
          bugs := [(preyOnHunter.markEaten 1 (sampleRng 0)).updatePosition,
            preyElsewhere.updatePosition] }, [⟨36, 60⟩], 13) ∧
    ∃ dbg bugs1 k1 occ2,
      sampleFrame.debugger.update 2 sampleFrame.maze 0 sampleFrame.bugs sampleFrame.elapsed
        (some 12) sampleRng 0 = .ok (dbg, bugs1, [⟨36, 60⟩], k1) ∧
      updateBugs sampleFrame.elapsed sampleFrame.maze sampleRng bugs1 (occupiedKeys bugs1) k1
        = .ok ([(preyOnHunter.markEaten 1 (sampleRng 0)).updatePosition,
            preyElsewhere.updatePosition], occ2, 13) ∧
      Debugger.mk sampleHunter.current sampleHunter.direction sampleHunter.target
        sampleHunter.progress sampleHunter.speed sampleHunter.tileSize sampleHunter.position 1 1
        = dbg ∧
      (∀ key, key ∈ occupiedKeys bugs1 ↔ ∃ b ∈ bugs1, b.eaten = false ∧ b.key = key) ∧
      (∀ b ∈ bugs1, b.eaten = true →
        b.key ∈ occupiedKeys bugs1 → ∃ b2 ∈ bugs1, b2.eaten = false ∧ b2.key = b.key) :=
  ⟨sampleFrame_update,
    update_uses_fresh_occupancy 2 sampleFrame 0 sampleRng 0 _ _ _ sampleFrame_update⟩

/-- C11, the claim as stated fails, in both directions. On a page (`pageHost`) the call with
`win` and `scheduler` omitted does not throw: the defaults `window` and `setInterval` stand in,
and the scheduler is called. And with the valid window of the test and a scheduler function
that throws, `setupAutoRefresh` throws although no listed condition holds, the scheduler having
been called. -/
theorem setupAutoRefresh_throws_counterexample :
    (JsValue.truthy .undefined = false ∧ JsValue.isFunction .undefined = false ∧
      setupAutoRefresh pageHost .undefined (.number 1000) .undefined =
        ⟨[.scheduled 2 (.number 1000)], .ok (.number 1)⟩) ∧
    (ReloadCapable fakeWindow ∧ JsValue.isFunction (.function 1 []) = true ∧
      setupAutoRefresh busyHost fakeWindow (.number 1000) (.function 1 []) =
        ⟨[.scheduled 1 (.number 1000)], .error (.foreign (.string "busy"))⟩) :=
  ⟨⟨rfl, rfl, rfl⟩, ⟨rfl, _, 0, [], rfl, rfl, rfl⟩, rfl, rfl⟩

/-- C11, amended. Let `w` be `win`, or the global `window` when `win` is undefined (omitted), and
`s` be `scheduler`, or the global `setInterval` when `scheduler` is undefined. Then
`setupAutoRefresh` throws one of its own two configuration errors if and only if `w` is falsy,
`w.location` is falsy, `w.location.reload` is not a function, or `s` is not a function.
Whenever it ends with an error that was not thrown by the scheduler itself, no call was made:
the scheduler was not called and nothing was reloaded. And `setupAutoRefresh({}, 1000, scheduler)`
throws the first configuration error. -/
theorem setupAutoRefresh_throws_iff (host : Host) (win intervalMs scheduler : JsValue) :
    (∀ w s, defaultArg win (lookupGlobal "window" host.window) = .ok w →
      defaultArg scheduler (lookupGlobal "setInterval" host.setInterval) = .ok s →
      (((setupAutoRefresh host win intervalMs scheduler).outcome = .error .requiresWindow ∨
        (setupAutoRefresh host win intervalMs scheduler).outcome = .error .requiresScheduler) ↔
        (w.truthy = false ∨ (∃ l, w.get "location" = .ok l ∧ l.truthy = false) ∨
          (∃ l r, w.get "location" = .ok l ∧ l.get "reload" = .ok r ∧ r.isFunction = false) ∨
          s.isFunction = false))) ∧
    (∀ e, (setupAutoRefresh host win intervalMs scheduler).outcome = .error e →
      (∀ v, e ≠ .foreign v) → (setupAutoRefresh host win intervalMs scheduler).trace = []) ∧
    (∀ s, defaultArg scheduler (lookupGlobal "setInterval" host.setInterval) = .ok s →
      setupAutoRefresh host (.object []) (.number 1000) scheduler =
        ⟨[], .error .requiresWindow⟩) := by
  refine ⟨?_, ?_, ?_⟩
  · intro w s hw hs
    obtain ⟨b, hb⟩ := windowCheck_total w
    cases b
    · -- the window is valid
      have hnot : ¬ (w.truthy = false ∨ (∃ l, w.get "location" = .ok l ∧ l.truthy = false) ∨
          ∃ l r, w.get "location" = .ok l ∧ l.get "reload" = .ok r ∧ r.isFunction = false) := by
        intro h
        have := (windowCheck_true_iff w).2 h
        rw [hb] at this
        cases this
      cases hf : s.isFunction
      · rw [setupAutoRefresh_bad_scheduler hw hs hb hf]
        exact ⟨fun _ => Or.inr (Or.inr (Or.inr rfl)), fun _ => Or.inr rfl⟩
      · obtain ⟨id, props, rfl⟩ := (JsValue.isFunction_iff s).1 hf
        obtain ⟨delay, hd, -⟩ := defaultArg_interval intervalMs
        rw [setupAutoRefresh_call hw hd hs hb]
        constructor
        · intro h
          exfalso
          cases ho : (host.schedule id (refreshCallback host w) delay).outcome with
          | ok v =>
            rw [((host.schedule id (refreshCallback host w) delay).toRun_outcome).1 v ho] at h
            rcases h with h | h <;> cases h
          | error v =>
            rw [((host.schedule id (refreshCallback host w) delay).toRun_outcome).2 v ho] at h
            rcases h with h | h <;> cases h
        · rintro (h | h | h | h)
          · exact absurd (Or.inl h) hnot
          · exact absurd (Or.inr (Or.inl h)) hnot
          · exact absurd (Or.inr (Or.inr h)) hnot
          · cases h
    · rw [setupAutoRefresh_bad_window hw hs hb]
      refine ⟨fun _ => ?_, fun _ => Or.inl rfl⟩
      rcases (windowCheck_true_iff w).1 hb with h | h | h
      · exact Or.inl h
      · exact Or.inr (Or.inl h)
      · exact Or.inr (Or.inr (Or.inl h))
  · intro e he hne
    cases hw : defaultArg win (lookupGlobal "window" host.window) with
    | error e1 => unfold setupAutoRefresh; rw [hw]
    | ok w =>
      obtain ⟨delay, hd, -⟩ := defaultArg_interval intervalMs
      cases hs : defaultArg scheduler (lookupGlobal "setInterval" host.setInterval) with
      | error e1 => unfold setupAutoRefresh; rw [hw, hd, hs]
      | ok s =>
        obtain ⟨b, hb⟩ := windowCheck_total w
        cases b
        · cases hf : s.isFunction
          · rw [setupAutoRefresh_bad_scheduler hw hs hb hf]
          · obtain ⟨id, props, rfl⟩ := (JsValue.isFunction_iff s).1 hf
            rw [setupAutoRefresh_call hw hd hs hb] at he
            exfalso
            cases ho : (host.schedule id (refreshCallback host w) delay).outcome with
            | ok v =>
              rw [((host.schedule id (refreshCallback host w) delay).toRun_outcome).1 v ho] at he
              cases he
            | error v =>
              rw [((host.schedule id (refreshCallback host w) delay).toRun_outcome).2 v ho] at he
              cases he
              exact hne v rfl
        · rw [setupAutoRefresh_bad_window hw hs hb]
  · intro s hs
    exact @setupAutoRefresh_bad_window host (.object []) (.number 1000) scheduler (.object []) s
      rfl hs rfl

theorem setupAutoRefresh_throws_iff_witness :
    ((setupAutoRefresh testHost (.object []) (.number 1000) (.function 1 [])).outcome =
        .error .requiresWindow ∨
      (setupAutoRefresh testHost (.object []) (.number 1000) (.function 1 [])).outcome =
        .error .requiresScheduler) ↔
      (JsValue.truthy (.object []) = false ∨
        (∃ l, JsValue.get (.object []) "location" = .ok l ∧ l.truthy = false) ∨
        (∃ l r, JsValue.get (.object []) "location" = .ok l ∧ l.get "reload" = .ok r ∧
          r.isFunction = false) ∨
        JsValue.isFunction (.function 1 []) = false) :=
  (setupAutoRefresh_throws_iff testHost (.object []) (.number 1000) (.function 1 [])).1
    (.object []) (.function 1 []) rfl rfl

/-- C12. For every window that can be asked to reload, every `intervalMs` and every scheduler
function, `setupAutoRefresh` makes exactly one call of its own, the call of the scheduler with
the callback and the delay, which is the given `intervalMs` (for an undefined, that is omitted,
`intervalMs` the default of 30 minutes); everything else that happens is what the scheduler
does, so with a scheduler that defers the callback the scheduler call is the only call and
nothing is reloaded. The value the scheduler returns is returned unchanged. Each invocation of
the callback calls `win.location.reload` once and does nothing else of its own. -/
theorem setupAutoRefresh_schedules_once (host : Host) (win intervalMs : JsValue) (id : Nat)
    (props : List (String × JsValue)) (hwin : ReloadCapable win) :
    ∃ delay, (intervalMs ≠ .undefined → delay = intervalMs) ∧
      (intervalMs = .undefined → delay = .number DEFAULT_REFRESH_INTERVAL) ∧
      (setupAutoRefresh host win intervalMs (.function id props)).trace =
        .scheduled id delay :: (host.schedule id (refreshCallback host win) delay).trace ∧
      ((host.schedule id (refreshCallback host win) delay).trace = [] →
        (setupAutoRefresh host win intervalMs (.function id props)).trace =
          [.scheduled id delay]) ∧
      (∀ v, (host.schedule id (refreshCallback host win) delay).outcome = .ok v →
        (setupAutoRefresh host win intervalMs (.function id props)).outcome = .ok v) ∧
      ∃ location rid rprops, win.get "location" = .ok location ∧
        location.get "reload" = .ok (.function rid rprops) ∧
        (refreshCallback host win).trace = .reloaded rid :: (host.invoke rid).trace ∧
        ((host.invoke rid).trace = [] → (refreshCallback host win).trace = [.reloaded rid]) ∧
        (∀ v, (host.invoke rid).outcome = .ok v →
          (refreshCallback host win).outcome = .ok .undefined) := by
  obtain ⟨delay, hd, h1, h2⟩ := defaultArg_interval intervalMs
  have hwd : win ≠ .undefined := by
    intro h
    rw [h] at hwin
    exact absurd hwin.1 (by decide)
  have hfd : JsValue.function id props ≠ .undefined := fun h => by cases h
  have hrun := @setupAutoRefresh_call host win intervalMs (.function id props) win delay id props
    (defaultArg_defined hwd _) hd (defaultArg_defined hfd _) ((windowCheck_false_iff win).2 hwin)
  obtain ⟨-, location, rid, rprops, hl, -, hr⟩ := hwin
  obtain ⟨c1, c2, -⟩ := refreshCallback_spec host hl hr
  refine ⟨delay, h1, h2, ?_, ?_, ?_, location, rid, rprops, hl, hr, c1, ?_, c2⟩
  · rw [hrun]; rfl
  · intro h
    rw [hrun]
    show RefreshEvent.scheduled id delay :: (host.schedule id _ delay).trace = _
    rw [h]
  · intro v hv
    rw [hrun]
    exact ((host.schedule id (refreshCallback host win) delay).toRun_outcome).1 v hv
  · intro h
    rw [c1, h]

theorem setupAutoRefresh_schedules_once_witness :
    ReloadCapable fakeWindow ∧
      setupAutoRefresh testHost fakeWindow (.number 1000) (.function 1 []) =
        ⟨[.scheduled 1 (.number 1000)], .ok (.number 1234)⟩ ∧
      refreshCallback testHost fakeWindow = ⟨[.reloaded 0], .ok .undefined⟩ ∧
      ∃ delay, ((JsValue.number 1000) ≠ .undefined → delay = .number 1000) ∧
        (setupAutoRefresh testHost fakeWindow (.number 1000) (.function 1 [])).trace =
          .scheduled 1 delay ::
            (testHost.schedule 1 (refreshCallback testHost fakeWindow) delay).trace :=
  ⟨⟨rfl, _, 0, [], rfl, rfl, rfl⟩, rfl, rfl,
    (setupAutoRefresh_schedules_once testHost fakeWindow (.number 1000) 1 []
      ⟨rfl, _, 0, [], rfl, rfl, rfl⟩).imp fun _ h => ⟨h.1, h.2.2.1⟩⟩

/-- C13, the claim as stated fails: `new Maze(3, 1)` returns a maze with `cols = 1` whose grid has
a row of two entries (the start cell `grid[1][1]` is written past the end of its row). -/
theorem maze_dimensions_counterexample :
    Maze.new 7 3 1 sampleRng 0 = .ok (degenerateMaze, 3) ∧ degenerateMaze.cols = 1 ∧
      ∃ row ∈ degenerateMaze.walls, (row.length : Int) ≠ degenerateMaze.cols :=
  ⟨rfl, rfl, [Tile.wall, Tile.floor], by decide, by decide⟩

/-- C13, amended. Whenever `new Maze(rows, cols)` returns, the maze's `rows` (resp. `cols`) is the
request when it is odd and the request plus one when it is even, the grid has exactly `rows`
rows, and for a request of at least two columns every row has exactly `cols` entries. It does
return for at least two rows and two columns once the fuel covers the carving loop; a 5 × 5
request gives a 5 × 5 grid and a 6 × 6 request a 7 × 7 grid. -/
theorem maze_dimensions (rows cols : Int) (rnd : Rng) (k : Nat) :
    (∀ fuel m k1, Maze.new fuel rows cols rnd k = .ok (m, k1) →
      m.rows = (if rows % 2 = 0 then rows + 1 else rows) ∧
      m.cols = (if cols % 2 = 0 then cols + 1 else cols) ∧
      (m.walls.length : Int) = m.rows ∧
      (2 ≤ cols → ∀ row ∈ m.walls, (row.length : Int) = m.cols)) ∧
    (2 ≤ rows → 2 ≤ cols → forceOdd cols < 4294967296 →
      ∀ fuel, 2 * ((forceOdd rows).toNat * (forceOdd cols).toNat) + 1 ≤ fuel →
        ∃ m k1, Maze.new fuel rows cols rnd k = .ok (m, k1)) ∧
    (∀ fuel, 51 ≤ fuel → ∃ m k1, Maze.new fuel 5 5 rnd k = .ok (m, k1) ∧
      m.rows = 5 ∧ m.cols = 5 ∧ m.walls.length = 5 ∧ ∀ row ∈ m.walls, row.length = 5) ∧
    (∀ fuel, 99 ≤ fuel → ∃ m k1, Maze.new fuel 6 6 rnd k = .ok (m, k1) ∧
      m.rows = 7 ∧ m.cols = 7 ∧ m.walls.length = 7 ∧ ∀ row ∈ m.walls, row.length = 7) := by
  have part1 : ∀ (rows cols : Int) fuel m k1, Maze.new fuel rows cols rnd k = .ok (m, k1) →
      m.rows = forceOdd rows ∧ m.cols = forceOdd cols ∧ (m.walls.length : Int) = m.rows ∧
      (2 ≤ cols → ∀ row ∈ m.walls, (row.length : Int) = m.cols) := by
    intro rows cols fuel m k1 h
    obtain ⟨hg, e1, e2, -⟩ := Maze.new_eq h
    have hF := Maze.new_framed h
    refine ⟨e1, e2, hF.len, ?_⟩
    intro hc2
    have hc2' : 2 ≤ forceOdd cols := by unfold forceOdd; split_ifs <;> omega
    have hE := generateLayout_exact (forceOdd_odd rows) (forceOdd_odd cols) hc2' hg
    rw [← e1, ← e2] at hE
    exact hE.row_length hF (by omega)
  have part2 : ∀ (rows cols : Int), 2 ≤ rows → 2 ≤ cols → forceOdd cols < 4294967296 →
      ∀ fuel, 2 * ((forceOdd rows).toNat * (forceOdd cols).toNat) + 1 ≤ fuel →
        ∃ m k1, Maze.new fuel rows cols rnd k = .ok (m, k1) := by
    intro rows cols hr hc hlim fuel hfuel
    have hr3 : 3 ≤ forceOdd rows := by unfold forceOdd; split_ifs <;> omega
    have hc1 : 1 ≤ forceOdd cols := by unfold forceOdd; split_ifs <;> omega
    obtain ⟨g4, k4, hg⟩ := generateLayout_total hr3 (forceOdd_odd rows) hc1 (forceOdd_odd cols)
      hlim rnd k fuel hfuel
    refine ⟨⟨forceOdd rows, forceOdd cols, g4,
      collectPathCells (forceOdd rows) (forceOdd cols) g4⟩, k4, ?_⟩
    simp only [Maze.new, hg]
  refine ⟨part1 rows cols, part2 rows cols, ?_, ?_⟩
  · intro fuel hfuel
    obtain ⟨m, k1, h⟩ := part2 5 5 (by norm_num) (by norm_num) (by decide) fuel
      (by
        have e : forceOdd 5 = 5 := by decide
        rw [e]
        exact hfuel)
    obtain ⟨a1, a2, a3, a4⟩ := part1 5 5 fuel m k1 h
    have e : forceOdd 5 = 5 := by decide
    rw [e] at a1 a2
    rw [a1] at a3
    rw [a2] at a4
    refine ⟨m, k1, h, a1, a2, by omega, ?_⟩
    intro row hrow
    have := a4 (by norm_num) row hrow
    omega
  · intro fuel hfuel
    obtain ⟨m, k1, h⟩ := part2 6 6 (by norm_num) (by norm_num) (by decide) fuel
      (by
        have e : forceOdd 6 = 7 := by decide
        rw [e]
        exact hfuel)
    obtain ⟨a1, a2, a3, a4⟩ := part1 6 6 fuel m k1 h
    have e : forceOdd 6 = 7 := by decide
    rw [e] at a1 a2
    rw [a1] at a3
    rw [a2] at a4
    refine ⟨m, k1, h, a1, a2, by omega, ?_⟩
    intro row hrow
    have := a4 (by norm_num) row hrow
    omega

theorem maze_dimensions_witness :
    Maze.new 51 5 5 sampleRng 0 = .ok (sampleMaze, 27) ∧
      sampleMaze.rows = (if (5 : Int) % 2 = 0 then 5 + 1 else 5) ∧
      sampleMaze.cols = (if (5 : Int) % 2 = 0 then 5 + 1 else 5) ∧
      (sampleMaze.walls.length : Int) = sampleMaze.rows ∧
      ((2 : Int) ≤ 5 → ∀ row ∈ sampleMaze.walls, (row.length : Int) = sampleMaze.cols) :=
  ⟨sampleMaze_generated, (maze_dimensions 5 5 sampleRng 0).1 51 sampleMaze 27 sampleMaze_generated⟩

/-- C14, the claim as stated fails: `tinyMaze`, the maze that `new Maze(3, 3)` returns, has an open
cell, the hunter's current cell has no open neighbour, and `chooseNextDirection` returns for no
amount of fuel (the relocation lands on the same cell again). -/
theorem chooseNextDirection_recovery_counterexample :
    Maze.new 19 3 3 sampleRng 0 = .ok (tinyMaze, 5) ∧ tinyMaze.isOpen 1 1 = true ∧
      tinyMaze.getNeighbors tinyHunter.current.row tinyHunter.current.col = [] ∧
      ¬ ∃ fuel d1 k1,
        Debugger.chooseNextDirection tinyMaze sampleRng fuel tinyHunter 0 = .ok (d1, k1) := by
  refine ⟨rfl, by decide, by decide, ?_⟩
  rintro ⟨fuel, d1, k1, h⟩
  rw [tinyMaze_stuck sampleRng fuel tinyHunter 0 rfl] at h
  cases h

/-- C14, amended. On a constructed maze in which some open cell has an open neighbour, for a
hunter whose current cell has no open neighbour, `chooseNextDirection` returns after one
relocation (two calls): the hunter is on the cell `restart` that `getRandomPathCell` sampled,
with progress 0 and its position at the centre of `restart`, and the direction is picked from
the open neighbours of `restart`, so the target is an open cell 4-adjacent to the new current
cell. -/
theorem chooseNextDirection_recovers (m : Maze) (hm : m.Built)
    (hnav : ∃ r c, m.isOpen r c = true ∧ m.getNeighbors r c ≠ []) (rnd : Rng) (fuel : Nat)
    (hfuel : 2 ≤ fuel) (d : Debugger) (k : Nat)
    (hstuck : m.getNeighbors d.current.row d.current.col = []) :
    ∃ restart dir, m.getRandomPathCell (rnd k) = some restart ∧
      dir ∈ m.getNeighbors restart.row restart.col ∧
      Debugger.chooseNextDirection m rnd fuel d k =
        .ok ({ d with current := restart,
                      direction := dir,
                      target := ⟨restart.row + dir.dy, restart.col + dir.dx⟩,
                      position := d.getTileCenter restart.col restart.row,
                      progress := 0 }, k + 2) ∧
      m.isOpen (restart.row + dir.dy) (restart.col + dir.dx) = true ∧
      Adjacent restart ⟨restart.row + dir.dy, restart.col + dir.dx⟩ := by
  obtain ⟨f, rfl⟩ : ∃ f, fuel = f + 2 := ⟨fuel - 2, by omega⟩
  obtain ⟨restart, hcell, -, -, hne⟩ := (Maze.getRandomPathCell_spec hm (rnd k)).2 hnav
  obtain ⟨o, os, hos⟩ := List.exists_cons_of_ne_nil hne
  have hnd : (o :: os).Nodup := by rw [← hos]; exact m.getNeighbors_nodup _ _
  obtain ⟨-, hmem, -⟩ := pickDirection_spec o os hnd d.direction (rnd (k + 1))
  rw [← hos] at hmem
  refine ⟨restart, pickDirection o os d.direction (rnd (k + 1)), hcell, hmem, ?_,
    (Maze.neighbor_step hmem).1, (Maze.neighbor_step hmem).2⟩
  rw [Debugger.chooseNextDirection_nil m rnd (f + 1) d k restart hstuck hcell,
    Debugger.chooseNextDirection_cons m rnd f _ (k + 1) o os hos]

theorem chooseNextDirection_recovers_witness :
    ∃ restart dir, sampleMaze.getRandomPathCell (sampleRng 0) = some restart ∧
      dir ∈ sampleMaze.getNeighbors restart.row restart.col ∧
      Debugger.chooseNextDirection sampleMaze sampleRng 2 { sampleHunter with current := ⟨0, 0⟩ } 0
        = .ok ({ sampleHunter with
            current := restart,
            direction := dir,
            target := ⟨restart.row + dir.dy, restart.col + dir.dx⟩,
            position := sampleHunter.getTileCenter restart.col restart.row,
            progress := 0 }, 0 + 2) ∧
      sampleMaze.isOpen (restart.row + dir.dy) (restart.col + dir.dx) = true ∧
      Adjacent restart ⟨restart.row + dir.dy, restart.col + dir.dx⟩ :=
  chooseNextDirection_recovers sampleMaze sampleMaze_built ⟨1, 1, by decide, by decide⟩ sampleRng 2
    (by decide) { sampleHunter with current := ⟨0, 0⟩ } 0 (by decide)

end OfficeGhosts
